import Mathlib

/-!
# gotree: the directory walk and the size formatter

A shallow embedding of `cmd/gotree/main.go`.

* The filesystem below the root is a finite tree of `Node`s: what `os.ReadDir`
  answers at each directory (a listing, or an error), the name and kind of
  every entry, and what `e.Info()` answers for a file.
* `walk` performs two kinds of effect, `os.ReadDir` and `fmt.Println`.  The
  embedding returns them in order as a list of `Event`s next to the `error`
  result.  A `println` event stores the printed line together with the values
  the local variables of `walk` have at that moment (path of the entry, the
  entry, `level`, `guides`, `isLast`); `stdout` keeps the printed lines only.
* `sort.Slice` and `strings.ToLower` are library code.  `Lib` states what the
  walk relies on: `sort.Slice` permutes the slice and leaves it ordered for a
  strict weak `less` (it is not stable, so nothing more is assumed), and
  `strings.ToLower` lower-cases ASCII letters.  Every theorem holds for every
  such library; `goLib` is one of them and is used to run examples.
* Names are Lean strings, compared character by character in code point
  order, which on valid UTF-8 is the byte order Go compares strings in.
* `humanSize` works on `float64`.  The conversion of the byte count is modelled
  exactly (`float64`), division by 1024 is exact in binary floating point, so
  the running value is kept as a fraction `m / den`, and `%.1f` rounds that
  exact value to one decimal, ties to even (`fmtF1`).
-/

namespace Gotree

/-! ## Strings -/

/-- Go `strings.HasPrefix`. -/
def HasPrefix (s pre : String) : Bool := pre.data.isPrefixOf s.data

/-- Lower-casing of the ASCII letters, every other character unchanged. -/
def asciiLower (s : String) : String := ⟨s.data.map Char.toLower⟩

/-! ## humanSize -/

/-- Go `float64(n)` for an integer `n`: the nearest value with a 53-bit
mantissa, ties to even.  The result is again an integer. -/
def float64 (n : Int) : Int :=
  let a := n.natAbs
  if a < 2 ^ 53 then n
  else
    let e := Nat.log2 a - 52
    let q := a / 2 ^ e
    let r := a % 2 ^ e
    let half := 2 ^ (e - 1)
    let q1 := if r > half ∨ (r = half ∧ q % 2 = 1) then q + 1 else q
    Int.sign n * ((q1 * 2 ^ e : Nat) : Int)

/-- Go `fmt.Sprintf("%.1f", d)` for the non-negative value `d = num / den`:
`d` rounded to tenths, ties to even, printed with exactly one decimal. -/
def fmtF1 (num den : Nat) : String :=
  let q := (10 * num) / den
  let r := (10 * num) % den
  let t := if 2 * r > den ∨ (2 * r = den ∧ q % 2 = 1) then q + 1 else q
  toString (t / 10) ++ "." ++ toString (t % 10)

/-- The `for i := 0; i < len(units); i++` loop of `humanSize` and the final
`return`: the running value is `d = m / den`; `units` are the labels
`units[i:]` still to try. -/
def humanSizeLoop (m den : Nat) : List String → String
  | [] => fmtF1 m den ++ "PiB"
  | u :: us => if m < 1024 * den then fmtF1 m den ++ u else humanSizeLoop m (den * 1024) us

/-- Go `humanSize(n int64) string`. -/
def humanSize (n : Int) : String :=
  if n < 1024 then toString n ++ "B"
  else humanSizeLoop (float64 n).toNat 1 ["KiB", "MiB", "GiB", "TiB"]

/-! ## The filesystem and the options -/

/-- A Go `error` value, by its message. -/
abbrev IOError := String

/-- What the filesystem holds at one path: a non-directory with the size
`e.Info()` reports (`none` when `e.Info()` fails), a directory with the entries
`os.ReadDir` returns for it, or a directory on which `os.ReadDir` fails with
`err` (it holds its entries all the same, `walk` drops whatever `os.ReadDir`
returns next to an error). -/
inductive Node where
  | file (name : String) (size : Option Int)
  | dir (name : String) (entries : List Node)
  | unreadable (name : String) (err : IOError) (entries : List Node)
deriving Repr

/-- Go `e.Name()`. -/
def Node.Name : Node → String
  | .file name _ => name
  | .dir name _ => name
  | .unreadable name _ _ => name

/-- Go `e.IsDir()`. -/
def Node.IsDir : Node → Bool
  | .file _ _ => false
  | .dir _ _ => true
  | .unreadable _ _ _ => true

/-- Go `e.Info()` followed by `info.Size()`; `none` when `e.Info()` returns an
error.  `walk` asks it of non-directories only. -/
def Node.Info : Node → Option Int
  | .file _ size => size
  | .dir _ _ => none
  | .unreadable _ _ _ => none

/-- The entries the filesystem holds in `d`, whether or not they can be listed. -/
def Node.entries : Node → List Node
  | .file _ _ => []
  | .dir _ entries => entries
  | .unreadable _ _ entries => entries

/-- Go `os.ReadDir(p)` where the filesystem holds `d` at `p`. -/
def ReadDir : Node → Except IOError (List Node)
  | .file _ _ => .error "not a directory"
  | .dir _ entries => .ok entries
  | .unreadable _ err _ => .error err

mutual
/-- No directory of the tree fails to list. -/
def Node.Readable : Node → Bool
  | .file _ _ => true
  | .dir _ entries => allReadable entries
  | .unreadable _ _ _ => false
/-- No directory of these trees fails to list. -/
def allReadable : List Node → Bool
  | [] => true
  | e :: es => e.Readable && allReadable es
end

/-- The CLI options (Go `type opts struct`). -/
structure opts where
  depth : Int
  all : Bool
  dirsOnly : Bool
  showSize : Bool
deriving Repr, DecidableEq

/-! ## Library contract -/

/-- What Go asks of a `less` function: a strict weak ordering. -/
def IsStrictWeak (less : Node → Node → Bool) : Prop :=
  (∀ a, less a a = false) ∧
  (∀ a b c, less a b = true → less b c = true → less a c = true) ∧
  (∀ a b c, less a b = false → less b c = false → less a c = false)

/-- The library functions `walk` calls, with the part of their contract the
walk relies on. -/
structure Lib where
  /-- Go `strings.ToLower`. -/
  ToLower : String → String
  /-- On ASCII text `strings.ToLower` lower-cases the letters `A`..`Z`. -/
  ToLower_ascii : ∀ s : String, (∀ c ∈ s.data, c.val < 128) → ToLower s = asciiLower s
  /-- Go `sort.Slice(x, less)`: the slice after the call. -/
  sortSlice : (Node → Node → Bool) → List Node → List Node
  /-- The call `sort.Slice` only swaps elements. -/
  sortSlice_perm : ∀ less xs, (sortSlice less xs).Perm xs
  /-- After `sort.Slice` no element is `less` than one before it. -/
  sortSlice_sorted : ∀ less xs, IsStrictWeak less →
    (sortSlice less xs).Pairwise (fun a b => less b a = false)

/-- Insertion of `a` into an ordered list, after the elements `less` than it. -/
def insertSorted (less : Node → Node → Bool) (a : Node) : List Node → List Node
  | [] => [a]
  | b :: l => if less b a then b :: insertSorted less a l else a :: b :: l

/-- Insertion sort (what `sort.Slice` runs on slices of at most 12 elements). -/
def insertionSort (less : Node → Node → Bool) : List Node → List Node
  | [] => []
  | a :: l => insertSorted less a (insertionSort less l)

/-! ## walk -/

/-- The effects of `walk`, in the order they happen.
`readDir p d level`: `os.ReadDir(p)` was called by the call of `walk` at
`level`, the filesystem holding `d` at `p`.
`println line p e level guides isLast`: `fmt.Println(line)` was called for the
entry `e`, whose path is `p`, inside the call of `walk` with these `level` and
`guides`, and `isLast` was computed for `e`.  The entry is at depth
`level + 1`. -/
inductive Event where
  | readDir (p : List String) (d : Node) (level : Nat)
  | println (line : String) (p : List String) (e : Node) (level : Nat)
      (guides : List Bool) (isLast : Bool)
deriving Repr

/-- The lines written to standard output by a run. -/
def stdout : List Event → List String
  | [] => []
  | .readDir _ _ _ :: evs => stdout evs
  | .println line _ _ _ _ _ :: evs => line :: stdout evs

/-- A `for idx, e := range xs` loop whose body either goes on (`none`) or
makes the enclosing function return an error (`some err`); `idx` counts from
the given start. -/
def forRange {α : Type} (body : Nat → α → List Event × Option IOError) :
    Nat → List α → List Event × Option IOError
  | _, [] => ([], none)
  | idx, e :: rest =>
    match body idx e with
    | (out, some err) => (out, some err)
    | (out, none) =>
      (out ++ (forRange body (idx + 1) rest).1, (forRange body (idx + 1) rest).2)

/-- The two `continue` tests of the filter loop, negated: `e` is appended to
`filtered`. -/
def keep (o : opts) (e : Node) : Bool :=
  !(!o.all && HasPrefix e.Name ".") && !(o.dirsOnly && !e.IsDir)

/-- The `less` closure given to `sort.Slice`. -/
def less (L : Lib) (ei ej : Node) : Bool :=
  if ei.IsDir != ej.IsDir then ei.IsDir && !ej.IsDir
  else decide (L.ToLower ei.Name < L.ToLower ej.Name)

/-- The slice `filtered` after `sort.Slice`. -/
def filtered (L : Lib) (o : opts) (entries : List Node) : List Node :=
  L.sortSlice (less L) (entries.filter (keep o))

/-- The variable `branch`. -/
def branch (isLast : Bool) : String :=
  if isLast then "└── " else "├── "

/-- The variable `line` when it is printed. -/
def lineOf (o : opts) (pfx : String) (isLast : Bool) (e : Node) : String :=
  let line := pfx ++ branch isLast ++ e.Name
  if o.showSize && !e.IsDir then
    match e.Info with
    | some size => line ++ (" (" ++ humanSize size ++ ")")
    | none => line
  else line

/-- The variable `nextPrefix`. -/
def nextPrefix (pfx : String) (isLast : Bool) : String :=
  if isLast then pfx ++ "    " else pfx ++ "│   "

/-- Go `walk(p, o, level, guides, prefix)` where the filesystem holds `d` at
the path `p` (a path is the list of names below the root, `filepath.Join(p,
name)` is `p ++ [name]`).  Returns the effects performed and the returned
`error` (`none` for `nil`). -/
def walk (L : Lib) (o : opts) (p : List String) (d : Node) (level : Nat)
    (guides : List Bool) (pfx : String) : List Event × Option IOError :=
  if o.depth > 0 ∧ (level : Int) ≥ o.depth then ([], none)
  else
    match h : ReadDir d with
    | .error err => ([Event.readDir p d level], some err)
    | .ok entries =>
      let r := forRange (fun idx (x : {e // e ∈ filtered L o entries}) =>
        let e := x.1
        let isLast := idx == (filtered L o entries).length - 1
        let line := lineOf o pfx isLast e
        if e.IsDir then
          let r := walk L o (p ++ [e.Name]) e (level + 1) (guides ++ [!isLast])
            (nextPrefix pfx isLast)
          (Event.println line (p ++ [e.Name]) e level guides isLast :: r.1, r.2)
        else ([Event.println line (p ++ [e.Name]) e level guides isLast], none))
        0 (filtered L o entries).attach
      (Event.readDir p d level :: r.1, r.2)
termination_by sizeOf d
decreasing_by
  have h1 : x.1 ∈ entries :=
    (List.mem_filter.mp ((L.sortSlice_perm _ _).subset x.2)).1
  have h2 := List.sizeOf_lt_of_mem h1
  cases d <;> simp [ReadDir] at h
  subst h
  simp
  omega

/-- The body of the `for idx, e := range filtered` loop of `walk`, `n` being
`len(filtered)`. -/
def visit (L : Lib) (o : opts) (p : List String) (level : Nat) (guides : List Bool)
    (pfx : String) (n : Nat) (idx : Nat) (e : Node) : List Event × Option IOError :=
  let isLast := idx == n - 1
  let line := lineOf o pfx isLast e
  if e.IsDir then
    let r := walk L o (p ++ [e.Name]) e (level + 1) (guides ++ [!isLast])
      (nextPrefix pfx isLast)
    (Event.println line (p ++ [e.Name]) e level guides isLast :: r.1, r.2)
  else ([Event.println line (p ++ [e.Name]) e level guides isLast], none)

/-- Go `main` from the call of `walk` on: the walk of the root `d`. -/
def render (L : Lib) (o : opts) (d : Node) : List Event × Option IOError :=
  walk L o [] d 0 [] ""

/-- A library meeting the contract: ASCII lower-casing and insertion sort. -/
def goLib : Lib where
  ToLower := asciiLower
  ToLower_ascii := fun _ _ => rfl
  sortSlice := insertionSort
  sortSlice_perm := by
    intro less xs
    have hins : ∀ (a : Node) (l : List Node), (insertSorted less a l).Perm (a :: l) := by
      intro a l
      induction l with
      | nil => exact List.Perm.refl _
      | cons b l ih =>
        unfold insertSorted
        split
        · exact ((List.Perm.cons b ih).trans (List.Perm.swap a b l))
        · exact List.Perm.refl _
    induction xs with
    | nil => exact List.Perm.refl _
    | cons a l ih => exact (hins a _).trans (List.Perm.cons a ih)
  sortSlice_sorted := by
    intro less xs hw
    obtain ⟨hirr, htr, hntr⟩ := hw
    have hmem : ∀ (a : Node) (l : List Node) (y : Node),
        y ∈ insertSorted less a l → y = a ∨ y ∈ l := by
      intro a l
      induction l with
      | nil => intro y hy; simpa [insertSorted] using hy
      | cons b l ih =>
        intro y hy
        unfold insertSorted at hy
        split at hy
        · rcases List.mem_cons.mp hy with h | h
          · exact Or.inr (h ▸ List.mem_cons_self _ _)
          · rcases ih y h with h | h
            · exact Or.inl h
            · exact Or.inr (List.mem_cons_of_mem _ h)
        · rcases List.mem_cons.mp hy with h | h
          · exact Or.inl h
          · exact Or.inr h
    have hins : ∀ (a : Node) (l : List Node), l.Pairwise (fun x y => less y x = false) →
        (insertSorted less a l).Pairwise (fun x y => less y x = false) := by
      intro a l
      induction l with
      | nil => intro _; simp [insertSorted]
      | cons b l ih =>
        intro hs
        have hb : ∀ y ∈ l, less y b = false := fun y hy => List.rel_of_pairwise_cons hs hy
        have hl := List.Pairwise.of_cons hs
        unfold insertSorted
        split
        · rename_i hba
          refine List.Pairwise.cons ?_ (ih hl)
          intro y hy
          rcases hmem a l y hy with h | h
          · subst h
            cases hab : less y b with
            | false => rfl
            | true => have := htr _ _ _ hab hba; rw [hirr] at this; cases this
          · exact hb _ h
        · rename_i hba
          have hba : less b a = false := by simpa using hba
          refine List.Pairwise.cons ?_ hs
          intro y hy
          rcases List.mem_cons.mp hy with h | h
          · subst h; exact hba
          · exact hntr _ _ _ (hb _ h) hba
    induction xs with
    | nil => exact List.Pairwise.nil
    | cons a l ih => exact hins a _ ih

/-- The default options of the command line. -/
def defaultOpts : opts := { depth := 0, all := false, dirsOnly := false, showSize := false }

/-! ## Reading a run -/

/-- The 4-character guide an ancestor contributes to the prefix; the flag is
the element `!isLast` that `walk` appends to `guides` for that ancestor. -/
def guide (g : Bool) : String :=
  if g then "│   " else "    "

/-- The guides of `guides` put one after the other, outermost ancestor first. -/
def guidePrefix : List Bool → String
  | [] => ""
  | g :: gs => guide g ++ guidePrefix gs

/-- What `walk` appends to `prefix + branch + name` before printing: the size
annotation, or nothing. -/
def sizeNote (o : opts) (e : Node) : String :=
  if o.showSize && !e.IsDir then
    match e.Info with
    | some size => " (" ++ humanSize size ++ ")"
    | none => ""
  else ""

/-- The entry an event is about. -/
def Event.node : Event → Node
  | .readDir _ d _ => d
  | .println _ _ e _ _ _ => e

/-- The value of `isLast` at a `println` (`false` for a `readDir`). -/
def Event.isLast : Event → Bool
  | .readDir _ _ _ => false
  | .println _ _ _ _ _ isLast => isLast

/-- The line of a `println` (empty for a `readDir`). -/
def Event.line : Event → String
  | .readDir _ _ _ => ""
  | .println line _ _ _ _ _ => line

/-- The `println` events made at `level`, in order.  Among the events of a call
of `walk` made at `level` these are the lines of the children of the directory
that call lists (nested calls print at deeper levels). -/
def childLines (level : Nat) : List Event → List Event
  | [] => []
  | .readDir _ _ _ :: evs => childLines level evs
  | .println line p e lvl guides isLast :: evs =>
    if lvl = level then .println line p e lvl guides isLast :: childLines level evs
    else childLines level evs

/-- The directories a run lists, each with its path, in order. -/
def listed : List Event → List (List String × Node)
  | [] => []
  | .readDir p d _ :: evs => (p, d) :: listed evs
  | .println _ _ _ _ _ _ :: evs => listed evs

/-- The entries a run prints a line for, each with its path, in order. -/
def printed : List Event → List (List String × Node)
  | [] => []
  | .readDir _ _ _ :: evs => printed evs
  | .println _ p e _ _ _ :: evs => (p, e) :: printed evs

/-- The children of the directory `d` at path `p` that pass the hidden and the
directoriesOnly filter, each with its path (none when `d` cannot be listed). -/
def keptChildren (o : opts) (x : List String × Node) : List (List String × Node) :=
  match ReadDir x.2 with
  | .ok entries => (entries.filter (keep o)).map (fun e => (x.1 ++ [e.Name], e))
  | .error _ => []

/-- The order `sort.Slice` leaves `filtered` in: no non-directory before a
directory, and among entries of one kind the lower-cased names do not
decrease. -/
def Ordered (L : Lib) (a b : Node) : Prop :=
  (b.IsDir = true → a.IsDir = true) ∧
  (a.IsDir = b.IsDir → L.ToLower a.Name ≤ L.ToLower b.Name)

/-- The variable `level` of the call an event belongs to. -/
def Event.level : Event → Nat
  | .readDir _ _ level => level
  | .println _ _ _ level _ _ => level

/-- The `println` events of a loop over `es` that is not cut short, the first
entry having index `idx` and `n` being `len(filtered)`. -/
def childEvents (o : opts) (p : List String) (level : Nat) (guides : List Bool)
    (pfx : String) (n : Nat) : Nat → List Node → List Event
  | _, [] => []
  | idx, e :: rest =>
    .println (lineOf o pfx (idx == n - 1) e) (p ++ [e.Name]) e level guides (idx == n - 1) ::
      childEvents o p level guides pfx n (idx + 1) rest

/-! ## Sample trees -/

/-- A root with the directory `A`, holding the file `x`, and the file `b`. -/
def treeNested : Node :=
  .dir "r" [.file "b" none, .dir "A" [.file "x" none]]

/-- A root with the single file `f` of size 0. -/
def treeSized : Node :=
  .dir "r" [.file "f" (some 0)]

/-- The options `--size`. -/
def sizeOpts : opts := { depth := 0, all := false, dirsOnly := false, showSize := true }

/-- The root of the scenarios of the specification: the file `b.txt`, the empty
directory `A` and the file `.hidden`. -/
def treeScenario : Node :=
  .dir "r" [.file "b.txt" none, .dir "A" [], .file ".hidden" none]

/-- A root whose first directory `a` cannot be listed, followed by the empty
directory `c` and the hidden file `.z`. -/
def treeAbort : Node :=
  .dir "r" [.unreadable "a" "permission denied" [], .dir "c" [], .file ".z" none]

/-- The options `--all`. -/
def allOpts : opts := { depth := 0, all := true, dirsOnly := false, showSize := false }

/-- The options `--dirs-only`. -/
def dirsOpts : opts := { depth := 0, all := false, dirsOnly := true, showSize := false }

/-- The options `--depth 1`. -/
def depthOneOpts : opts := { depth := 1, all := false, dirsOnly := false, showSize := false }

/-- A root whose only entry is the directory `a`, which holds the file `f` but
cannot be listed. -/
def treeLocked : Node :=
  .dir "r" [.unreadable "a" "permission denied" [.file "f" none]]

/-- The options `--depth 2`. -/
def depthTwoOpts : opts := { depth := 2, all := false, dirsOnly := false, showSize := false }

/-! ## Reading decimal digits -/

/-- The number a list of decimal digit characters denotes, most significant
digit first. -/
def decimalValue : List Char → Nat
  | [] => 0
  | c :: cs => (c.toNat - 48) * 10 ^ cs.length + decimalValue cs

/-! ## More sample trees -/

/-- A root with the file `g`, whose size cannot be read, and the file `f` of
size 0. -/
def treeSizes : Node :=
  .dir "r" [.file "g" none, .file "f" (some 0)]

/-! ## Definitions on the side of the specification -/

/-- The path of the entry an event is about. -/
def Event.path : Event → List String
  | .readDir p _ _ => p
  | .println _ p _ _ _ _ => p

/-- Depth-first pre-order, in the words of the specification: over the entries
`es` in order (the first one has index `idx`), the line of the entry followed
by the output below it. -/
def preorderLines (line : Nat → Node → String) (below : Nat → Node → List String) :
    Nat → List Node → List String
  | _, [] => []
  | idx, e :: rest => (line idx e :: below idx e) ++ preorderLines line below (idx + 1) rest

mutual
/-- The entries below `d` whose own name and whose ancestors below `d` pass the
two filters, each with its path below `d`. -/
def Node.visible (o : opts) : Node → List (List String × Node)
  | .file _ _ => []
  | .dir _ entries => visibleList o entries
  | .unreadable _ _ entries => visibleList o entries
/-- The entries among and below `es` whose own name and whose ancestors pass
the two filters. -/
def visibleList (o : opts) : List Node → List (List String × Node)
  | [] => []
  | e :: es =>
    (if keep o e then ([e.Name], e) :: (e.visible o).map (fun x => (e.Name :: x.1, x.2))
      else []) ++ visibleList o es
end

mutual
/-- The height of the tree below `d`: the greatest depth of an entry, the
entries of `d` being at depth 1 (0 when `d` holds nothing). -/
def Node.height : Node → Nat
  | .file _ _ => 0
  | .dir _ entries => heightList entries
  | .unreadable _ _ entries => heightList entries
/-- The greatest depth of an entry among and below `es`, those of `es` being at
depth 1. -/
def heightList : List Node → Nat
  | [] => 0
  | e :: es => max (e.height + 1) (heightList es)
end

/-- The lines of a run that are for entries at depth at most `D` (an entry
printed by the call at `level` is at depth `level + 1`), in order. -/
def linesWithin (D : Int) : List Event → List String
  | [] => []
  | .readDir _ _ _ :: evs => linesWithin D evs
  | .println line _ _ lvl _ _ :: evs =>
    if (lvl : Int) + 1 ≤ D then line :: linesWithin D evs else linesWithin D evs

mutual
/-- The tree without the entries whose name begins with "." and without what
is below them. -/
def Node.prune : Node → Node
  | .file name size => .file name size
  | .dir name entries => .dir name (pruneList entries)
  | .unreadable name err entries => .unreadable name err (pruneList entries)
/-- The entries of `es` whose name does not begin with ".", each pruned. -/
def pruneList : List Node → List Node
  | [] => []
  | e :: es => if HasPrefix e.Name "." then pruneList es else e.prune :: pruneList es
end

/-- The order `sort.Slice` leaves a slice in depends on the elements through
`less` only: elements replaced by others that compare the same way end up in
the same places. -/
def SortsByLess (L : Lib) : Prop :=
  ∀ (f : Node → Node) (lt : Node → Node → Bool) (xs : List Node),
    (∀ a b, lt (f a) (f b) = lt a b) → L.sortSlice lt (xs.map f) = (L.sortSlice lt xs).map f

/-- A root with the directory `A`, holding `x`, and the hidden file `.z`,
which sorts after `A`. -/
def treeHiddenLast : Node :=
  .dir "r" [.dir "A" [.file "x" none], .file ".z" none]

/-- Two option sets with the same filters and the same showSize: they differ
in `depth` at most. -/
def SameFilters (o1 o2 : opts) : Prop :=
  o1.all = o2.all ∧ o1.dirsOnly = o2.dirsOnly ∧ o1.showSize = o2.showSize

/-- Every listing among these events has succeeded. -/
def ListedOk (evs : List Event) : Prop :=
  ∀ q d lvl, Event.readDir q d lvl ∈ evs → ∃ es, ReadDir d = .ok es

/-- Every directory below a node, with its path: the entries reached through
directories only, no name being hidden from the search. -/
def Node.subdirs (d : Node) : List (List String × Node) :=
  d.visible { depth := 0, all := true, dirsOnly := true, showSize := false }

/-- A root holding the hidden directory `.h`, which cannot be listed, and
the directory `a`, whose directory `u` cannot be listed. -/
def treeShielded : Node :=
  .dir "r" [.unreadable ".h" "denied" [], .dir "a" [.unreadable "u" "denied" []]]

/-- A root with the empty directory `a` and the directory `b`, whose only
entry `u` is a directory that cannot be listed. -/
def treeLateAbort : Node :=
  .dir "r" [.dir "a" [], .dir "b" [.unreadable "u" "permission denied" []]]

/-! ## Basic facts -/

theorem forRange_map {α β : Type} (g : α → β) (body : Nat → β → List Event × Option IOError)
    (l : List α) (idx : Nat) :
    forRange (fun i x => body i (g x)) idx l = forRange body idx (l.map g) := by
  induction l generalizing idx with
  | nil => rfl
  | cons a l ih => simp only [forRange, List.map_cons, ih]

/-- The defining equation of `walk`, the loop running over `filtered` itself. -/
theorem walk_eq (L : Lib) (o : opts) (p : List String) (d : Node) (level : Nat)
    (guides : List Bool) (pfx : String) :
    walk L o p d level guides pfx =
      if o.depth > 0 ∧ (level : Int) ≥ o.depth then ([], none)
      else
        match ReadDir d with
        | .error err => ([Event.readDir p d level], some err)
        | .ok entries =>
          (Event.readDir p d level ::
              (forRange (visit L o p level guides pfx (filtered L o entries).length) 0
                (filtered L o entries)).1,
            (forRange (visit L o p level guides pfx (filtered L o entries).length) 0
                (filtered L o entries)).2) := by
  rw [walk]
  split
  · rfl
  · split
    · rename_i err h; simp [h]
    · rename_i entries h
      simp only [h]
      have := forRange_map (fun x : {e // e ∈ filtered L o entries} => x.1)
        (visit L o p level guides pfx (filtered L o entries).length)
        (filtered L o entries).attach 0
      rw [List.attach_map_subtype_val] at this
      rw [← this]
      rfl

theorem walk_limit (L : Lib) (o : opts) (p : List String) (d : Node) (level : Nat)
    (guides : List Bool) (pfx : String) (h : o.depth > 0 ∧ (level : Int) ≥ o.depth) :
    walk L o p d level guides pfx = ([], none) := by
  rw [walk_eq, if_pos h]

theorem walk_error (L : Lib) (o : opts) (p : List String) (d : Node) (level : Nat)
    (guides : List Bool) (pfx : String) (h : ¬ (o.depth > 0 ∧ (level : Int) ≥ o.depth))
    (err : IOError) (hd : ReadDir d = .error err) :
    walk L o p d level guides pfx = ([Event.readDir p d level], some err) := by
  rw [walk_eq, if_neg h, hd]

theorem walk_ok (L : Lib) (o : opts) (p : List String) (d : Node) (level : Nat)
    (guides : List Bool) (pfx : String) (h : ¬ (o.depth > 0 ∧ (level : Int) ≥ o.depth))
    (entries : List Node) (hd : ReadDir d = .ok entries) :
    walk L o p d level guides pfx =
      (Event.readDir p d level ::
          (forRange (visit L o p level guides pfx (filtered L o entries).length) 0
            (filtered L o entries)).1,
        (forRange (visit L o p level guides pfx (filtered L o entries).length) 0
            (filtered L o entries)).2) := by
  rw [walk_eq, if_neg h, hd]

/-- Induction over a tree: a directory inherits from its entries. -/
theorem Node.induct {P : Node → Prop}
    (hfile : ∀ name size, P (.file name size))
    (hdir : ∀ name entries, (∀ e ∈ entries, P e) → P (.dir name entries))
    (hunr : ∀ name err entries, P (.unreadable name err entries)) : ∀ d, P d := by
  intro d
  refine Node.rec (motive_1 := P) (motive_2 := fun l => ∀ e ∈ l, P e)
    hfile (fun name entries ih => hdir name entries ih)
    (fun name err entries _ => hunr name err entries) ?_ ?_ d
  · intro e he; cases he
  · intro hd tl ih1 ih2 e he
    rcases List.mem_cons.mp he with h | h
    · exact h ▸ ih1
    · exact ih2 e h

theorem readDir_ok {d : Node} {entries : List Node} (h : ReadDir d = .ok entries) :
    ∃ name, d = .dir name entries := by
  cases d with
  | file name size => simp [ReadDir] at h
  | dir name es => simp [ReadDir] at h; exact ⟨name, by rw [h]⟩
  | unreadable name err es => simp [ReadDir] at h

theorem isStrictWeak_less (L : Lib) : IsStrictWeak (less L) := by
  refine ⟨?_, ?_, ?_⟩
  · intro a
    simp [less]
  · intro a b c hab hbc
    unfold less at *
    cases ha : a.IsDir <;> cases hb : b.IsDir <;> cases hc : c.IsDir <;>
      simp [ha, hb, hc] at hab hbc ⊢
    all_goals exact lt_trans hab hbc
  · intro a b c hab hbc
    unfold less at *
    cases ha : a.IsDir <;> cases hb : b.IsDir <;> cases hc : c.IsDir <;>
      simp [ha, hb, hc] at hab hbc ⊢
    all_goals exact le_trans hbc hab

theorem filtered_perm (L : Lib) (o : opts) (entries : List Node) :
    (filtered L o entries).Perm (entries.filter (keep o)) :=
  L.sortSlice_perm _ _

theorem mem_filtered {L : Lib} {o : opts} {entries : List Node} {e : Node} :
    e ∈ filtered L o entries ↔ e ∈ entries ∧ keep o e = true := by
  rw [(filtered_perm L o entries).mem_iff, List.mem_filter]

theorem filtered_ordered (L : Lib) (o : opts) (entries : List Node) :
    (filtered L o entries).Pairwise (Ordered L) := by
  refine List.Pairwise.imp ?_ (L.sortSlice_sorted (less L) _ (isStrictWeak_less L))
  intro a b h
  unfold less at h
  unfold Ordered
  cases ha : a.IsDir <;> cases hb : b.IsDir <;> simp [ha, hb] at h ⊢
  all_goals exact h

theorem lineOf_eq (o : opts) (pfx : String) (isLast : Bool) (e : Node) :
    lineOf o pfx isLast e = pfx ++ branch isLast ++ e.Name ++ sizeNote o e := by
  unfold lineOf sizeNote
  split
  · split <;> simp
  · simp

/-! ## Sample runs -/

theorem render_treeNested :
    render goLib defaultOpts treeNested =
      ([.readDir [] treeNested 0,
        .println "├── A" ["A"] (.dir "A" [.file "x" none]) 0 [] false,
        .readDir ["A"] (.dir "A" [.file "x" none]) 1,
        .println "│   └── x" ["A", "x"] (.file "x" none) 1 [true] true,
        .println "└── b" ["b"] (.file "b" none) 0 [] true], none) := by
  simp [render, treeNested, walk_eq, visit, forRange, filtered, goLib, insertionSort,
    insertSorted, less, keep, HasPrefix, defaultOpts, ReadDir, Node.IsDir, Node.Name, lineOf,
    branch, nextPrefix, asciiLower]

theorem humanSize_zero : humanSize 0 = "0B" := by decide

theorem render_treeSized :
    render goLib sizeOpts treeSized =
      ([.readDir [] treeSized 0,
        .println "└── f (0B)" ["f"] (.file "f" (some 0)) 0 [] true], none) := by
  simp [render, treeSized, walk_eq, visit, forRange, filtered, goLib, insertionSort,
    insertSorted, less, keep, HasPrefix, sizeOpts, ReadDir, Node.IsDir, Node.Name, Node.Info,
    lineOf, branch, nextPrefix, asciiLower, humanSize_zero]

theorem render_treeScenario_default :
    render goLib defaultOpts treeScenario =
      ([.readDir [] treeScenario 0,
        .println "├── A" ["A"] (.dir "A" []) 0 [] false,
        .readDir ["A"] (.dir "A" []) 1,
        .println "└── b.txt" ["b.txt"] (.file "b.txt" none) 0 [] true], none) := by
  simp [render, treeScenario, walk_eq, visit, forRange, filtered, goLib, insertionSort,
    insertSorted, less, keep, HasPrefix, defaultOpts, ReadDir, Node.IsDir, Node.Name, lineOf,
    branch, nextPrefix, asciiLower]

theorem render_treeScenario_all :
    render goLib allOpts treeScenario =
      ([.readDir [] treeScenario 0,
        .println "├── A" ["A"] (.dir "A" []) 0 [] false,
        .readDir ["A"] (.dir "A" []) 1,
        .println "├── .hidden" [".hidden"] (.file ".hidden" none) 0 [] false,
        .println "└── b.txt" ["b.txt"] (.file "b.txt" none) 0 [] true], none) := by
  simp +decide [render, treeScenario, walk_eq, visit, forRange, filtered, goLib, insertionSort,
    insertSorted, less, keep, HasPrefix, allOpts, ReadDir, Node.IsDir, Node.Name, lineOf,
    branch, nextPrefix, asciiLower]

theorem render_treeAbort_all :
    render goLib allOpts treeAbort =
      ([.readDir [] treeAbort 0,
        .println "├── a" ["a"] (.unreadable "a" "permission denied" []) 0 [] false,
        .readDir ["a"] (.unreadable "a" "permission denied" []) 1], some "permission denied") := by
  simp +decide [render, treeAbort, walk_eq, visit, forRange, filtered, goLib, insertionSort,
    insertSorted, less, keep, HasPrefix, allOpts, ReadDir, Node.IsDir, Node.Name, lineOf,
    branch, nextPrefix, asciiLower]

theorem render_treeAbort_dirs :
    render goLib dirsOpts treeAbort =
      ([.readDir [] treeAbort 0,
        .println "├── a" ["a"] (.unreadable "a" "permission denied" []) 0 [] false,
        .readDir ["a"] (.unreadable "a" "permission denied" []) 1], some "permission denied") := by
  simp +decide [render, treeAbort, walk_eq, visit, forRange, filtered, goLib, insertionSort,
    insertSorted, less, keep, HasPrefix, dirsOpts, ReadDir, Node.IsDir, Node.Name, lineOf,
    branch, nextPrefix, asciiLower]

theorem render_treeNested_depthOne :
    render goLib depthOneOpts treeNested =
      ([.readDir [] treeNested 0,
        .println "├── A" ["A"] (.dir "A" [.file "x" none]) 0 [] false,
        .println "└── b" ["b"] (.file "b" none) 0 [] true], none) := by
  simp +decide [render, treeNested, walk_eq, visit, forRange, filtered, goLib, insertionSort,
    insertSorted, less, keep, HasPrefix, depthOneOpts, ReadDir, Node.IsDir, Node.Name, lineOf,
    branch, nextPrefix, asciiLower]

theorem render_treeLocked_depthTwo :
    render goLib depthTwoOpts treeLocked =
      ([.readDir [] treeLocked 0,
        .println "└── a" ["a"] (.unreadable "a" "permission denied" [.file "f" none]) 0 [] true,
        .readDir ["a"] (.unreadable "a" "permission denied" [.file "f" none]) 1],
        some "permission denied") := by
  simp +decide [render, treeLocked, walk_eq, visit, forRange, filtered, goLib, insertionSort,
    insertSorted, less, keep, HasPrefix, depthTwoOpts, ReadDir, Node.IsDir, Node.Name, lineOf,
    branch, nextPrefix, asciiLower]

theorem render_treeScenario_dirs :
    render goLib dirsOpts treeScenario =
      ([.readDir [] treeScenario 0,
        .println "└── A" ["A"] (.dir "A" []) 0 [] true,
        .readDir ["A"] (.dir "A" []) 1], none) := by
  simp +decide [render, treeScenario, walk_eq, visit, forRange, filtered, goLib, insertionSort,
    insertSorted, less, keep, HasPrefix, dirsOpts, ReadDir, Node.IsDir, Node.Name, lineOf,
    branch, nextPrefix, asciiLower]


theorem render_treeSizes :
    render goLib sizeOpts treeSizes =
      ([.readDir [] treeSizes 0,
        .println "├── f (0B)" ["f"] (.file "f" (some 0)) 0 [] false,
        .println "└── g" ["g"] (.file "g" none) 0 [] true], none) := by
  simp +decide [render, treeSizes, walk_eq, visit, forRange, filtered, goLib, insertionSort,
    insertSorted, less, keep, HasPrefix, sizeOpts, ReadDir, Node.IsDir, Node.Name, Node.Info,
    lineOf, branch, nextPrefix, asciiLower, humanSize_zero]

/-! ## The loop -/

theorem mem_forRange {α : Type} (body : Nat → α → List Event × Option IOError)
    (l : List α) (idx : Nat) (ev : Event) (h : ev ∈ (forRange body idx l).1) :
    ∃ i e, l[i]? = some e ∧ ev ∈ (body (idx + i) e).1 ∧
      ∀ ev' ∈ (body (idx + i) e).1, ev' ∈ (forRange body idx l).1 := by
  induction l generalizing idx with
  | nil => simp [forRange] at h
  | cons a l ih =>
    unfold forRange at h ⊢
    split at h
    · rename_i out err hb
      refine ⟨0, a, by simp, ?_, ?_⟩
      · simpa [hb] using h
      · intro ev' hev'
        simpa [hb] using hev'
    · rename_i out hb
      simp only [List.mem_append] at h
      rcases h with h | h
      · refine ⟨0, a, by simp, ?_, ?_⟩
        · simpa [hb] using h
        · intro ev' hev'
          simp only [List.mem_append]
          left
          simpa [hb] using hev'
      · obtain ⟨i, e, hi, hev, hsub⟩ := ih (idx + 1) h
        refine ⟨i + 1, e, by simpa using hi, ?_, ?_⟩
        · have : idx + (i + 1) = idx + 1 + i := by omega
          rw [this]; exact hev
        · intro ev' hev'
          have : idx + (i + 1) = idx + 1 + i := by omega
          rw [this] at hev'
          simp only [List.mem_append]
          right
          exact hsub ev' hev'

theorem forRange_none {α : Type} (body : Nat → α → List Event × Option IOError)
    (l : List α) (idx : Nat) (h : (forRange body idx l).2 = none) :
    ∀ i e, l[i]? = some e → (body (idx + i) e).2 = none ∧
      ∀ ev ∈ (body (idx + i) e).1, ev ∈ (forRange body idx l).1 := by
  induction l generalizing idx with
  | nil => intro i e hi; simp at hi
  | cons a l ih =>
    intro i e hi
    unfold forRange at h ⊢
    split at h
    · simp at h
    · rename_i out hb
      cases i with
      | zero =>
        simp at hi
        subst hi
        refine ⟨by simp [hb], ?_⟩
        intro ev hev
        simp only [List.mem_append]
        left; simpa [hb] using hev
      | succ i =>
        simp at hi
        have := ih (idx + 1) h i e hi
        have e1 : idx + (i + 1) = idx + 1 + i := by omega
        rw [e1]
        refine ⟨this.1, ?_⟩
        intro ev hev
        simp only [List.mem_append]
        right; exact this.2 ev hev

theorem forRange_of_none {α : Type} (body : Nat → α → List Event × Option IOError)
    (l : List α) (idx : Nat) (h : ∀ i e, l[i]? = some e → (body (idx + i) e).2 = none) :
    (forRange body idx l).2 = none := by
  induction l generalizing idx with
  | nil => rfl
  | cons a l ih =>
    unfold forRange
    have h0 := h 0 a (by simp)
    split
    · rename_i out err hb
      simp [hb] at h0
    · apply ih
      intro i e hi
      have := h (i + 1) e (by simpa using hi)
      have e1 : idx + (i + 1) = idx + 1 + i := by omega
      rwa [e1] at this

theorem mem_of_getElem? {α : Type} {l : List α} {i : Nat} {e : α} (h : l[i]? = some e) :
    e ∈ l := by
  rw [List.getElem?_eq_some] at h
  obtain ⟨hi, rfl⟩ := h
  exact List.getElem_mem _

/-- A property of the parameters of a call that every nested call inherits,
and a property of events every call with such parameters gives its own
events, hold of every event of a run. -/
theorem walk_forall (L : Lib) (o : opts)
    (I : List String → Nat → List Bool → String → Prop) (E : Event → Prop)
    (hstep : ∀ p level guides pfx e isLast, I p level guides pfx →
      ¬ (o.depth > 0 ∧ (level : Int) ≥ o.depth) → keep o e = true → e.IsDir = true →
      I (p ++ [e.Name]) (level + 1) (guides ++ [!isLast]) (nextPrefix pfx isLast))
    (hread : ∀ p d level guides pfx, I p level guides pfx →
      ¬ (o.depth > 0 ∧ (level : Int) ≥ o.depth) → E (.readDir p d level))
    (hprint : ∀ p level guides pfx e isLast, I p level guides pfx →
      ¬ (o.depth > 0 ∧ (level : Int) ≥ o.depth) → keep o e = true →
      E (.println (lineOf o pfx isLast e) (p ++ [e.Name]) e level guides isLast)) :
    ∀ d p level guides pfx, I p level guides pfx →
      ∀ ev ∈ (walk L o p d level guides pfx).1, E ev := by
  intro d
  induction d using Node.induct with
  | hfile name size =>
    intro p level guides pfx hI ev hev
    by_cases hl : o.depth > 0 ∧ (level : Int) ≥ o.depth
    · rw [walk_limit _ _ _ _ _ _ _ hl] at hev; simp at hev
    · rw [walk_error L o p (.file name size) level guides pfx hl _ rfl] at hev
      simp at hev; subst hev; exact hread _ _ _ _ _ hI hl
  | hunr name err es =>
    intro p level guides pfx hI ev hev
    by_cases hl : o.depth > 0 ∧ (level : Int) ≥ o.depth
    · rw [walk_limit _ _ _ _ _ _ _ hl] at hev; simp at hev
    · rw [walk_error L o p (.unreadable name err es) level guides pfx hl err rfl] at hev
      simp at hev; subst hev; exact hread _ _ _ _ _ hI hl
  | hdir name entries ih =>
    intro p level guides pfx hI ev hev
    by_cases hl : o.depth > 0 ∧ (level : Int) ≥ o.depth
    · rw [walk_limit _ _ _ _ _ _ _ hl] at hev; simp at hev
    · rw [walk_ok L o p (.dir name entries) level guides pfx hl entries rfl] at hev
      simp only [List.mem_cons] at hev
      rcases hev with hev | hev
      · subst hev; exact hread _ _ _ _ _ hI hl
      · obtain ⟨i, e, hi, hev, -⟩ := mem_forRange _ _ _ _ hev
        have hmem := mem_filtered.mp (mem_of_getElem? hi)
        unfold visit at hev
        simp only at hev
        split at hev
        · rename_i hdir
          simp only [List.mem_cons] at hev
          rcases hev with hev | hev
          · subst hev; exact hprint _ _ _ _ _ _ hI hl hmem.2
          · exact ih e hmem.1 _ _ _ _ (hstep _ _ _ _ _ _ hI hl hmem.2 hdir) ev hev
        · simp only [List.mem_singleton] at hev
          subst hev; exact hprint _ _ _ _ _ _ hI hl hmem.2

/-! ## The lines of one sibling group -/

theorem childLines_append (level : Nat) (a b : List Event) :
    childLines level (a ++ b) = childLines level a ++ childLines level b := by
  induction a with
  | nil => rfl
  | cons ev a ih =>
    cases ev with
    | readDir p d lvl => simpa [childLines] using ih
    | println line p e lvl guides isLast =>
      by_cases h : lvl = level <;> simp [childLines, h, ih]

theorem childLines_eq_nil (level : Nat) (evs : List Event)
    (h : ∀ ev ∈ evs, level < ev.level) : childLines level evs = [] := by
  induction evs with
  | nil => rfl
  | cons ev evs ih =>
    have h0 := h ev (List.mem_cons_self _ _)
    have ht := ih (fun ev' hev' => h ev' (List.mem_cons_of_mem _ hev'))
    cases ev with
    | readDir p d lvl => simpa [childLines] using ht
    | println line p e lvl guides isLast =>
      have : lvl ≠ level := by simp [Event.level] at h0; omega
      simp [childLines, this, ht]

/-- Every event of a call belongs to that call or to a deeper one. -/
theorem walk_level_ge (L : Lib) (o : opts) (p : List String) (d : Node) (level : Nat)
    (guides : List Bool) (pfx : String) :
    ∀ ev ∈ (walk L o p d level guides pfx).1, level ≤ ev.level := by
  refine walk_forall L o (fun _ lv _ _ => level ≤ lv) (fun ev => level ≤ ev.level)
    ?_ ?_ ?_ d p level guides pfx (le_refl _)
  · intro p lv guides pfx e isLast h _ _ _; exact Nat.le_succ_of_le h
  · intro p d lv guides pfx h _; exact h
  · intro p lv guides pfx e isLast h _ _; exact h

theorem childLines_visit (L : Lib) (o : opts) (p : List String) (level : Nat)
    (guides : List Bool) (pfx : String) (n idx : Nat) (e : Node) :
    childLines level (visit L o p level guides pfx n idx e).1 =
      [.println (lineOf o pfx (idx == n - 1) e) (p ++ [e.Name]) e level guides (idx == n - 1)] := by
  unfold visit
  simp only
  split
  · have := childLines_eq_nil level _ (fun ev hev =>
      walk_level_ge L o (p ++ [e.Name]) e (level + 1) (guides ++ [!(idx == n - 1)])
        (nextPrefix pfx (idx == n - 1)) ev hev)
    simp [childLines, this]
  · simp [childLines]

/-- The child lines a loop prints are the first lines of `childEvents`, all of
them when the loop is not cut short. -/
theorem childLines_forRange (L : Lib) (o : opts) (p : List String) (level : Nat)
    (guides : List Bool) (pfx : String) (n : Nat) (l : List Node) (idx : Nat) :
    (childLines level (forRange (visit L o p level guides pfx n) idx l).1 <+:
        childEvents o p level guides pfx n idx l) ∧
      ((forRange (visit L o p level guides pfx n) idx l).2 = none →
        childLines level (forRange (visit L o p level guides pfx n) idx l).1 =
          childEvents o p level guides pfx n idx l) := by
  induction l generalizing idx with
  | nil => simp [forRange, childLines, childEvents]
  | cons e l ih =>
    have hv := childLines_visit L o p level guides pfx n idx e
    unfold forRange
    split
    · rename_i out err hb
      rw [hb] at hv
      simp only at hv
      simp only [hv, childEvents]
      refine ⟨?_, by intro h; cases h⟩
      exact ⟨_, rfl⟩
    · rename_i out hb
      rw [hb] at hv
      simp only at hv
      simp only [childLines_append, hv, childEvents, List.singleton_append]
      refine ⟨?_, ?_⟩
      · obtain ⟨t, ht⟩ := (ih (idx + 1)).1
        exact ⟨t, by simp [ht]⟩
      · intro h
        rw [(ih (idx + 1)).2 h]

theorem childEvents_node (o : opts) (p : List String) (level : Nat) (guides : List Bool)
    (pfx : String) (n : Nat) (l : List Node) (idx : Nat) :
    (childEvents o p level guides pfx n idx l).map Event.node = l := by
  induction l generalizing idx with
  | nil => rfl
  | cons e l ih => simp [childEvents, Event.node, ih]

/-- The child lines of a call, for a directory that lists: the first lines of
`childEvents` over `filtered`, all of them when the call returns no error. -/
theorem childLines_walk (L : Lib) (o : opts) (p : List String) (d : Node) (level : Nat)
    (guides : List Bool) (pfx : String) (entries : List Node)
    (hl : ¬ (o.depth > 0 ∧ (level : Int) ≥ o.depth)) (hd : ReadDir d = .ok entries) :
    (childLines level (walk L o p d level guides pfx).1 <+:
        childEvents o p level guides pfx (filtered L o entries).length 0 (filtered L o entries)) ∧
      ((walk L o p d level guides pfx).2 = none →
        childLines level (walk L o p d level guides pfx).1 =
          childEvents o p level guides pfx (filtered L o entries).length 0
            (filtered L o entries)) := by
  rw [walk_ok L o p d level guides pfx hl entries hd]
  simpa [childLines] using
    childLines_forRange L o p level guides pfx (filtered L o entries).length
      (filtered L o entries) 0

theorem childLines_walk_nil (L : Lib) (o : opts) (p : List String) (d : Node) (level : Nat)
    (guides : List Bool) (pfx : String)
    (h : (o.depth > 0 ∧ (level : Int) ≥ o.depth) ∨ ∃ err, ReadDir d = .error err) :
    childLines level (walk L o p d level guides pfx).1 = [] := by
  by_cases hl : o.depth > 0 ∧ (level : Int) ≥ o.depth
  · rw [walk_limit _ _ _ _ _ _ _ hl]; rfl
  · rcases h with h | ⟨err, h⟩
    · exact absurd h hl
    · rw [walk_error L o p d level guides pfx hl err h]; rfl

/-- C1. The lines one call of `walk` prints for the children of the directory
it lists come in the order of the sorted slice: the entries of these lines, in
the order printed, have every directory before every non-directory, and among
the directories and among the non-directories the lower-cased names never
decrease.  This holds for every listing, every option set and every place the
call is made from, whether or not the run is later cut short; and when the
call lists the directory and returns no error, the entries of these lines are
exactly the listed entries that pass the two filters, each once. -/
theorem walk_children_sorted (L : Lib) (o : opts) (p : List String) (d : Node)
    (level : Nat) (guides : List Bool) (pfx : String) :
    ((childLines level (walk L o p d level guides pfx).1).map Event.node).Pairwise
        (fun a b => (b.IsDir = true → a.IsDir = true) ∧
          (a.IsDir = b.IsDir → L.ToLower a.Name ≤ L.ToLower b.Name)) ∧
      ∀ entries, ¬ (o.depth > 0 ∧ (level : Int) ≥ o.depth) → ReadDir d = .ok entries →
        (walk L o p d level guides pfx).2 = none →
        ((childLines level (walk L o p d level guides pfx).1).map Event.node).Perm
          (entries.filter (keep o)) := by
  refine ⟨?_, ?_⟩
  swap
  · intro entries hl hd hres
    rw [(childLines_walk L o p d level guides pfx entries hl hd).2 hres, childEvents_node]
    exact filtered_perm L o entries
  by_cases hl : o.depth > 0 ∧ (level : Int) ≥ o.depth
  · rw [childLines_walk_nil L o p d level guides pfx (Or.inl hl)]
    exact List.Pairwise.nil
  · cases hd : ReadDir d with
    | error err =>
      rw [childLines_walk_nil L o p d level guides pfx (Or.inr ⟨err, hd⟩)]
      exact List.Pairwise.nil
    | ok entries =>
      have h1 := (childLines_walk L o p d level guides pfx entries hl hd).1
      have h2 : (childLines level (walk L o p d level guides pfx).1).map Event.node <+:
          filtered L o entries := by
        have := h1.map Event.node
        rwa [childEvents_node] at this
      exact List.Pairwise.sublist h2.sublist (filtered_ordered L o entries)

theorem walk_children_sorted_witness :
    ¬ (defaultOpts.depth > 0 ∧ ((0 : Nat) : Int) ≥ defaultOpts.depth) ∧
    ReadDir treeScenario = .ok [.file "b.txt" none, .dir "A" [], .file ".hidden" none] ∧
    (walk goLib defaultOpts [] treeScenario 0 [] "").2 = none ∧
    ((childLines 0 (walk goLib defaultOpts [] treeScenario 0 [] "").1).map Event.node).Pairwise
      (fun a b => (b.IsDir = true → a.IsDir = true) ∧
        (a.IsDir = b.IsDir → goLib.ToLower a.Name ≤ goLib.ToLower b.Name)) ∧
    ((childLines 0 (walk goLib defaultOpts [] treeScenario 0 [] "").1).map Event.node).Perm
      ([Node.file "b.txt" none, .dir "A" [], .file ".hidden" none].filter (keep defaultOpts)) :=
  ⟨by decide, rfl, congrArg Prod.snd render_treeScenario_default,
    (walk_children_sorted goLib defaultOpts [] treeScenario 0 [] "").1,
    (walk_children_sorted goLib defaultOpts [] treeScenario 0 [] "").2 _ (by decide) rfl
      (congrArg Prod.snd render_treeScenario_default)⟩

theorem glyph_ne (pfx x y : String) : pfx ++ "├── " ++ x ≠ pfx ++ "└── " ++ y := by
  intro h
  have := congrArg String.data h
  simp only [String.data_append, List.append_assoc] at this
  have h2 := List.append_cancel_left this
  simp at h2

theorem childEvents_last (o : opts) (p : List String) (level : Nat) (guides : List Bool)
    (pfx : String) (n : Nat) (l : List Node) (idx : Nat) (hn : idx + l.length = n)
    (hne : l ≠ []) :
    ∃ front lastEv, childEvents o p level guides pfx n idx l = front ++ [lastEv] ∧
      lastEv.line = pfx ++ "└── " ++ lastEv.node.Name ++ sizeNote o lastEv.node ∧
      ∀ ev ∈ front, ev.line = pfx ++ "├── " ++ ev.node.Name ++ sizeNote o ev.node := by
  induction l generalizing idx with
  | nil => exact absurd rfl hne
  | cons e l ih =>
    cases l with
    | nil =>
      refine ⟨[], _, rfl, ?_, by simp⟩
      have : (idx == n - 1) = true := by simp at hn ⊢; omega
      simp [Event.line, Event.node, this, lineOf_eq, branch]
    | cons e2 rest =>
      obtain ⟨front, lastEv, h1, h2, h3⟩ := ih (idx + 1) (by simp at hn ⊢; omega) (by simp)
      have hidx : (idx == n - 1) = false := by simp at hn ⊢; omega
      refine ⟨Event.println (lineOf o pfx (idx == n - 1) e) (p ++ [e.Name]) e level guides
        (idx == n - 1) :: front, lastEv, ?_, h2, ?_⟩
      · rw [childEvents, h1]; rfl
      · intro ev hev
        rcases List.mem_cons.mp hev with h | h
        · subst h
          simp [Event.line, Event.node, hidx, lineOf_eq, branch]
        · exact h3 ev h


/-! ## The guide prefix -/

theorem guide_length (g : Bool) : (guide g).length = 4 := by
  cases g <;> decide

theorem guidePrefix_append (gs : List Bool) (g : Bool) :
    guidePrefix (gs ++ [g]) = guidePrefix gs ++ guide g := by
  induction gs with
  | nil => simp [guidePrefix]
  | cons a gs ih => simp [guidePrefix, ih, String.append_assoc]

theorem guidePrefix_length (gs : List Bool) : (guidePrefix gs).length = 4 * gs.length := by
  induction gs with
  | nil => rfl
  | cons a gs ih =>
    simp only [guidePrefix, String.length_append, guide_length, ih, List.length_cons]
    omega

theorem nextPrefix_eq (pfx : String) (isLast : Bool) :
    nextPrefix pfx isLast = pfx ++ guide (!isLast) := by
  cases isLast <;> rfl

/-- A call made with the prefix of its guides prints lines made of the guide
prefix, the branch glyph, the name and the size annotation. -/
theorem walk_line_shape (L : Lib) (o : opts) (d : Node) (p : List String) (level : Nat)
    (guides : List Bool) (pfx : String)
    (hI : pfx = guidePrefix guides ∧ guides.length = level ∧ p.length = level) :
    ∀ ev ∈ (walk L o p d level guides pfx).1,
      ∀ line q e lvl gs il, ev = Event.println line q e lvl gs il →
        line = guidePrefix gs ++ branch il ++ e.Name ++ sizeNote o e ∧
        gs.length = lvl ∧ q.length = lvl + 1 := by
  refine walk_forall L o
    (fun p level guides pfx => pfx = guidePrefix guides ∧ guides.length = level ∧ p.length = level)
    (fun ev => ∀ line q e lvl gs il, ev = Event.println line q e lvl gs il →
        line = guidePrefix gs ++ branch il ++ e.Name ++ sizeNote o e ∧
        gs.length = lvl ∧ q.length = lvl + 1)
    ?_ ?_ ?_ d p level guides pfx hI
  · intro p level guides pfx e isLast h _ _ _
    obtain ⟨h1, h2, h3⟩ := h
    refine ⟨?_, by simp [h2], by simp [h3]⟩
    rw [nextPrefix_eq, guidePrefix_append, h1]
  · intro p d level guides pfx _ _ line q e lvl gs il h
    cases h
  · intro p level guides pfx e isLast h _ _ line q e' lvl gs il hev
    obtain ⟨h1, h2, h3⟩ := h
    cases hev
    refine ⟨?_, h2, by simp [h3]⟩
    rw [lineOf_eq, h1]

/-- Every line of a call is a child line of that call or has, in the same run,
the line of its parent directory: one level up, with the guides but the last,
which is the negation of the parent's `isLast`. -/
theorem walk_parent (L : Lib) (o : opts) :
    ∀ (d : Node) (p : List String) (level : Nat) (guides : List Bool) (pfx : String)
      (line : String) (q : List String) (e : Node) (lvl : Nat) (gs : List Bool) (il : Bool),
      Event.println line q e lvl gs il ∈ (walk L o p d level guides pfx).1 →
      (lvl = level ∧ gs = guides ∧ q = p ++ [e.Name]) ∨
      (level < lvl ∧ ∃ line' q' e' gs' il',
        Event.println line' q' e' (lvl - 1) gs' il' ∈ (walk L o p d level guides pfx).1 ∧
        q = q' ++ [e.Name] ∧ e'.IsDir = true ∧ gs = gs' ++ [!il']) := by
  intro d
  induction d using Node.induct with
  | hfile name size =>
    intro p level guides pfx line q e lvl gs il hev
    by_cases hl : o.depth > 0 ∧ (level : Int) ≥ o.depth
    · rw [walk_limit _ _ _ _ _ _ _ hl] at hev; simp at hev
    · rw [walk_error L o p (.file name size) level guides pfx hl _ rfl] at hev
      simp at hev
  | hunr name err es =>
    intro p level guides pfx line q e lvl gs il hev
    by_cases hl : o.depth > 0 ∧ (level : Int) ≥ o.depth
    · rw [walk_limit _ _ _ _ _ _ _ hl] at hev; simp at hev
    · rw [walk_error L o p (.unreadable name err es) level guides pfx hl err rfl] at hev
      simp at hev
  | hdir name entries ih =>
    intro p level guides pfx line q e lvl gs il hev
    by_cases hl : o.depth > 0 ∧ (level : Int) ≥ o.depth
    · rw [walk_limit _ _ _ _ _ _ _ hl] at hev; simp at hev
    · rw [walk_ok L o p (.dir name entries) level guides pfx hl entries rfl] at hev ⊢
      simp only [List.mem_cons] at hev
      rcases hev with hev | hev
      · cases hev
      · obtain ⟨i, c, hi, hev, hsub⟩ := mem_forRange _ _ _ _ hev
        have hmem := mem_filtered.mp (mem_of_getElem? hi)
        have hsub' : ∀ ev' ∈ (visit L o p level guides pfx (filtered L o entries).length
            (0 + i) c).1, ev' ∈ Event.readDir p (.dir name entries) level ::
              (forRange (visit L o p level guides pfx (filtered L o entries).length) 0
                (filtered L o entries)).1 :=
          fun ev' h' => List.mem_cons_of_mem _ (hsub ev' h')
        unfold visit at hev hsub'
        simp only at hev hsub'
        split at hev
        · rename_i hdir
          rw [if_pos hdir] at hsub'
          simp only [List.mem_cons] at hev
          rcases hev with hev | hev
          · cases hev
            exact Or.inl ⟨rfl, rfl, rfl⟩
          · right
            rcases ih c hmem.1 _ _ _ _ _ _ _ _ _ _ hev with ⟨h1, h2, h3⟩ | ⟨h1, h2⟩
            · subst h1
              refine ⟨Nat.lt_succ_self _, _, _, c, guides, _, hsub' _ (List.mem_cons_self _ _),
                h3, hdir, h2⟩
            · obtain ⟨line', q', e', gs', il', h3, h4⟩ := h2
              exact ⟨by omega, line', q', e', gs', il',
                hsub' _ (List.mem_cons_of_mem _ h3), h4⟩
        · simp only [List.mem_singleton] at hev
          cases hev
          exact Or.inl ⟨rfl, rfl, rfl⟩


/-! ## What a run that returns no error prints -/

theorem exists_getElem?_of_mem {α : Type} {l : List α} {e : α} (h : e ∈ l) :
    ∃ i : Nat, l[i]? = some e := by
  obtain ⟨i, hi, he⟩ := List.getElem_of_mem h
  exact ⟨i, by rw [List.getElem?_eq_some]; exact ⟨hi, he⟩⟩

theorem visit_head (L : Lib) (o : opts) (p : List String) (level : Nat) (guides : List Bool)
    (pfx : String) (n idx : Nat) (e : Node) :
    Event.println (lineOf o pfx (idx == n - 1) e) (p ++ [e.Name]) e level guides (idx == n - 1) ∈
      (visit L o p level guides pfx n idx e).1 := by
  unfold visit
  simp only
  split <;> simp

/-- In a run that returns no error, every listed directory has a line for each
of its entries that pass the two filters. -/
theorem walk_complete (L : Lib) (o : opts) :
    ∀ (d : Node) (p : List String) (level : Nat) (guides : List Bool) (pfx : String),
      (walk L o p d level guides pfx).2 = none →
      ∀ q d' lvl, Event.readDir q d' lvl ∈ (walk L o p d level guides pfx).1 →
      ∀ es, ReadDir d' = .ok es → ∀ e ∈ es, keep o e = true →
      ∃ line gs il, Event.println line (q ++ [e.Name]) e lvl gs il ∈
        (walk L o p d level guides pfx).1 := by
  intro d
  induction d using Node.induct with
  | hfile name size =>
    intro p level guides pfx hres q d' lvl hev
    by_cases hl : o.depth > 0 ∧ (level : Int) ≥ o.depth
    · rw [walk_limit _ _ _ _ _ _ _ hl] at hev; simp at hev
    · rw [walk_error L o p (.file name size) level guides pfx hl _ rfl] at hres
      simp at hres
  | hunr name err es =>
    intro p level guides pfx hres q d' lvl hev
    by_cases hl : o.depth > 0 ∧ (level : Int) ≥ o.depth
    · rw [walk_limit _ _ _ _ _ _ _ hl] at hev; simp at hev
    · rw [walk_error L o p (.unreadable name err es) level guides pfx hl err rfl] at hres
      simp at hres
  | hdir name entries ih =>
    intro p level guides pfx hres q d' lvl hev es hes e he hk
    by_cases hl : o.depth > 0 ∧ (level : Int) ≥ o.depth
    · rw [walk_limit _ _ _ _ _ _ _ hl] at hev; simp at hev
    · rw [walk_ok L o p (.dir name entries) level guides pfx hl entries rfl] at hev hres ⊢
      simp only at hres
      have hnone := forRange_none _ _ _ hres
      simp only [List.mem_cons] at hev
      rcases hev with hev | hev
      · cases hev
        simp [ReadDir] at hes
        subst hes
        obtain ⟨i, hi⟩ := exists_getElem?_of_mem (mem_filtered.mpr ⟨he, hk⟩)
        refine ⟨_, _, _, List.mem_cons_of_mem _ ((hnone i e hi).2 _ (visit_head _ _ _ _ _ _ _ _ _))⟩
      · obtain ⟨i, c, hi, hev, hsub⟩ := mem_forRange _ _ _ _ hev
        have hmem := mem_filtered.mp (mem_of_getElem? hi)
        have hc := (hnone i c hi).1
        unfold visit at hev hsub hc
        simp only at hev hsub hc
        split at hev
        · rename_i hdir
          rw [if_pos hdir] at hsub hc
          simp only [List.mem_cons] at hev
          rcases hev with hev | hev
          · cases hev
          · obtain ⟨line, gs, il, h⟩ := ih c hmem.1 _ _ _ _ hc q d' lvl hev es hes e he hk
            exact ⟨line, gs, il, List.mem_cons_of_mem _ (hsub _ (List.mem_cons_of_mem _ h))⟩
        · simp only [List.mem_singleton] at hev
          cases hev

/-- Every line of a run is for an entry that passes the two filters, and so is
every directory on the way to it when the walk starts from such a path. -/
theorem walk_kept (L : Lib) (o : opts) (P : String → Prop) (d : Node) (p : List String)
    (level : Nat) (guides : List Bool) (pfx : String)
    (hP : ∀ e, keep o e = true → P e.Name) (hp : ∀ name ∈ p, P name) :
    ∀ ev ∈ (walk L o p d level guides pfx).1,
      ∀ line q e lvl gs il, ev = Event.println line q e lvl gs il →
        keep o e = true ∧ ∀ name ∈ q, P name := by
  refine walk_forall L o (fun p _ _ _ => ∀ name ∈ p, P name)
    (fun ev => ∀ line q e lvl gs il, ev = Event.println line q e lvl gs il →
        keep o e = true ∧ ∀ name ∈ q, P name)
    ?_ ?_ ?_ d p level guides pfx hp
  · intro p level guides pfx e isLast h _ hk _ name hname
    rcases List.mem_append.mp hname with h1 | h1
    · exact h name h1
    · simp at h1; subst h1; exact hP e hk
  · intro p d level guides pfx _ _ line q e lvl gs il h
    cases h
  · intro p level guides pfx e isLast h _ hk line q e' lvl gs il hev
    cases hev
    refine ⟨hk, ?_⟩
    intro name hname
    rcases List.mem_append.mp hname with h1 | h1
    · exact h name h1
    · simp at h1; subst h1; exact hP e hk

/-- C4 (as amended). With includeHidden false no line of the traversal is for
an entry whose name begins with "." and no name on the path from the root to a
printed entry begins with "." (nothing beneath a hidden directory is printed).
With includeHidden true, when the traversal returns no error, every entry whose
name begins with "." that is a child of a listed directory and passes the
directoriesOnly filter is printed. -/
theorem hidden_filter (L : Lib) (o : opts) (d : Node) :
    (o.all = false →
      ∀ line q e lvl gs il, Event.println line q e lvl gs il ∈ (render L o d).1 →
        HasPrefix e.Name "." = false ∧ ∀ name ∈ q, HasPrefix name "." = false) ∧
    (o.all = true → (render L o d).2 = none →
      ∀ q d' lvl, Event.readDir q d' lvl ∈ (render L o d).1 →
      ∀ es, ReadDir d' = .ok es → ∀ e ∈ es, HasPrefix e.Name "." = true →
        (o.dirsOnly = true → e.IsDir = true) →
        ∃ line gs il, Event.println line (q ++ [e.Name]) e lvl gs il ∈ (render L o d).1) := by
  unfold render
  refine ⟨?_, ?_⟩
  · intro hall line q e lvl gs il hev
    have hP : ∀ e, keep o e = true → HasPrefix e.Name "." = false := by
      intro e hk
      simp [keep, hall] at hk
      exact hk.1
    obtain ⟨h1, h2⟩ := walk_kept L o (fun name => HasPrefix name "." = false) d [] 0 [] "" hP
      (by simp) _ hev _ _ _ _ _ _ rfl
    exact ⟨hP e h1, h2⟩
  · intro hall hres q d' lvl hev es hes e he _ hdirs
    refine walk_complete L o d [] 0 [] "" hres q d' lvl hev es hes e he ?_
    cases hd : o.dirsOnly with
    | false => simp [keep, hall, hd]
    | true => simp [keep, hall, hd, hdirs hd]

theorem hidden_filter_witness :
    (defaultOpts.all = false ∧
      Event.println "└── b.txt" ["b.txt"] (.file "b.txt" none) 0 [] true ∈
        (render goLib defaultOpts treeScenario).1 ∧
      HasPrefix (Node.file "b.txt" none).Name "." = false ∧
      ∀ name ∈ ["b.txt"], HasPrefix name "." = false) ∧
    (allOpts.all = true ∧ (render goLib allOpts treeScenario).2 = none ∧
      Event.readDir [] treeScenario 0 ∈ (render goLib allOpts treeScenario).1 ∧
      HasPrefix (Node.file ".hidden" none).Name "." = true ∧
      ∃ line gs il, Event.println line ([] ++ [(Node.file ".hidden" none).Name])
        (.file ".hidden" none) 0 gs il ∈ (render goLib allOpts treeScenario).1) :=
  ⟨⟨rfl, by rw [render_treeScenario_default]; simp,
      (hidden_filter goLib defaultOpts treeScenario).1 rfl "└── b.txt" ["b.txt"]
        (.file "b.txt" none) 0 [] true (by rw [render_treeScenario_default]; simp)⟩,
    ⟨rfl, by rw [render_treeScenario_all], by rw [render_treeScenario_all]; simp, by decide,
      (hidden_filter goLib allOpts treeScenario).2 rfl (by rw [render_treeScenario_all])
        [] treeScenario 0 (by rw [render_treeScenario_all]; simp)
        [.file "b.txt" none, .dir "A" [], .file ".hidden" none] rfl (.file ".hidden" none)
        (by simp) (by decide) (by intro h; cases h)⟩⟩

/-- C4, the second half of the claim as stated fails when a listing error cuts
the run short: with includeHidden true the root is listed, its child `.z`
passes the directoriesOnly filter, yet the unreadable directory `a` sorts
first, the run stops after `"├── a"` and no line is printed for `.z`. -/
theorem hidden_filter_counterexample :
    allOpts.all = true ∧
    Event.readDir [] treeAbort 0 ∈ (render goLib allOpts treeAbort).1 ∧
    ReadDir treeAbort =
      .ok [.unreadable "a" "permission denied" [], .dir "c" [], .file ".z" none] ∧
    HasPrefix (Node.file ".z" none).Name "." = true ∧
    keep allOpts (.file ".z" none) = true ∧
    stdout (render goLib allOpts treeAbort).1 = ["├── a"] ∧
    ¬ ∃ line lvl gs il, Event.println line ([] ++ [(Node.file ".z" none).Name])
      (.file ".z" none) lvl gs il ∈ (render goLib allOpts treeAbort).1 := by
  rw [render_treeAbort_all]
  refine ⟨rfl, by simp, rfl, by decide, by decide, rfl, ?_⟩
  simp

/-! ## Nested calls and the depth limit -/

theorem walk_head (L : Lib) (o : opts) (p : List String) (d : Node) (level : Nat)
    (guides : List Bool) (pfx : String) (hl : ¬ (o.depth > 0 ∧ (level : Int) ≥ o.depth)) :
    Event.readDir p d level ∈ (walk L o p d level guides pfx).1 := by
  cases hd : ReadDir d with
  | error err => rw [walk_error L o p d level guides pfx hl err hd]; simp
  | ok entries => rw [walk_ok L o p d level guides pfx hl entries hd]; simp

/-- A `readDir` event of a run is the first event of a nested call, whose
events all belong to the run. -/
theorem walk_subcall (L : Lib) (o : opts) :
    ∀ (d : Node) (p : List String) (level : Nat) (guides : List Bool) (pfx : String)
      (q : List String) (d' : Node) (lvl : Nat),
      Event.readDir q d' lvl ∈ (walk L o p d level guides pfx).1 →
      ¬ (o.depth > 0 ∧ (lvl : Int) ≥ o.depth) ∧
      ∃ gs' pfx', ∀ ev ∈ (walk L o q d' lvl gs' pfx').1,
        ev ∈ (walk L o p d level guides pfx).1 := by
  intro d
  induction d using Node.induct with
  | hfile name size =>
    intro p level guides pfx q d' lvl hev
    by_cases hl : o.depth > 0 ∧ (level : Int) ≥ o.depth
    · rw [walk_limit _ _ _ _ _ _ _ hl] at hev; simp at hev
    · have h0 := hev
      rw [walk_error L o p (.file name size) level guides pfx hl _ rfl] at h0
      simp at h0
      obtain ⟨rfl, rfl, rfl⟩ := h0
      exact ⟨hl, guides, pfx, fun ev h => h⟩
  | hunr name err es =>
    intro p level guides pfx q d' lvl hev
    by_cases hl : o.depth > 0 ∧ (level : Int) ≥ o.depth
    · rw [walk_limit _ _ _ _ _ _ _ hl] at hev; simp at hev
    · have h0 := hev
      rw [walk_error L o p (.unreadable name err es) level guides pfx hl err rfl] at h0
      simp at h0
      obtain ⟨rfl, rfl, rfl⟩ := h0
      exact ⟨hl, guides, pfx, fun ev h => h⟩
  | hdir name entries ih =>
    intro p level guides pfx q d' lvl hev
    by_cases hl : o.depth > 0 ∧ (level : Int) ≥ o.depth
    · rw [walk_limit _ _ _ _ _ _ _ hl] at hev; simp at hev
    · have h0 := hev
      rw [walk_ok L o p (.dir name entries) level guides pfx hl entries rfl] at h0
      simp only [List.mem_cons] at h0
      rcases h0 with h0 | h0
      · cases h0
        exact ⟨hl, guides, pfx, fun ev h => h⟩
      · rw [walk_ok L o p (.dir name entries) level guides pfx hl entries rfl]
        obtain ⟨i, c, hi, hev', hsub⟩ := mem_forRange _ _ _ _ h0
        have hmem := mem_filtered.mp (mem_of_getElem? hi)
        unfold visit at hev' hsub
        simp only at hev' hsub
        split at hev'
        · rename_i hdir
          rw [if_pos hdir] at hsub
          simp only [List.mem_cons] at hev'
          rcases hev' with hev' | hev'
          · cases hev'
          · obtain ⟨h1, gs', pfx', h2⟩ := ih c hmem.1 _ _ _ _ q d' lvl hev'
            exact ⟨h1, gs', pfx', fun ev h =>
              List.mem_cons_of_mem _ (hsub _ (List.mem_cons_of_mem _ (h2 ev h)))⟩
        · simp only [List.mem_singleton] at hev'
          cases hev'

/-- The line of a directory is followed by the call of `walk` on it, whose
events all belong to the run. -/
theorem walk_subcall_println (L : Lib) (o : opts) :
    ∀ (d : Node) (p : List String) (level : Nat) (guides : List Bool) (pfx : String)
      (line : String) (q : List String) (e : Node) (lvl : Nat) (gs : List Bool) (il : Bool),
      Event.println line q e lvl gs il ∈ (walk L o p d level guides pfx).1 →
      e.IsDir = true →
      ∃ gs' pfx', ∀ ev ∈ (walk L o q e (lvl + 1) gs' pfx').1,
        ev ∈ (walk L o p d level guides pfx).1 := by
  intro d
  induction d using Node.induct with
  | hfile name size =>
    intro p level guides pfx line q e lvl gs il hev
    by_cases hl : o.depth > 0 ∧ (level : Int) ≥ o.depth
    · rw [walk_limit _ _ _ _ _ _ _ hl] at hev; simp at hev
    · rw [walk_error L o p (.file name size) level guides pfx hl _ rfl] at hev
      simp at hev
  | hunr name err es =>
    intro p level guides pfx line q e lvl gs il hev
    by_cases hl : o.depth > 0 ∧ (level : Int) ≥ o.depth
    · rw [walk_limit _ _ _ _ _ _ _ hl] at hev; simp at hev
    · rw [walk_error L o p (.unreadable name err es) level guides pfx hl err rfl] at hev
      simp at hev
  | hdir name entries ih =>
    intro p level guides pfx line q e lvl gs il hev hdir
    by_cases hl : o.depth > 0 ∧ (level : Int) ≥ o.depth
    · rw [walk_limit _ _ _ _ _ _ _ hl] at hev; simp at hev
    · rw [walk_ok L o p (.dir name entries) level guides pfx hl entries rfl] at hev ⊢
      simp only [List.mem_cons] at hev
      rcases hev with hev | hev
      · cases hev
      · obtain ⟨i, c, hi, hev', hsub⟩ := mem_forRange _ _ _ _ hev
        have hmem := mem_filtered.mp (mem_of_getElem? hi)
        unfold visit at hev' hsub
        simp only at hev' hsub
        split at hev'
        · rename_i hcdir
          rw [if_pos hcdir] at hsub
          simp only [List.mem_cons] at hev'
          rcases hev' with hev' | hev'
          · cases hev'
            exact ⟨_, _, fun ev h => List.mem_cons_of_mem _ (hsub _ (List.mem_cons_of_mem _ h))⟩
          · obtain ⟨gs', pfx', h2⟩ := ih c hmem.1 _ _ _ _ _ _ _ _ _ _ hev' hdir
            exact ⟨gs', pfx', fun ev h =>
              List.mem_cons_of_mem _ (hsub _ (List.mem_cons_of_mem _ (h2 ev h)))⟩
        · simp only [List.mem_singleton] at hev'
          cases hev'
          rename_i hc
          exact absurd hdir hc

/-- A call one level above the limit returns no error: the calls it makes on
its directories return at once. -/
theorem walk_none_at_limit (L : Lib) (o : opts) (p : List String) (d : Node) (level : Nat)
    (guides : List Bool) (pfx : String) (entries : List Node) (hd : ReadDir d = .ok entries)
    (hl : ¬ (o.depth > 0 ∧ (level : Int) ≥ o.depth))
    (hl1 : o.depth > 0 ∧ ((level + 1 : Nat) : Int) ≥ o.depth) :
    (walk L o p d level guides pfx).2 = none := by
  rw [walk_ok L o p d level guides pfx hl entries hd]
  apply forRange_of_none
  intro i e _
  unfold visit
  simp only
  split
  · rw [walk_limit _ _ _ _ _ _ _ hl1]
  · rfl

/-- The children of a directory listed one level above the limit are all
printed, whatever happens elsewhere in the run. -/
theorem walk_complete_at_limit (L : Lib) (o : opts) (d : Node) (p : List String) (level : Nat)
    (guides : List Bool) (pfx : String) (q : List String) (d' : Node) (lvl : Nat)
    (hev : Event.readDir q d' lvl ∈ (walk L o p d level guides pfx).1)
    (hl1 : o.depth > 0 ∧ ((lvl + 1 : Nat) : Int) ≥ o.depth)
    (es : List Node) (hes : ReadDir d' = .ok es) (e : Node) (he : e ∈ es)
    (hk : keep o e = true) :
    ∃ line gs il, Event.println line (q ++ [e.Name]) e lvl gs il ∈
      (walk L o p d level guides pfx).1 := by
  obtain ⟨hl, gs', pfx', hsub⟩ := walk_subcall L o d p level guides pfx q d' lvl hev
  obtain ⟨line, gs, il, h⟩ := walk_complete L o d' q lvl gs' pfx'
    (walk_none_at_limit L o q d' lvl gs' pfx' es hes hl hl1) q d' lvl
    (walk_head L o q d' lvl gs' pfx' hl) es hes e he hk
  exact ⟨line, gs, il, hsub _ h⟩

/-- Every event of a run from the root belongs to a call below the limit and
carries a path as long as its depth. -/
theorem walk_depths (L : Lib) (o : opts) (d : Node) :
    ∀ ev ∈ (walk L o [] d 0 [] "").1,
      ¬ (o.depth > 0 ∧ (ev.level : Int) ≥ o.depth) ∧
      (∀ q d' lvl, ev = Event.readDir q d' lvl → q.length = lvl) ∧
      (∀ line q e lvl gs il, ev = Event.println line q e lvl gs il → q.length = lvl + 1) := by
  refine walk_forall L o (fun p level _ _ => p.length = level)
    (fun ev => ¬ (o.depth > 0 ∧ (ev.level : Int) ≥ o.depth) ∧
      (∀ q d' lvl, ev = Event.readDir q d' lvl → q.length = lvl) ∧
      (∀ line q e lvl gs il, ev = Event.println line q e lvl gs il → q.length = lvl + 1))
    ?_ ?_ ?_ d [] 0 [] "" rfl
  · intro p level guides pfx e isLast h _ _ _
    simp [h]
  · intro p d level guides pfx h hl
    refine ⟨hl, ?_, ?_⟩
    · intro q d' lvl hev; cases hev; exact h
    · intro line q e lvl gs il hev; cases hev
  · intro p level guides pfx e isLast h hl _
    refine ⟨hl, ?_, ?_⟩
    · intro q d' lvl hev; cases hev
    · intro line q e' lvl gs il hev; cases hev; simp [h]

/-- C5 (as amended). With maxDepth = D > 0, in the walk started at the root
with level 0 (the depth of an entry is the length of its path below the root):
every line is for an entry at depth at most D; every directory that is listed
is at depth less than D, so no directory at depth D is listed or expanded; and
every entry at depth exactly D that passes the filters, whose parent directory
was printed (for D = 1 the parent is the root) and can be listed, is itself
printed, also in a run that a listing error cuts short elsewhere. -/
theorem depth_limit (L : Lib) (o : opts) (d : Node) (hD : 0 < o.depth) :
    (∀ line q e lvl gs il, Event.println line q e lvl gs il ∈ (render L o d).1 →
      (q.length : Int) ≤ o.depth ∧ q.length = lvl + 1) ∧
    (∀ q d' lvl, Event.readDir q d' lvl ∈ (render L o d).1 →
      (q.length : Int) < o.depth ∧ q.length = lvl) ∧
    (o.depth = 1 → ∀ es, ReadDir d = .ok es → ∀ e ∈ es, keep o e = true →
      ∃ line gs il, Event.println line [e.Name] e 0 gs il ∈ (render L o d).1) ∧
    (∀ line q P lvl gs il, Event.println line q P lvl gs il ∈ (render L o d).1 →
      (q.length : Int) + 1 = o.depth →
      ∀ es, ReadDir P = .ok es → ∀ e ∈ es, keep o e = true →
      ∃ line' gs' il', Event.println line' (q ++ [e.Name]) e (lvl + 1) gs' il' ∈
        (render L o d).1) := by
  unfold render
  refine ⟨?_, ?_, ?_, ?_⟩
  · intro line q e lvl gs il hev
    obtain ⟨h1, _, h3⟩ := walk_depths L o d _ hev
    have h4 := h3 _ _ _ _ _ _ rfl
    simp only [Event.level, not_and, ge_iff_le, not_le] at h1
    have := h1 hD
    refine ⟨?_, h4⟩
    rw [h4]; push_cast; omega
  · intro q d' lvl hev
    obtain ⟨h1, h2, _⟩ := walk_depths L o d _ hev
    have h4 := h2 _ _ _ rfl
    simp only [Event.level, not_and, ge_iff_le, not_le] at h1
    have := h1 hD
    refine ⟨?_, h4⟩
    rw [h4]; exact this
  · intro h1 es hes e he hk
    have hl : ¬ (o.depth > 0 ∧ ((0 : Nat) : Int) ≥ o.depth) := by
      rw [h1]; simp
    have := walk_complete_at_limit L o d [] 0 [] "" [] d 0 (walk_head L o [] d 0 [] "" hl)
      (by rw [h1]; simp) es hes e he hk
    simpa using this
  · intro line q P lvl gs il hev hq es hes e he hk
    obtain ⟨_, _, h3⟩ := walk_depths L o d _ hev
    have h4 := h3 _ _ _ _ _ _ rfl
    have hPdir : P.IsDir = true := by
      obtain ⟨name, rfl⟩ := readDir_ok hes
      rfl
    obtain ⟨gs', pfx', hsub⟩ := walk_subcall_println L o d [] 0 [] "" line q P lvl gs il hev hPdir
    have hl : ¬ (o.depth > 0 ∧ ((lvl + 1 : Nat) : Int) ≥ o.depth) := by
      rw [h4] at hq; push_cast at hq ⊢; omega
    have hr := hsub _ (walk_head L o q P (lvl + 1) gs' pfx' hl)
    exact walk_complete_at_limit L o d [] 0 [] "" q P (lvl + 1) hr
      (by rw [h4] at hq; push_cast at hq ⊢; omega) es hes e he hk

theorem depth_limit_witness :
    0 < depthOneOpts.depth ∧
    ((∀ line q e lvl gs il,
        Event.println line q e lvl gs il ∈ (render goLib depthOneOpts treeNested).1 →
        (q.length : Int) ≤ depthOneOpts.depth ∧ q.length = lvl + 1) ∧
      (∀ q d' lvl, Event.readDir q d' lvl ∈ (render goLib depthOneOpts treeNested).1 →
        (q.length : Int) < depthOneOpts.depth ∧ q.length = lvl) ∧
      (depthOneOpts.depth = 1 → ∀ es, ReadDir treeNested = .ok es → ∀ e ∈ es,
        keep depthOneOpts e = true →
        ∃ line gs il, Event.println line [e.Name] e 0 gs il ∈
          (render goLib depthOneOpts treeNested).1) ∧
      (∀ line q P lvl gs il,
        Event.println line q P lvl gs il ∈ (render goLib depthOneOpts treeNested).1 →
        (q.length : Int) + 1 = depthOneOpts.depth →
        ∀ es, ReadDir P = .ok es → ∀ e ∈ es, keep depthOneOpts e = true →
        ∃ line' gs' il', Event.println line' (q ++ [e.Name]) e (lvl + 1) gs' il' ∈
          (render goLib depthOneOpts treeNested).1)) ∧
    stdout (render goLib depthOneOpts treeNested).1 = ["├── A", "└── b"] :=
  ⟨by decide, depth_limit goLib depthOneOpts treeNested (by decide),
    by rw [render_treeNested_depthOne]; rfl⟩

/-- C5, the claim as stated fails for the entries of a directory that cannot be
listed: with maxDepth 2 the directory `a` is printed at depth 1, its entry `f`
is at depth 2 and passes the filters, yet listing `a` fails, the run stops
after `"└── a"` and no line is printed for `f`. -/
theorem depth_limit_counterexample :
    0 < depthTwoOpts.depth ∧
    Event.println "└── a" ["a"] (.unreadable "a" "permission denied" [.file "f" none]) 0 []
      true ∈ (render goLib depthTwoOpts treeLocked).1 ∧
    ((["a"] : List String).length : Int) + 1 = depthTwoOpts.depth ∧
    Node.file "f" none ∈ (Node.unreadable "a" "permission denied" [.file "f" none]).entries ∧
    keep depthTwoOpts (.file "f" none) = true ∧
    stdout (render goLib depthTwoOpts treeLocked).1 = ["└── a"] ∧
    ¬ ∃ line lvl gs il, Event.println line (["a"] ++ [(Node.file "f" none).Name])
      (.file "f" none) lvl gs il ∈ (render goLib depthTwoOpts treeLocked).1 := by
  rw [render_treeLocked_depthTwo]
  refine ⟨by decide, by simp, by decide, by simp [Node.entries], by decide, rfl, ?_⟩
  simp


/-! ## Counting the lines of a readable tree -/

theorem printed_append (a b : List Event) : printed (a ++ b) = printed a ++ printed b := by
  induction a with
  | nil => rfl
  | cons ev a ih => cases ev <;> simp [printed, ih]

theorem listed_append (a b : List Event) : listed (a ++ b) = listed a ++ listed b := by
  induction a with
  | nil => rfl
  | cons ev a ih => cases ev <;> simp [listed, ih]

theorem stdout_length (evs : List Event) : (stdout evs).length = (printed evs).length := by
  induction evs with
  | nil => rfl
  | cons ev evs ih => cases ev <;> simp [stdout, printed, ih]

theorem allReadable_iff (es : List Node) :
    allReadable es = true ↔ ∀ e ∈ es, e.Readable = true := by
  induction es with
  | nil => simp [allReadable]
  | cons e es ih => simp [allReadable, ih]

theorem readable_entries {name : String} {entries : List Node}
    (h : (Node.dir name entries).Readable = true) : ∀ e ∈ entries, e.Readable = true :=
  (allReadable_iff entries).mp (by simpa [Node.Readable] using h)

/-- The loop over entries whose nested calls return no error and print what
they list: it returns no error, and it prints its entries and what the nested
calls list. -/
theorem forRange_printed (L : Lib) (o : opts) (p : List String) (level : Nat)
    (guides : List Bool) (pfx : String) (n : Nat) (l : List Node)
    (h : ∀ c ∈ l, c.IsDir = true → ∀ gs' pfx',
      (walk L o (p ++ [c.Name]) c (level + 1) gs' pfx').2 = none ∧
      (printed (walk L o (p ++ [c.Name]) c (level + 1) gs' pfx').1).Perm
        ((listed (walk L o (p ++ [c.Name]) c (level + 1) gs' pfx').1).flatMap
          (keptChildren o))) (idx : Nat) :
    (forRange (visit L o p level guides pfx n) idx l).2 = none ∧
    (printed (forRange (visit L o p level guides pfx n) idx l).1).Perm
      (l.map (fun e => (p ++ [e.Name], e)) ++
        (listed (forRange (visit L o p level guides pfx n) idx l).1).flatMap
          (keptChildren o)) := by
  induction l generalizing idx with
  | nil => simp [forRange, printed, listed]
  | cons c l ih =>
    have ihl := ih (fun c' hc' => h c' (List.mem_cons_of_mem _ hc')) (idx + 1)
    have hc := h c (List.mem_cons_self _ _)
    unfold forRange
    by_cases hdir : c.IsDir = true
    · obtain ⟨h1, h2⟩ := hc hdir (guides ++ [!(idx == n - 1)]) (nextPrefix pfx (idx == n - 1))
      have hv : visit L o p level guides pfx n idx c =
          (Event.println (lineOf o pfx (idx == n - 1) c) (p ++ [c.Name]) c level guides
              (idx == n - 1) ::
            (walk L o (p ++ [c.Name]) c (level + 1) (guides ++ [!(idx == n - 1)])
              (nextPrefix pfx (idx == n - 1))).1, none) := by
        unfold visit
        simp only [hdir, if_true, h1]
      rw [hv]
      simp only [List.cons_append, printed, listed, List.append_eq, printed_append,
        listed_append, List.map_cons, List.flatMap_append]
      refine ⟨ihl.1, List.Perm.cons _ ?_⟩
      refine (List.Perm.append h2 ihl.2).trans ?_
      rw [← List.append_assoc, ← List.append_assoc]
      exact List.Perm.append_right _ List.perm_append_comm
    · have hv : visit L o p level guides pfx n idx c =
          ([Event.println (lineOf o pfx (idx == n - 1) c) (p ++ [c.Name]) c level guides
              (idx == n - 1)], none) := by
        unfold visit
        simp only [hdir]
        rfl
      rw [hv]
      simp only [List.cons_append, List.nil_append, printed, listed, List.map_cons]
      exact ⟨ihl.1, List.Perm.cons _ ihl.2⟩

/-- On a readable directory a call returns no error and prints exactly the
filtered children of the directories it lists. -/
theorem walk_printed (L : Lib) (o : opts) :
    ∀ (d : Node), d.Readable = true → d.IsDir = true →
      ∀ (p : List String) (level : Nat) (guides : List Bool) (pfx : String),
      (walk L o p d level guides pfx).2 = none ∧
      (printed (walk L o p d level guides pfx).1).Perm
        ((listed (walk L o p d level guides pfx).1).flatMap (keptChildren o)) := by
  intro d
  induction d using Node.induct with
  | hfile name size => intro _ hdir; simp [Node.IsDir] at hdir
  | hunr name err es => intro hr; simp [Node.Readable] at hr
  | hdir name entries ih =>
    intro hr _ p level guides pfx
    by_cases hl : o.depth > 0 ∧ (level : Int) ≥ o.depth
    · rw [walk_limit _ _ _ _ _ _ _ hl]
      exact ⟨rfl, List.Perm.refl _⟩
    · rw [walk_ok L o p (.dir name entries) level guides pfx hl entries rfl]
      have hloop := forRange_printed L o p level guides pfx (filtered L o entries).length
        (filtered L o entries)
        (fun c hc hcdir gs' pfx' =>
          ih c (mem_filtered.mp hc).1 (readable_entries hr c (mem_filtered.mp hc).1) hcdir
            _ _ _ _) 0
      refine ⟨hloop.1, ?_⟩
      simp only [printed, listed, List.flatMap_cons]
      refine hloop.2.trans (List.Perm.append_right _ ?_)
      simp only [keptChildren, ReadDir]
      exact (filtered_perm L o entries).map _

/-- C6. On a fully readable directory tree, for every option set, the walk
returns no error; the number of lines it prints (all output lines but the root
header) is the sum, over the directories it lists, of the number of children
of that directory that pass the hidden and the directoriesOnly filter; and the
entries printed, each with its path, are these children, each exactly once and
nothing else. -/
theorem line_count (L : Lib) (o : opts) (d : Node) (hr : d.Readable = true)
    (hdir : d.IsDir = true) :
    (render L o d).2 = none ∧
    (stdout (render L o d).1).length =
      ((listed (render L o d).1).map (fun x => (keptChildren o x).length)).sum ∧
    (printed (render L o d).1).Perm ((listed (render L o d).1).flatMap (keptChildren o)) := by
  unfold render
  obtain ⟨h1, h2⟩ := walk_printed L o d hr hdir [] 0 [] ""
  refine ⟨h1, ?_, h2⟩
  rw [stdout_length, h2.length_eq, List.length_flatMap]
  rfl

theorem line_count_witness :
    treeNested.Readable = true ∧ treeNested.IsDir = true ∧
    ((render goLib defaultOpts treeNested).2 = none ∧
      (stdout (render goLib defaultOpts treeNested).1).length =
        ((listed (render goLib defaultOpts treeNested).1).map
          (fun x => (keptChildren defaultOpts x).length)).sum ∧
      (printed (render goLib defaultOpts treeNested).1).Perm
        ((listed (render goLib defaultOpts treeNested).1).flatMap (keptChildren defaultOpts))) :=
  ⟨by decide, rfl, line_count goLib defaultOpts treeNested (by decide) rfl⟩

/-! ## Fail-fast -/

theorem stdout_append (a b : List Event) : stdout (a ++ b) = stdout a ++ stdout b := by
  induction a with
  | nil => rfl
  | cons ev a ih => cases ev <;> simp [stdout, ih]

/-- An event that only a failing body can produce lies in the body the loop
stops at. -/
theorem forRange_stop {α : Type} (body : Nat → α → List Event × Option IOError)
    (l : List α) (idx : Nat) (ev : Event) (h : ev ∈ (forRange body idx l).1)
    (hfail : ∀ i c, l[i]? = some c → ev ∈ (body (idx + i) c).1 →
      ∃ err, (body (idx + i) c).2 = some err) :
    ∃ i c pre, l[i]? = some c ∧ ev ∈ (body (idx + i) c).1 ∧
      forRange body idx l = (pre ++ (body (idx + i) c).1, (body (idx + i) c).2) := by
  induction l generalizing idx with
  | nil => simp [forRange] at h
  | cons a l ih =>
    unfold forRange at h ⊢
    split at h
    · rename_i out err hb
      refine ⟨0, a, [], by simp, by simpa [hb] using h, ?_⟩
      simp [hb]
    · rename_i out hb
      simp only [List.mem_append] at h
      rcases h with h | h
      · obtain ⟨err, herr⟩ := hfail 0 a (by simp) (by simpa [hb] using h)
        simp [hb] at herr
      · obtain ⟨i, c, pre, hi, hev, heq⟩ := ih (idx + 1) h (by
          intro i c hi hev
          have e1 : idx + (i + 1) = idx + 1 + i := by omega
          have := hfail (i + 1) c (by simpa using hi) (by rw [e1]; exact hev)
          rwa [e1] at this)
        have e1 : idx + (i + 1) = idx + 1 + i := by omega
        refine ⟨i + 1, c, out ++ pre, by simpa using hi, by rw [e1]; exact hev, ?_⟩
        rw [e1]
        simp only [heq, List.append_assoc]

theorem childLines_cons_readDir (level : Nat) (p : List String) (d : Node) (lvl : Nat)
    (evs : List Event) :
    childLines level (Event.readDir p d lvl :: evs) = childLines level evs := rfl

theorem childLines_cons_println_ne (level : Nat) (line : String) (p : List String) (e : Node)
    (lvl : Nat) (gs : List Bool) (il : Bool) (evs : List Event) (h : lvl ≠ level) :
    childLines level (Event.println line p e lvl gs il :: evs) = childLines level evs := by
  simp [childLines, h]


theorem visit_dir (L : Lib) (o : opts) (p : List String) (level : Nat) (guides : List Bool)
    (pfx : String) (n idx : Nat) (c : Node) (h : c.IsDir = true) :
    visit L o p level guides pfx n idx c =
      (Event.println (lineOf o pfx (idx == n - 1) c) (p ++ [c.Name]) c level guides
          (idx == n - 1) ::
        (walk L o (p ++ [c.Name]) c (level + 1) (guides ++ [!(idx == n - 1)])
          (nextPrefix pfx (idx == n - 1))).1,
        (walk L o (p ++ [c.Name]) c (level + 1) (guides ++ [!(idx == n - 1)])
          (nextPrefix pfx (idx == n - 1))).2) := by
  unfold visit
  simp only [h, if_true]

theorem visit_file (L : Lib) (o : opts) (p : List String) (level : Nat) (guides : List Bool)
    (pfx : String) (n idx : Nat) (c : Node) (h : ¬ c.IsDir = true) :
    visit L o p level guides pfx n idx c =
      ([Event.println (lineOf o pfx (idx == n - 1) c) (p ++ [c.Name]) c level guides
          (idx == n - 1)], none) := by
  unfold visit
  simp only
  rw [if_neg h]

/-- A call that reaches a directory whose listing fails: it returns that
error, the failed listing is its last event, preceded by the line of that
directory unless the call was made on it, and at every level in between the
last child line is the one of the directory on the path to it. -/
theorem walk_fail (L : Lib) (o : opts) :
    ∀ (d : Node) (p : List String) (level : Nat) (guides : List Bool) (pfx : String),
      p.length = level →
      ∀ (q : List String) (d' : Node) (lvl : Nat) (err : IOError),
      Event.readDir q d' lvl ∈ (walk L o p d level guides pfx).1 →
      ReadDir d' = .error err →
      (walk L o p d level guides pfx).2 = some err ∧ p <+: q ∧ q.length = lvl ∧
      ((lvl = level ∧ (walk L o p d level guides pfx).1 = [Event.readDir q d' lvl]) ∨
        (level < lvl ∧ ∃ evs line gs il, (walk L o p d level guides pfx).1 =
          evs ++ [Event.println line q d' (lvl - 1) gs il, Event.readDir q d' lvl])) ∧
      (∀ l, level ≤ l → l < lvl → ∃ line e gs il,
        (childLines l (walk L o p d level guides pfx).1).getLast? =
          some (Event.println line (q.take (l + 1)) e l gs il)) := by
  intro d
  induction d using Node.induct with
  | hfile name size =>
    intro p level guides pfx hp q d' lvl err hev herr
    by_cases hl : o.depth > 0 ∧ (level : Int) ≥ o.depth
    · rw [walk_limit _ _ _ _ _ _ _ hl] at hev; simp at hev
    · rw [walk_error L o p (.file name size) level guides pfx hl _ rfl] at hev ⊢
      simp at hev
      obtain ⟨rfl, rfl, rfl⟩ := hev
      simp [ReadDir] at herr
      subst herr
      exact ⟨rfl, List.prefix_refl _, hp, Or.inl ⟨rfl, rfl⟩, fun l h1 h2 => by omega⟩
  | hunr name err0 es =>
    intro p level guides pfx hp q d' lvl err hev herr
    by_cases hl : o.depth > 0 ∧ (level : Int) ≥ o.depth
    · rw [walk_limit _ _ _ _ _ _ _ hl] at hev; simp at hev
    · rw [walk_error L o p (.unreadable name err0 es) level guides pfx hl err0 rfl] at hev ⊢
      simp at hev
      obtain ⟨rfl, rfl, rfl⟩ := hev
      simp [ReadDir] at herr
      subst herr
      exact ⟨rfl, List.prefix_refl _, hp, Or.inl ⟨rfl, rfl⟩, fun l h1 h2 => by omega⟩
  | hdir name entries ih =>
    intro p level guides pfx hp q d' lvl err hev herr
    by_cases hl : o.depth > 0 ∧ (level : Int) ≥ o.depth
    · rw [walk_limit _ _ _ _ _ _ _ hl] at hev; simp at hev
    · rw [walk_ok L o p (.dir name entries) level guides pfx hl entries rfl] at hev ⊢
      simp only [List.mem_cons] at hev
      rcases hev with hev | hev
      · cases hev
        simp [ReadDir] at herr
      · have hfail : ∀ i c, (filtered L o entries)[i]? = some c →
            Event.readDir q d' lvl ∈
              (visit L o p level guides pfx (filtered L o entries).length (0 + i) c).1 →
            ∃ err, (visit L o p level guides pfx (filtered L o entries).length (0 + i) c).2 =
              some err := by
          intro i c hi hc
          have hmem := mem_filtered.mp (mem_of_getElem? hi)
          by_cases hdir : c.IsDir = true
          · rw [visit_dir _ _ _ _ _ _ _ _ _ hdir] at hc ⊢
            simp only [List.mem_cons] at hc
            rcases hc with hc | hc
            · cases hc
            · exact ⟨err, (ih c hmem.1 _ _ _ _ (by simp [hp]) q d' lvl err hc herr).1⟩
          · rw [visit_file _ _ _ _ _ _ _ _ _ hdir] at hc
            simp only [List.mem_singleton] at hc
            cases hc
        obtain ⟨i, c, pre, hi, hc, heq⟩ := forRange_stop _ _ _ _ hev hfail
        have hmem := mem_filtered.mp (mem_of_getElem? hi)
        have hcl := childLines_visit L o p level guides pfx (filtered L o entries).length
          (0 + i) c
        rw [heq]
        by_cases hdir : c.IsDir = true
        · rw [visit_dir _ _ _ _ _ _ _ _ _ hdir] at hc hcl ⊢
          simp only [List.mem_cons] at hc hcl ⊢
          rcases hc with hc | hc
          · cases hc
          · obtain ⟨h1, h2, h3, h4, h5⟩ :=
              ih c hmem.1 (p ++ [c.Name]) (level + 1) _ _ (by simp [hp]) q d' lvl err hc herr
            have hpq : p ++ [c.Name] = q.take (level + 1) := by
              have := List.prefix_iff_eq_take.mp h2
              simpa [hp] using this
            refine ⟨h1, (List.prefix_append p [c.Name]).trans h2, h3, Or.inr ?_, ?_⟩
            · rcases h4 with ⟨h6, h7⟩ | ⟨h6, evs, line, gs, il, h7⟩
              · have hnl : ¬ (o.depth > 0 ∧ ((level + 1 : Nat) : Int) ≥ o.depth) := by
                  intro hlim
                  rw [walk_limit _ _ _ _ _ _ _ hlim] at hc
                  simp at hc
                have hh := walk_head L o (p ++ [c.Name]) c (level + 1)
                  (guides ++ [!(0 + i == (filtered L o entries).length - 1)])
                  (nextPrefix pfx (0 + i == (filtered L o entries).length - 1)) hnl
                rw [h7] at hh
                simp at hh
                obtain ⟨rfl, rfl, -⟩ := hh
                refine ⟨by omega, Event.readDir p (.dir name entries) level :: pre,
                  lineOf o pfx (0 + i == (filtered L o entries).length - 1) c, guides,
                  (0 + i == (filtered L o entries).length - 1), ?_⟩
                rw [h7, h6]
                simp
              · refine ⟨by omega, Event.readDir p (.dir name entries) level :: (pre ++
                  Event.println (lineOf o pfx (0 + i == (filtered L o entries).length - 1) c)
                    (p ++ [c.Name]) c level guides
                    (0 + i == (filtered L o entries).length - 1) :: evs), line, gs, il, ?_⟩
                rw [h7]
                simp
            · intro l hl1 hl2
              rw [childLines_cons_readDir, childLines_append]
              by_cases hll : l = level
              · subst hll
                rw [hcl, List.getLast?_append]
                refine ⟨lineOf o pfx (0 + i == (filtered L o entries).length - 1) c, c, guides,
                  (0 + i == (filtered L o entries).length - 1), ?_⟩
                rw [← hpq]
                rfl
              · rw [childLines_cons_println_ne _ _ _ _ _ _ _ _ (fun h => hll h.symm)]
                obtain ⟨line, e, gs, il, h8⟩ := h5 l (by omega) hl2
                refine ⟨line, e, gs, il, ?_⟩
                rw [List.getLast?_append, h8]
                rfl
        · rw [visit_file _ _ _ _ _ _ _ _ _ hdir] at hc
          simp only [List.mem_singleton] at hc
          cases hc

/-- C7. When the walk started at the root reaches a directory whose listing
fails: the walk returns exactly that listing error; the failed listing is the
last thing the run does, so no line is printed after it; the last line printed
is the line of the unreadable directory itself, or nothing is printed when it
is the root; and at every level above it the last child line printed is the
line of its ancestor at that level (of itself, one level up), so no later
sibling of it or of any of its ancestors has a line. -/
theorem fail_fast (L : Lib) (o : opts) (d : Node) (q : List String) (d' : Node) (lvl : Nat)
    (err : IOError) (hev : Event.readDir q d' lvl ∈ (render L o d).1)
    (herr : ReadDir d' = .error err) :
    (render L o d).2 = some err ∧
    ((lvl = 0 ∧ q = [] ∧ (render L o d).1 = [Event.readDir q d' lvl] ∧
        stdout (render L o d).1 = []) ∨
      (0 < lvl ∧ ∃ evs line gs il,
        (render L o d).1 =
          evs ++ [Event.println line q d' (lvl - 1) gs il, Event.readDir q d' lvl] ∧
        (stdout (render L o d).1).getLast? = some line)) ∧
    (∀ l, l < lvl → ∃ line e gs il,
      (childLines l (render L o d).1).getLast? =
        some (Event.println line (q.take (l + 1)) e l gs il)) := by
  unfold render at *
  obtain ⟨h1, _, h3, h4, h5⟩ := walk_fail L o d [] 0 [] "" rfl q d' lvl err hev herr
  refine ⟨h1, ?_, fun l hl => h5 l (Nat.zero_le _) hl⟩
  rcases h4 with ⟨h6, h7⟩ | ⟨h6, evs, line, gs, il, h7⟩
  · left
    subst h6
    refine ⟨rfl, List.length_eq_zero.mp h3, h7, ?_⟩
    rw [h7]; rfl
  · right
    refine ⟨h6, evs, line, gs, il, h7, ?_⟩
    rw [h7, stdout_append]
    simp [stdout]

theorem fail_fast_witness :
    Event.readDir ["a"] (.unreadable "a" "permission denied" []) 1 ∈
      (render goLib allOpts treeAbort).1 ∧
    ReadDir (.unreadable "a" "permission denied" []) = .error "permission denied" ∧
    ((render goLib allOpts treeAbort).2 = some "permission denied" ∧
      ((1 = 0 ∧ ["a"] = [] ∧
          (render goLib allOpts treeAbort).1 =
            [Event.readDir ["a"] (.unreadable "a" "permission denied" []) 1] ∧
          stdout (render goLib allOpts treeAbort).1 = []) ∨
        (0 < 1 ∧ ∃ evs line gs il,
          (render goLib allOpts treeAbort).1 =
            evs ++ [Event.println line ["a"] (.unreadable "a" "permission denied" []) (1 - 1) gs il,
              Event.readDir ["a"] (.unreadable "a" "permission denied" []) 1] ∧
          (stdout (render goLib allOpts treeAbort).1).getLast? = some line)) ∧
      (∀ l, l < 1 → ∃ line e gs il,
        (childLines l (render goLib allOpts treeAbort).1).getLast? =
          some (Event.println line (["a"].take (l + 1)) e l gs il))) :=
  ⟨by rw [render_treeAbort_all]; simp, rfl,
    fail_fast goLib allOpts treeAbort ["a"] (.unreadable "a" "permission denied" []) 1
      "permission denied" (by rw [render_treeAbort_all]; simp) rfl⟩

/-! ## directoriesOnly -/

/-- C8 (as amended). With directoriesOnly set no line is for a non-directory.
The flag never removes a directory: when the traversal returns no error, every
directory that passes the hidden filter and is a child of a listed directory is
printed, whatever it contains; the root is listed, and so is every directory
printed at a depth below the limit. -/
theorem dirs_only (L : Lib) (o : opts) (d : Node) :
    (o.dirsOnly = true →
      ∀ line q e lvl gs il, Event.println line q e lvl gs il ∈ (render L o d).1 →
        e.IsDir = true) ∧
    ((render L o d).2 = none →
      ∀ q d' lvl, Event.readDir q d' lvl ∈ (render L o d).1 →
      ∀ es, ReadDir d' = .ok es → ∀ e ∈ es, e.IsDir = true →
        (o.all = true ∨ HasPrefix e.Name "." = false) →
        ∃ line gs il, Event.println line (q ++ [e.Name]) e lvl gs il ∈ (render L o d).1) ∧
    Event.readDir [] d 0 ∈ (render L o d).1 ∧
    (∀ line q P lvl gs il, Event.println line q P lvl gs il ∈ (render L o d).1 →
      P.IsDir = true → ¬ (o.depth > 0 ∧ ((lvl + 1 : Nat) : Int) ≥ o.depth) →
      ∃ lvl', Event.readDir q P lvl' ∈ (render L o d).1) := by
  unfold render
  refine ⟨?_, ?_, walk_head L o [] d 0 [] "" (by intro h; simp at h; omega), ?_⟩
  · intro hdo line q e lvl gs il hev
    obtain ⟨h1, _⟩ := walk_kept L o (fun _ => True) d [] 0 [] "" (fun _ _ => trivial)
      (fun _ _ => trivial) _ hev _ _ _ _ _ _ rfl
    simp [keep, hdo] at h1
    exact h1.2
  · intro hres q d' lvl hev es hes e he hdir hhid
    refine walk_complete L o d [] 0 [] "" hres q d' lvl hev es hes e he ?_
    rcases hhid with h | h <;> simp [keep, h, hdir]
  · intro line q P lvl gs il hev hdir hl
    obtain ⟨gs', pfx', hsub⟩ := walk_subcall_println L o d [] 0 [] "" line q P lvl gs il hev hdir
    exact ⟨lvl + 1, hsub _ (walk_head L o q P (lvl + 1) gs' pfx' hl)⟩

theorem dirs_only_witness :
    (dirsOpts.dirsOnly = true ∧
      Event.println "└── A" ["A"] (.dir "A" []) 0 [] true ∈
        (render goLib dirsOpts treeScenario).1 ∧
      (Node.dir "A" []).IsDir = true) ∧
    ((render goLib dirsOpts treeScenario).2 = none ∧
      Event.readDir [] treeScenario 0 ∈ (render goLib dirsOpts treeScenario).1 ∧
      ∃ line gs il, Event.println line ([] ++ [(Node.dir "A" []).Name]) (.dir "A" []) 0 gs il ∈
        (render goLib dirsOpts treeScenario).1) ∧
    Event.readDir [] treeScenario 0 ∈ (render goLib dirsOpts treeScenario).1 ∧
    ∃ lvl', Event.readDir ["A"] (.dir "A" []) lvl' ∈ (render goLib dirsOpts treeScenario).1 :=
  ⟨⟨rfl, by rw [render_treeScenario_dirs]; simp,
      (dirs_only goLib dirsOpts treeScenario).1 rfl "└── A" ["A"] (.dir "A" []) 0 [] true
        (by rw [render_treeScenario_dirs]; simp)⟩,
    ⟨by rw [render_treeScenario_dirs], by rw [render_treeScenario_dirs]; simp,
      (dirs_only goLib dirsOpts treeScenario).2.1 (by rw [render_treeScenario_dirs])
        [] treeScenario 0 (by rw [render_treeScenario_dirs]; simp)
        [.file "b.txt" none, .dir "A" [], .file ".hidden" none] rfl (.dir "A" [])
        (by simp) rfl (Or.inr (by decide))⟩,
    (dirs_only goLib dirsOpts treeScenario).2.2.1,
    (dirs_only goLib dirsOpts treeScenario).2.2.2 "└── A" ["A"] (.dir "A" []) 0 [] true
      (by rw [render_treeScenario_dirs]; simp) rfl (by decide)⟩

/-- C8, the second half of the claim as stated fails when a listing error cuts
the run short: with directoriesOnly set the root is listed, its empty
directory `c` passes the hidden filter and lies within the (absent) depth
limit, yet the unreadable directory `a` sorts first, the run stops after
`"├── a"` and no line is printed for `c`. -/
theorem dirs_only_counterexample :
    dirsOpts.dirsOnly = true ∧
    Event.readDir [] treeAbort 0 ∈ (render goLib dirsOpts treeAbort).1 ∧
    ReadDir treeAbort =
      .ok [.unreadable "a" "permission denied" [], .dir "c" [], .file ".z" none] ∧
    (Node.dir "c" []).IsDir = true ∧
    HasPrefix (Node.dir "c" []).Name "." = false ∧
    stdout (render goLib dirsOpts treeAbort).1 = ["├── a"] ∧
    (render goLib dirsOpts treeAbort).2 = some "permission denied" ∧
    ¬ ∃ line lvl gs il, Event.println line ([] ++ [(Node.dir "c" []).Name])
      (.dir "c" []) lvl gs il ∈ (render goLib dirsOpts treeAbort).1 := by
  rw [render_treeAbort_dirs]
  refine ⟨rfl, by simp, rfl, rfl, by decide, rfl, rfl, ?_⟩
  simp

/-! ## humanSize -/

/-- C9. What `humanSize` returns on the six byte counts of the table: `"0B"`
and `"1023B"` as the table says, but `"1.0MiB"` for 1024, `"1.5MiB"` for 1536,
`"1.0GiB"` for 1048576 and `"1024.0PiB"` for 1125899906842624, where the table
has `"1.0KiB"`, `"1.5KiB"`, `"1.0MiB"` and `"1.0PiB"`. -/
theorem humanSize_table :
    humanSize 0 = "0B" ∧ humanSize 1023 = "1023B" ∧ humanSize 1024 = "1.0MiB" ∧
    humanSize 1536 = "1.5MiB" ∧ humanSize 1048576 = "1.0GiB" ∧
    humanSize 1125899906842624 = "1024.0PiB" := by
  decide

theorem float64_small (n : Int) (h0 : 0 ≤ n) (h1 : n < 2 ^ 53) : float64 n = n := by
  unfold float64
  simp only
  rw [if_pos]
  omega

/-- C10. What `humanSize` returns for 1024 <= n < 1024^5: the value scaled as
the claim says, `n / 1024^k` with one decimal, but followed by the label after
the k-th one: `MiB` for 1024 <= n < 1024^2, `GiB` below 1024^3, `TiB` below
1024^4 and `PiB` (with `n / 1024^4`) below 1024^5; `KiB` is never produced. -/
theorem humanSize_label_shift (n : Nat) (h0 : 1024 ≤ n) (h1 : n < 1024 ^ 5) :
    (n < 1024 ^ 2 → humanSize n = fmtF1 n 1024 ++ "MiB") ∧
    (1024 ^ 2 ≤ n → n < 1024 ^ 3 → humanSize n = fmtF1 n (1024 ^ 2) ++ "GiB") ∧
    (1024 ^ 3 ≤ n → n < 1024 ^ 4 → humanSize n = fmtF1 n (1024 ^ 3) ++ "TiB") ∧
    (1024 ^ 4 ≤ n → humanSize n = fmtF1 n (1024 ^ 4) ++ "PiB") := by
  have hf : float64 (n : Int) = n := float64_small n (by omega) (by norm_num at h1 ⊢; omega)
  have hn : ¬ ((n : Int) < 1024) := by omega
  unfold humanSize
  rw [if_neg hn, hf, Int.toNat_ofNat]
  norm_num at h1 ⊢
  refine ⟨?_, ?_, ?_, ?_⟩
  · intro h
    simp only [humanSizeLoop]
    rw [if_neg (by omega), if_pos (by omega)]
  · intro h2 h3
    simp only [humanSizeLoop]
    rw [if_neg (by omega), if_neg (by omega), if_pos (by omega)]
  · intro h2 h3
    simp only [humanSizeLoop]
    rw [if_neg (by omega), if_neg (by omega), if_neg (by omega), if_pos (by omega)]
  · intro h2
    simp only [humanSizeLoop]
    rw [if_neg (by omega), if_neg (by omega), if_neg (by omega), if_neg (by omega)]

theorem humanSize_label_shift_witness :
    1024 ≤ 2048 ∧ 2048 < 1024 ^ 5 ∧ humanSize ((2048 : Nat) : Int) = "2.0MiB" :=
  ⟨by decide, by decide,
    ((humanSize_label_shift 2048 (by decide) (by decide)).1 (by decide)).trans (by decide)⟩

/-! ## humanSize below 1024 and from 1024^4 on -/

theorem digitChar_isDigit (m : Nat) (h : m < 10) :
    (Nat.digitChar m).isDigit = true ∧ (Nat.digitChar m).toNat - 48 = m := by
  interval_cases m <;> decide

theorem toDigitsCore_isDigit (fuel n : Nat) (ds : List Char)
    (h : ∀ c ∈ ds, c.isDigit = true) :
    ∀ c ∈ Nat.toDigitsCore 10 fuel n ds, c.isDigit = true := by
  induction fuel generalizing n ds with
  | zero => simpa [Nat.toDigitsCore] using h
  | succ fuel ih =>
    unfold Nat.toDigitsCore
    simp only
    have hd : ∀ c ∈ Nat.digitChar (n % 10) :: ds, c.isDigit = true := by
      intro c hc
      rcases List.mem_cons.mp hc with rfl | hc
      · exact (digitChar_isDigit _ (Nat.mod_lt _ (by decide))).1
      · exact h c hc
    split
    · exact hd
    · exact ih _ _ hd

theorem toDigitsCore_value (fuel n : Nat) (ds : List Char) (h : n < fuel) :
    decimalValue (Nat.toDigitsCore 10 fuel n ds) = n * 10 ^ ds.length + decimalValue ds := by
  induction fuel generalizing n ds with
  | zero => omega
  | succ fuel ih =>
    unfold Nat.toDigitsCore
    simp only
    have hd := (digitChar_isDigit (n % 10) (Nat.mod_lt _ (by decide))).2
    split
    · rename_i h0
      have hn : n % 10 = n := Nat.mod_eq_of_lt (by omega)
      simp only [decimalValue, hd]
      rw [hn]
    · rename_i h0
      rw [ih (n / 10) _ (by omega)]
      simp only [decimalValue, hd, List.length_cons, pow_succ]
      have h2 : n = 10 * (n / 10) + n % 10 := (Nat.div_add_mod n 10).symm
      generalize 10 ^ ds.length = k
      generalize n / 10 = a at h2 ⊢
      generalize n % 10 = b at h2 ⊢
      subst h2
      ring

theorem toString_nat_digits (m : Nat) :
    (∀ c ∈ (toString m).data, c.isDigit = true) ∧ decimalValue (toString m).data = m := by
  have e : (toString m).data = Nat.toDigitsCore 10 (m + 1) m [] := rfl
  rw [e]
  refine ⟨toDigitsCore_isDigit _ _ _ (by simp), ?_⟩
  rw [toDigitsCore_value _ _ _ (Nat.lt_succ_self _)]
  simp [decimalValue]

/-- C11. For every byte count n with 0 <= n < 1024, `humanSize n` is the decimal
representation of n immediately followed by `"B"`: the characters before the
`"B"` are decimal digits only (no decimal point) and they denote n itself (no
scaling). -/
theorem humanSize_bytes (n : Int) (h0 : 0 ≤ n) (h1 : n < 1024) :
    humanSize n = toString n.toNat ++ "B" ∧
    (∀ c ∈ (toString n.toNat).data, c.isDigit = true) ∧
    decimalValue (toString n.toNat).data = n.toNat := by
  obtain ⟨m, rfl⟩ := Int.eq_ofNat_of_zero_le h0
  refine ⟨?_, toString_nat_digits _⟩
  unfold humanSize
  rw [if_pos h1]
  rfl

theorem humanSize_bytes_witness :
    (0 : Int) ≤ 1023 ∧ (1023 : Int) < 1024 ∧
    (humanSize 1023 = toString (1023 : Int).toNat ++ "B" ∧
      (∀ c ∈ (toString (1023 : Int).toNat).data, c.isDigit = true) ∧
      decimalValue (toString (1023 : Int).toNat).data = (1023 : Int).toNat) ∧
    humanSize 1023 = "1023B" :=
  ⟨by decide, by decide, humanSize_bytes 1023 (by decide) (by decide), by decide⟩

theorem float64_large (n : Int) (h : 1024 ^ 4 ≤ n) : 1024 ^ 4 ≤ (float64 n).toNat := by
  obtain ⟨a, rfl⟩ := Int.eq_ofNat_of_zero_le (le_trans (by norm_num) h)
  have ha : 1024 ^ 4 ≤ a := by exact_mod_cast h
  unfold float64
  simp only [Int.natAbs_ofNat]
  split
  · simpa using ha
  · rename_i hbig
    have hbig : 2 ^ 53 ≤ a := by omega
    have hne : a ≠ 0 := by omega
    have hlog : 53 ≤ a.log2 := (Nat.le_log2 hne).mpr hbig
    have hself : 2 ^ a.log2 ≤ a := Nat.log2_self_le hne
    have hpos : 0 < 2 ^ (a.log2 - 52) := Nat.pow_pos (by decide)
    have hq : 2 ^ 52 ≤ a / 2 ^ (a.log2 - 52) := by
      rw [Nat.le_div_iff_mul_le hpos, ← pow_add]
      have : 52 + (a.log2 - 52) = a.log2 := by omega
      rw [this]; exact hself
    have hsign : Int.sign (a : Int) = 1 := Int.sign_eq_one_of_pos (by omega)
    rw [hsign, one_mul, Int.toNat_ofNat]
    have hq1 : 2 ^ 52 ≤ (if a % 2 ^ (a.log2 - 52) > 2 ^ (a.log2 - 52 - 1) ∨
        a % 2 ^ (a.log2 - 52) = 2 ^ (a.log2 - 52 - 1) ∧ a / 2 ^ (a.log2 - 52) % 2 = 1
        then a / 2 ^ (a.log2 - 52) + 1 else a / 2 ^ (a.log2 - 52)) := by
      split <;> omega
    calc 1024 ^ 4 ≤ 2 ^ 52 * 1 := by norm_num
      _ ≤ _ := Nat.mul_le_mul hq1 hpos

/-- C12. What `humanSize` returns from 1024^4 on: the label is `PiB` and the
value printed is n / 1024^4 (the `float64` of n divided four times by 1024),
not n / 1024^5.  So the label `PiB` is already produced for
1024^4 <= n < 1024^5, and for n >= 1024^5 the value printed is 1024 times the
petabyte-scaled value. -/
theorem humanSize_pib (n : Int) (h : 1024 ^ 4 ≤ n) :
    humanSize n = fmtF1 (float64 n).toNat (1024 ^ 4) ++ "PiB" := by
  have hm := float64_large n h
  have hn : ¬ (n < 1024) := by
    have : (1024 : Int) ≤ 1024 ^ 4 := by norm_num
    omega
  unfold humanSize
  rw [if_neg hn]
  norm_num at hm ⊢
  simp only [humanSizeLoop]
  rw [if_neg (by omega), if_neg (by omega), if_neg (by omega), if_neg (by omega)]

theorem humanSize_pib_witness :
    (1024 : Int) ^ 4 ≤ 2251799813685248 ∧
    humanSize 2251799813685248 = fmtF1 (float64 2251799813685248).toNat (1024 ^ 4) ++ "PiB" ∧
    humanSize 2251799813685248 = "2048.0PiB" ∧ humanSize 1099511627776 = "1.0PiB" :=
  ⟨by decide, humanSize_pib 2251799813685248 (by decide), by decide, by decide⟩

/-! ## The size annotation -/

theorem forRange_some {α : Type} (body : Nat → α → List Event × Option IOError)
    (l : List α) (idx : Nat) (err : IOError) (h : (forRange body idx l).2 = some err) :
    ∃ i c, l[i]? = some c ∧ (body (idx + i) c).2 = some err ∧
      ∀ ev ∈ (body (idx + i) c).1, ev ∈ (forRange body idx l).1 := by
  induction l generalizing idx with
  | nil => simp [forRange] at h
  | cons a l ih =>
    unfold forRange at h ⊢
    split at h
    · rename_i out err' hb
      simp only [Option.some.injEq] at h
      subst h
      exact ⟨0, a, by simp, by simp [hb], fun ev hev => by simpa [hb] using hev⟩
    · rename_i out hb
      obtain ⟨i, c, hi, h1, h2⟩ := ih (idx + 1) h
      have e1 : idx + (i + 1) = idx + 1 + i := by omega
      refine ⟨i + 1, c, by simpa using hi, by rw [e1]; exact h1, ?_⟩
      intro ev hev
      rw [e1] at hev
      simp only [List.mem_append]
      exact Or.inr (h2 ev hev)

/-- An error returned by `walk` is the error of a listing the run has made. -/
theorem walk_error_source (L : Lib) (o : opts) :
    ∀ (d : Node) (p : List String) (level : Nat) (guides : List Bool) (pfx : String)
      (err : IOError), (walk L o p d level guides pfx).2 = some err →
      ∃ q d' lvl, Event.readDir q d' lvl ∈ (walk L o p d level guides pfx).1 ∧
        ReadDir d' = .error err := by
  intro d
  induction d using Node.induct with
  | hfile name size =>
    intro p level guides pfx err h
    by_cases hl : o.depth > 0 ∧ (level : Int) ≥ o.depth
    · rw [walk_limit _ _ _ _ _ _ _ hl] at h; simp at h
    · rw [walk_error L o p (.file name size) level guides pfx hl _ rfl] at h ⊢
      simp only [Option.some.injEq] at h
      subst h
      exact ⟨p, .file name size, level, by simp, rfl⟩
  | hunr name err0 es =>
    intro p level guides pfx err h
    by_cases hl : o.depth > 0 ∧ (level : Int) ≥ o.depth
    · rw [walk_limit _ _ _ _ _ _ _ hl] at h; simp at h
    · rw [walk_error L o p (.unreadable name err0 es) level guides pfx hl err0 rfl] at h ⊢
      simp only [Option.some.injEq] at h
      subst h
      exact ⟨p, .unreadable name err0 es, level, by simp, rfl⟩
  | hdir name entries ih =>
    intro p level guides pfx err h
    by_cases hl : o.depth > 0 ∧ (level : Int) ≥ o.depth
    · rw [walk_limit _ _ _ _ _ _ _ hl] at h; simp at h
    · rw [walk_ok L o p (.dir name entries) level guides pfx hl entries rfl] at h ⊢
      simp only at h
      obtain ⟨i, c, hi, h1, h2⟩ := forRange_some _ _ _ _ h
      have hmem := mem_filtered.mp (mem_of_getElem? hi)
      by_cases hdir : c.IsDir = true
      · rw [visit_dir _ _ _ _ _ _ _ _ _ hdir] at h1 h2
        obtain ⟨q, d', lvl, h3, h4⟩ := ih c hmem.1 _ _ _ _ err h1
        exact ⟨q, d', lvl,
          List.mem_cons_of_mem _ (h2 _ (List.mem_cons_of_mem _ h3)), h4⟩
      · rw [visit_file _ _ _ _ _ _ _ _ _ hdir] at h1
        simp at h1

theorem sizeNote_some (o : opts) (e : Node) (s : Int) (h1 : o.showSize = true)
    (h2 : e.IsDir = false) (h3 : e.Info = some s) :
    sizeNote o e = " (" ++ humanSize s ++ ")" := by
  simp [sizeNote, h1, h2, h3]

theorem sizeNote_none (o : opts) (e : Node)
    (h : o.showSize = false ∨ e.IsDir = true ∨ e.Info = none) : sizeNote o e = "" := by
  unfold sizeNote
  rcases h with h | h | h
  · simp [h]
  · simp [h]
  · split
    · simp [h]
    · rfl

/-- C13. For every printed entry: if showSize is set, the entry is not a
directory and its size s can be read, the line is
`prefix + glyph + name + " (" + humanSize(s) + ")"`; if showSize is unset, or
the entry is a directory, or the size read fails, the line is exactly
`prefix + glyph + name`.  A failed size read does not fail the render, an
error returned by the walk is always the error of a listing; and it does not
suppress the entry, in a run that returns no error every listed entry that
passes the filters and whose size cannot be read has its line, without
annotation. -/
theorem size_shown (L : Lib) (o : opts) (d : Node) :
    (∀ line q e lvl gs il, Event.println line q e lvl gs il ∈ (render L o d).1 →
      (o.showSize = true → e.IsDir = false → ∀ s, e.Info = some s →
        line = guidePrefix gs ++ branch il ++ e.Name ++ (" (" ++ humanSize s ++ ")")) ∧
      (o.showSize = false ∨ e.IsDir = true ∨ e.Info = none →
        line = guidePrefix gs ++ branch il ++ e.Name)) ∧
    (∀ err, (render L o d).2 = some err →
      ∃ q d' lvl, Event.readDir q d' lvl ∈ (render L o d).1 ∧ ReadDir d' = .error err) ∧
    ((render L o d).2 = none →
      ∀ q d' lvl, Event.readDir q d' lvl ∈ (render L o d).1 →
      ∀ es, ReadDir d' = .ok es → ∀ e ∈ es, keep o e = true → e.Info = none →
      ∃ gs il, Event.println (guidePrefix gs ++ branch il ++ e.Name) (q ++ [e.Name]) e lvl gs
        il ∈ (render L o d).1) := by
  unfold render
  refine ⟨?_, ?_, ?_⟩
  · intro line q e lvl gs il hev
    obtain ⟨h1, _, _⟩ :=
      walk_line_shape L o d [] 0 [] "" ⟨rfl, rfl, rfl⟩ _ hev _ _ _ _ _ _ rfl
    refine ⟨?_, ?_⟩
    · intro hs hd s hi
      rw [h1, sizeNote_some o e s hs hd hi]
    · intro h
      rw [h1, sizeNote_none o e h]
      simp
  · intro err h
    exact walk_error_source L o d [] 0 [] "" err h
  · intro hres q d' lvl hev es hes e he hk hi
    obtain ⟨line, gs, il, h⟩ := walk_complete L o d [] 0 [] "" hres q d' lvl hev es hes e he hk
    obtain ⟨h1, _, _⟩ :=
      walk_line_shape L o d [] 0 [] "" ⟨rfl, rfl, rfl⟩ _ h _ _ _ _ _ _ rfl
    rw [sizeNote_none o e (Or.inr (Or.inr hi))] at h1
    simp only [String.append_empty] at h1
    subst h1
    exact ⟨gs, il, h⟩

theorem size_shown_witness :
    (Event.println "├── f (0B)" ["f"] (.file "f" (some 0)) 0 [] false ∈
        (render goLib sizeOpts treeSizes).1 ∧
      "├── f (0B)" = guidePrefix [] ++ branch false ++ (Node.file "f" (some 0)).Name ++
        (" (" ++ humanSize 0 ++ ")")) ∧
    ((render goLib sizeOpts treeSizes).2 = none ∧
      Event.readDir [] treeSizes 0 ∈ (render goLib sizeOpts treeSizes).1 ∧
      ∃ gs il, Event.println (guidePrefix gs ++ branch il ++ (Node.file "g" none).Name)
        ([] ++ [(Node.file "g" none).Name]) (.file "g" none) 0 gs il ∈
          (render goLib sizeOpts treeSizes).1) :=
  ⟨⟨by rw [render_treeSizes]; simp,
      ((size_shown goLib sizeOpts treeSizes).1 "├── f (0B)" ["f"] (.file "f" (some 0)) 0 []
        false (by rw [render_treeSizes]; simp)).1 rfl rfl 0 rfl⟩,
    ⟨by rw [render_treeSizes], by rw [render_treeSizes]; simp,
      (size_shown goLib sizeOpts treeSizes).2.2 (by rw [render_treeSizes]) [] treeSizes 0
        (by rw [render_treeSizes]; simp) [.file "g" none, .file "f" (some 0)] rfl
        (.file "g" none) (by simp) (by decide) rfl⟩⟩

/-! ## The two scenarios of the specification -/

/-- A slice that `sort.Slice` has ordered is determined by its elements when
`less` orders them strictly. -/
theorem sorted_unique (lt : Node → Node → Bool) :
    ∀ (target l : List Node), target.Pairwise (fun a b => lt a b = true) →
      l.Perm target → l.Pairwise (fun a b => lt b a = false) → l = target := by
  intro target
  induction target with
  | nil => intro l _ hp _; exact hp.eq_nil
  | cons t ts ih =>
    intro l ht hp hl
    cases l with
    | nil => exact absurd hp.symm.eq_nil (by simp)
    | cons x xs =>
      by_cases hx : x = t
      · subst hx
        rw [ih xs (List.Pairwise.of_cons ht) (List.Perm.cons_inv hp) (List.Pairwise.of_cons hl)]
      · exfalso
        have h1 : t ∈ xs := by
          have : t ∈ x :: xs := hp.mem_iff.mpr (List.mem_cons_self _ _)
          rcases List.mem_cons.mp this with h | h
          · exact absurd h.symm hx
          · exact h
        have h2 : x ∈ ts := by
          have : x ∈ t :: ts := hp.mem_iff.mp (List.mem_cons_self _ _)
          rcases List.mem_cons.mp this with h | h
          · exact absurd h hx
          · exact h
        have h3 : lt t x = false := List.rel_of_pairwise_cons hl h1
        have h4 : lt t x = true := List.rel_of_pairwise_cons ht h2
        rw [h3] at h4
        cases h4

theorem filtered_nil (L : Lib) (o : opts) : filtered L o [] = [] :=
  (filtered_perm L o []).eq_nil

/-- The slice `filtered` is the one ordered list of the kept entries when
`less` orders them strictly. -/
theorem filtered_eq (L : Lib) (o : opts) (entries target : List Node)
    (hp : (entries.filter (keep o)).Perm target)
    (ht : target.Pairwise (fun a b => less L a b = true)) :
    filtered L o entries = target :=
  sorted_unique (less L) target _ ht ((filtered_perm L o entries).trans hp)
    (L.sortSlice_sorted (less L) _ (isStrictWeak_less L))

theorem filtered_scenario_default (L : Lib) (s1 s2 : Option Int) (entries : List Node)
    (h : entries.Perm [.file "b.txt" s1, .dir "A" [], .file ".hidden" s2]) :
    filtered L defaultOpts entries = [.dir "A" [], .file "b.txt" s1] := by
  apply filtered_eq
  · refine (h.filter _).trans ?_
    have : List.filter (keep defaultOpts) [.file "b.txt" s1, .dir "A" [], .file ".hidden" s2] =
        [.file "b.txt" s1, .dir "A" []] := by
      simp +decide [keep, defaultOpts, HasPrefix, Node.Name, Node.IsDir]
    rw [this]
    exact List.Perm.swap _ _ _
  · simp [less, Node.IsDir]

/-- C14. For a root whose children are the file `b.txt`, the empty directory
`A` and the file `.hidden`, listed in any order, rendering with the default
options prints after the root header exactly the two lines `"├── A"` and
`"└── b.txt"`, in that order, and returns no error.  This holds whatever the
sizes of the files, the name of the root and the library `sort.Slice`. -/
theorem scenario_default (L : Lib) (name : String) (s1 s2 : Option Int)
    (entries : List Node)
    (h : entries.Perm [.file "b.txt" s1, .dir "A" [], .file ".hidden" s2]) :
    stdout (render L defaultOpts (.dir name entries)).1 = ["├── A", "└── b.txt"] ∧
    (render L defaultOpts (.dir name entries)).2 = none := by
  have hl : ¬ (defaultOpts.depth > 0 ∧ ((0 : Nat) : Int) ≥ defaultOpts.depth) := by decide
  unfold render
  rw [walk_ok L defaultOpts [] (.dir name entries) 0 [] "" hl entries rfl,
    filtered_scenario_default L s1 s2 entries h]
  simp +decide [forRange, visit, walk_eq, ReadDir, filtered_nil, Node.IsDir, Node.Name, lineOf,
    branch, nextPrefix, stdout, defaultOpts]

theorem scenario_default_witness :
    [Node.file "b.txt" none, .dir "A" [], .file ".hidden" none].Perm
      [.file "b.txt" none, .dir "A" [], .file ".hidden" none] ∧
    stdout (render goLib defaultOpts treeScenario).1 = ["├── A", "└── b.txt"] ∧
    (render goLib defaultOpts treeScenario).2 = none :=
  ⟨List.Perm.refl _,
    scenario_default goLib "r" none none [.file "b.txt" none, .dir "A" [], .file ".hidden" none]
      (List.Perm.refl _)⟩

theorem toLower_scenario (L : Lib) :
    L.ToLower ".hidden" = ".hidden" ∧ L.ToLower "b.txt" = "b.txt" := by
  refine ⟨?_, ?_⟩
  · rw [L.ToLower_ascii ".hidden" (by decide)]; decide
  · rw [L.ToLower_ascii "b.txt" (by decide)]; decide

theorem filtered_scenario_all (L : Lib) (s1 s2 : Option Int) (entries : List Node)
    (h : entries.Perm [.file "b.txt" s1, .dir "A" [], .file ".hidden" s2]) :
    filtered L allOpts entries = [.dir "A" [], .file ".hidden" s2, .file "b.txt" s1] := by
  apply filtered_eq
  · refine (h.filter _).trans ?_
    have : List.filter (keep allOpts) [.file "b.txt" s1, .dir "A" [], .file ".hidden" s2] =
        [.file "b.txt" s1, .dir "A" [], .file ".hidden" s2] := by
      simp +decide [keep, allOpts, HasPrefix, Node.Name, Node.IsDir]
    rw [this]
    exact (List.Perm.swap _ _ _).trans (List.Perm.cons _ (List.Perm.swap _ _ _))
  · obtain ⟨h1, h2⟩ := toLower_scenario L
    simp +decide [less, Node.IsDir, Node.Name, h1, h2]

/-- C15. For the same root (file `b.txt`, empty directory `A`, file `.hidden`,
listed in any order) rendered with includeHidden set and the other options at
their defaults, exactly three entry lines are printed: the directory first,
then the two files in the order of their lower-cased names, `.hidden` before
`b.txt`: `"├── A"`, `"├── .hidden"`, `"└── b.txt"`; and no error is
returned. -/
theorem scenario_all (L : Lib) (name : String) (s1 s2 : Option Int)
    (entries : List Node)
    (h : entries.Perm [.file "b.txt" s1, .dir "A" [], .file ".hidden" s2]) :
    stdout (render L allOpts (.dir name entries)).1 =
      ["├── A", "├── .hidden", "└── b.txt"] ∧
    (render L allOpts (.dir name entries)).2 = none := by
  have hl : ¬ (allOpts.depth > 0 ∧ ((0 : Nat) : Int) ≥ allOpts.depth) := by decide
  unfold render
  rw [walk_ok L allOpts [] (.dir name entries) 0 [] "" hl entries rfl,
    filtered_scenario_all L s1 s2 entries h]
  simp +decide [forRange, visit, walk_eq, ReadDir, filtered_nil, Node.IsDir, Node.Name, lineOf,
    branch, nextPrefix, stdout, allOpts]

theorem scenario_all_witness :
    [Node.dir "A" [], .file ".hidden" none, .file "b.txt" none].Perm
      [.file "b.txt" none, .dir "A" [], .file ".hidden" none] ∧
    stdout (render goLib allOpts
      (.dir "r" [.dir "A" [], .file ".hidden" none, .file "b.txt" none])).1 =
        ["├── A", "├── .hidden", "└── b.txt"] ∧
    (render goLib allOpts
      (.dir "r" [.dir "A" [], .file ".hidden" none, .file "b.txt" none])).2 = none :=
  ⟨(List.Perm.swap _ _ _).trans (List.Perm.cons _ (List.Perm.swap _ _ _)) |>.symm,
    scenario_all goLib "r" none none [.dir "A" [], .file ".hidden" none, .file "b.txt" none]
      ((List.Perm.swap _ _ _).trans (List.Perm.cons _ (List.Perm.swap _ _ _)) |>.symm)⟩

/-! ## Depth-first pre-order -/

theorem forRange_split {α : Type} (body : Nat → α → List Event × Option IOError)
    (l : List α) (idx : Nat) (ev : Event) (h : ev ∈ (forRange body idx l).1) :
    ∃ i c pre post, l[i]? = some c ∧ ev ∈ (body (idx + i) c).1 ∧
      (forRange body idx l).1 = pre ++ (body (idx + i) c).1 ++ post := by
  induction l generalizing idx with
  | nil => simp [forRange] at h
  | cons a l ih =>
    unfold forRange at h ⊢
    split at h
    · rename_i out err hb
      exact ⟨0, a, [], [], by simp, by simpa [hb] using h, by simp [hb]⟩
    · rename_i out hb
      simp only [List.mem_append] at h
      rcases h with h | h
      · exact ⟨0, a, [], (forRange body (idx + 1) l).1, by simp, by simpa [hb] using h,
          by simp [hb]⟩
      · obtain ⟨i, c, pre, post, hi, hev, heq⟩ := ih (idx + 1) h
        have e1 : idx + (i + 1) = idx + 1 + i := by omega
        refine ⟨i + 1, c, out ++ pre, post, by simpa using hi, by rw [e1]; exact hev, ?_⟩
        rw [e1]
        simp only [heq, List.append_assoc]

/-- The output of a loop whose nested calls return no error is the pre-order
concatenation over its entries. -/
theorem stdout_forRange (L : Lib) (o : opts) (p : List String) (level : Nat)
    (guides : List Bool) (pfx : String) (n : Nat) (l : List Node)
    (h : ∀ c ∈ l, c.IsDir = true → ∀ gs' pfx',
      (walk L o (p ++ [c.Name]) c (level + 1) gs' pfx').2 = none) (idx : Nat) :
    stdout (forRange (visit L o p level guides pfx n) idx l).1 =
      preorderLines (fun i e => lineOf o pfx (i == n - 1) e)
        (fun i e => if e.IsDir = true then
          stdout (walk L o (p ++ [e.Name]) e (level + 1) (guides ++ [!(i == n - 1)])
            (nextPrefix pfx (i == n - 1))).1 else []) idx l := by
  induction l generalizing idx with
  | nil => rfl
  | cons c l ih =>
    have ihl := ih (fun c' hc' => h c' (List.mem_cons_of_mem _ hc')) (idx + 1)
    unfold forRange
    by_cases hdir : c.IsDir = true
    · have h1 := h c (List.mem_cons_self _ _) hdir (guides ++ [!(idx == n - 1)])
        (nextPrefix pfx (idx == n - 1))
      rw [visit_dir _ _ _ _ _ _ _ _ _ hdir, h1]
      simp only [preorderLines, if_pos hdir, List.cons_append, stdout, List.append_eq,
        stdout_append, ihl]
    · rw [visit_file _ _ _ _ _ _ _ _ _ hdir]
      simp only [preorderLines, if_neg hdir, List.cons_append, List.nil_append, stdout,
        List.append_eq, stdout_append, ihl]

/-- The line of a directory is followed at once by the whole call of `walk` on
that directory. -/
theorem walk_block (L : Lib) (o : opts) :
    ∀ (d : Node) (p : List String) (level : Nat) (guides : List Bool)
      (line : String) (q : List String) (e : Node) (lvl : Nat) (gs : List Bool) (il : Bool),
      Event.println line q e lvl gs il ∈ (walk L o p d level guides (guidePrefix guides)).1 →
      e.IsDir = true →
      ∃ pre post, (walk L o p d level guides (guidePrefix guides)).1 =
        pre ++ Event.println line q e lvl gs il ::
          (walk L o q e (lvl + 1) (gs ++ [!il]) (guidePrefix (gs ++ [!il]))).1 ++ post := by
  intro d
  induction d using Node.induct with
  | hfile name size =>
    intro p level guides line q e lvl gs il hev
    by_cases hl : o.depth > 0 ∧ (level : Int) ≥ o.depth
    · rw [walk_limit _ _ _ _ _ _ _ hl] at hev; simp at hev
    · rw [walk_error L o p (.file name size) level guides _ hl _ rfl] at hev
      simp at hev
  | hunr name err es =>
    intro p level guides line q e lvl gs il hev
    by_cases hl : o.depth > 0 ∧ (level : Int) ≥ o.depth
    · rw [walk_limit _ _ _ _ _ _ _ hl] at hev; simp at hev
    · rw [walk_error L o p (.unreadable name err es) level guides _ hl err rfl] at hev
      simp at hev
  | hdir name entries ih =>
    intro p level guides line q e lvl gs il hev hdir
    by_cases hl : o.depth > 0 ∧ (level : Int) ≥ o.depth
    · rw [walk_limit _ _ _ _ _ _ _ hl] at hev; simp at hev
    · rw [walk_ok L o p (.dir name entries) level guides _ hl entries rfl] at hev ⊢
      simp only [List.mem_cons] at hev
      rcases hev with hev | hev
      · cases hev
      · obtain ⟨i, c, pre, post, hi, hc, heq⟩ := forRange_split _ _ _ _ hev
        have hmem := mem_filtered.mp (mem_of_getElem? hi)
        simp only [heq]
        by_cases hcdir : c.IsDir = true
        · rw [visit_dir _ _ _ _ _ _ _ _ _ hcdir] at hc ⊢
          simp only [List.mem_cons] at hc
          have hpre : nextPrefix (guidePrefix guides)
              (0 + i == (filtered L o entries).length - 1) =
              guidePrefix (guides ++ [!(0 + i == (filtered L o entries).length - 1)]) := by
            rw [nextPrefix_eq, guidePrefix_append]
          rcases hc with hc | hc
          · cases hc
            refine ⟨Event.readDir p (.dir name entries) level :: pre, post, ?_⟩
            rw [hpre]
            simp
          · rw [hpre] at hc ⊢
            obtain ⟨pre', post', h2⟩ := ih c hmem.1 _ _ _ _ _ _ _ _ _ hc hdir
            refine ⟨Event.readDir p (.dir name entries) level :: (pre ++
              Event.println (lineOf o (guidePrefix guides)
                (0 + i == (filtered L o entries).length - 1) c) (p ++ [c.Name]) c level guides
                (0 + i == (filtered L o entries).length - 1) :: pre'), post' ++ post, ?_⟩
            rw [h2]
            simp
        · rw [visit_file _ _ _ _ _ _ _ _ _ hcdir] at hc
          simp only [List.mem_singleton] at hc
          cases hc
          exact absurd hdir hcdir

/-- Every event of a call is about the directory the call is made on or about
something below it. -/
theorem walk_paths (L : Lib) (o : opts) (d : Node) (p : List String) (level : Nat)
    (guides : List Bool) (pfx : String) :
    ∀ ev ∈ (walk L o p d level guides pfx).1, p <+: ev.path := by
  refine walk_forall L o (fun p' _ _ _ => p <+: p') (fun ev => p <+: ev.path)
    ?_ ?_ ?_ d p level guides pfx (List.prefix_refl _)
  · intro p' level guides pfx e isLast h _ _ _
    exact h.trans (List.prefix_append _ _)
  · intro p' d level guides pfx h _
    exact h
  · intro p' level guides pfx e isLast h _ _
    exact h.trans (List.prefix_append _ _)

/-- C16. On a fully readable tree the output of `walk` is in depth-first
pre-order.  The output of `walk` on a directory is the concatenation, over its
filtered sorted children in order, of the line of the child followed by the
output of `walk` on that child if it is a directory.  And in the run from the
root the line of a printed directory is followed at once by the whole call of
`walk` on it, a contiguous block whose events are all about that directory or
entries below it; what the run prints afterwards comes after that block. -/
theorem preorder (L : Lib) (o : opts) (d : Node) (hr : d.Readable = true)
    (entries : List Node) (hd : ReadDir d = .ok entries) :
    (∀ (p : List String) (level : Nat) (guides : List Bool) (pfx : String),
      ¬ (o.depth > 0 ∧ (level : Int) ≥ o.depth) →
      stdout (walk L o p d level guides pfx).1 =
        preorderLines
          (fun i e => lineOf o pfx (i == (filtered L o entries).length - 1) e)
          (fun i e => if e.IsDir = true then
            stdout (walk L o (p ++ [e.Name]) e (level + 1)
              (guides ++ [!(i == (filtered L o entries).length - 1)])
              (nextPrefix pfx (i == (filtered L o entries).length - 1))).1 else [])
          0 (filtered L o entries)) ∧
    (∀ line q e lvl gs il, Event.println line q e lvl gs il ∈ (render L o d).1 →
      e.IsDir = true →
      ∃ pre post,
        (render L o d).1 = pre ++ Event.println line q e lvl gs il ::
          (walk L o q e (lvl + 1) (gs ++ [!il]) (guidePrefix (gs ++ [!il]))).1 ++ post ∧
        (∀ ev ∈ (walk L o q e (lvl + 1) (gs ++ [!il]) (guidePrefix (gs ++ [!il]))).1,
          q <+: ev.path) ∧
        stdout (render L o d).1 = stdout pre ++ line ::
          stdout (walk L o q e (lvl + 1) (gs ++ [!il]) (guidePrefix (gs ++ [!il]))).1 ++
            stdout post) := by
  refine ⟨?_, ?_⟩
  · intro p level guides pfx hl
    obtain ⟨name, rfl⟩ := readDir_ok hd
    rw [walk_ok L o p (.dir name entries) level guides pfx hl entries rfl]
    simp only [stdout]
    apply stdout_forRange
    intro c hc hcdir gs' pfx'
    have hce := (mem_filtered.mp hc).1
    exact (walk_printed L o c (readable_entries hr c hce) hcdir _ _ _ _).1
  · intro line q e lvl gs il hev hdir
    obtain ⟨pre, post, h⟩ := walk_block L o d [] 0 [] line q e lvl gs il hev hdir
    refine ⟨pre, post, h, walk_paths L o e q _ _ _, ?_⟩
    have h' : (render L o d).1 = pre ++ Event.println line q e lvl gs il ::
        (walk L o q e (lvl + 1) (gs ++ [!il]) (guidePrefix (gs ++ [!il]))).1 ++ post := h
    rw [h']
    simp only [stdout_append, stdout, List.cons_append, List.append_eq]

theorem preorder_witness :
    treeNested.Readable = true ∧
    ReadDir treeNested = .ok [.file "b" none, .dir "A" [.file "x" none]] ∧
    stdout (walk goLib defaultOpts [] treeNested 0 [] "").1 =
      preorderLines
        (fun i e => lineOf defaultOpts ""
          (i == (filtered goLib defaultOpts [.file "b" none, .dir "A" [.file "x" none]]).length - 1)
          e)
        (fun i e => if e.IsDir = true then
          stdout (walk goLib defaultOpts ([] ++ [e.Name]) e (0 + 1)
            ([] ++ [!(i ==
              (filtered goLib defaultOpts [.file "b" none, .dir "A" [.file "x" none]]).length - 1)])
            (nextPrefix "" (i ==
              (filtered goLib defaultOpts
                [.file "b" none, .dir "A" [.file "x" none]]).length - 1))).1 else [])
        0 (filtered goLib defaultOpts [.file "b" none, .dir "A" [.file "x" none]]) ∧
    stdout (render goLib defaultOpts treeNested).1 = ["├── A", "│   └── x", "└── b"] :=
  ⟨by decide, rfl,
    (preorder goLib defaultOpts treeNested (by decide) _ rfl).1 [] 0 [] "" (by decide),
    by rw [render_treeNested]; rfl⟩

/-! ## Comparing two runs -/

/-- Two loops whose bodies agree, entry by entry, on the error and on a view of
the events agree on both. -/
theorem forRange_congr {α β γ : Type} (f g : List Event → List γ)
    (hf0 : f [] = []) (hg0 : g [] = [])
    (hf : ∀ a b, f (a ++ b) = f a ++ f b) (hg : ∀ a b, g (a ++ b) = g a ++ g b)
    (body1 : Nat → α → List Event × Option IOError)
    (body2 : Nat → β → List Event × Option IOError) (φ : α → β) (l : List α) (idx : Nat)
    (h : ∀ i c, l[i]? = some c →
      (body1 (idx + i) c).2 = (body2 (idx + i) (φ c)).2 ∧
      f (body1 (idx + i) c).1 = g (body2 (idx + i) (φ c)).1) :
    (forRange body1 idx l).2 = (forRange body2 idx (l.map φ)).2 ∧
    f (forRange body1 idx l).1 = g (forRange body2 idx (l.map φ)).1 := by
  induction l generalizing idx with
  | nil => simp [forRange, hf0, hg0]
  | cons c l ih =>
    have h0 := h 0 c (by simp)
    have ihl := ih (idx + 1) (by
      intro i c' hi
      have e1 : idx + (i + 1) = idx + 1 + i := by omega
      have := h (i + 1) c' (by simpa using hi)
      rwa [e1] at this)
    simp only [Nat.add_zero] at h0
    simp only [List.map_cons]
    unfold forRange
    cases hb1 : body1 idx c with
    | mk out1 r1 =>
      cases hb2 : body2 idx (φ c) with
      | mk out2 r2 =>
        rw [hb1, hb2] at h0
        simp only at h0
        obtain ⟨hr, ho⟩ := h0
        subst hr
        cases r1 with
        | some err => exact ⟨rfl, ho⟩
        | none =>
          simp only
          exact ⟨ihl.1, by rw [hf, hg, ho, ihl.2]⟩

theorem keep_congr (o1 o2 : opts) (hs : SameFilters o1 o2) : keep o1 = keep o2 := by
  funext e
  simp [keep, hs.1, hs.2.1]

theorem filtered_congr (L : Lib) (o1 o2 : opts) (hs : SameFilters o1 o2)
    (entries : List Node) : filtered L o1 entries = filtered L o2 entries := by
  unfold filtered
  rw [keep_congr o1 o2 hs]

theorem lineOf_congr (o1 o2 : opts) (hs : SameFilters o1 o2) (pfx : String) (il : Bool)
    (e : Node) : lineOf o1 pfx il e = lineOf o2 pfx il e := by
  simp [lineOf, hs.2.2]

theorem height_lt_of_mem {c : Node} {es : List Node} (h : c ∈ es) :
    c.height + 1 ≤ heightList es := by
  induction es with
  | nil => cases h
  | cons e es ih =>
    unfold heightList
    rcases List.mem_cons.mp h with rfl | h
    · exact le_max_left _ _
    · exact le_trans (ih h) (le_max_right _ _)

theorem heightList_eq_zero {es : List Node} (h : heightList es = 0) : es = [] := by
  cases es with
  | nil => rfl
  | cons e es =>
    unfold heightList at h
    have := le_max_left (e.height + 1) (heightList es)
    omega

/-- A depth limit that is at least the height of what is left below prints
what the unlimited walk prints. -/
theorem walk_depth_enough (L : Lib) (o1 o2 : opts) (hs : SameFilters o1 o2)
    (h2 : o2.depth ≤ 0) :
    ∀ (d : Node), d.Readable = true → d.IsDir = true →
      ∀ (p : List String) (level : Nat) (guides : List Bool) (pfx : String),
      (o1.depth > 0 → (d.height : Int) + level ≤ o1.depth) →
      stdout (walk L o1 p d level guides pfx).1 = stdout (walk L o2 p d level guides pfx).1 := by
  intro d
  induction d using Node.induct with
  | hfile name size => intro _ hdir; simp [Node.IsDir] at hdir
  | hunr name err es => intro hr; simp [Node.Readable] at hr
  | hdir name entries ih =>
    intro hr _ p level guides pfx hh
    have hl2 : ¬ (o2.depth > 0 ∧ (level : Int) ≥ o2.depth) := by omega
    rw [walk_ok L o2 p (.dir name entries) level guides pfx hl2 entries rfl]
    by_cases hl : o1.depth > 0 ∧ (level : Int) ≥ o1.depth
    · have hz : heightList entries = 0 := by
        have := hh hl.1
        simp only [Node.height] at this
        omega
      rw [walk_limit _ _ _ _ _ _ _ hl, heightList_eq_zero hz, filtered_nil]
      rfl
    · rw [walk_ok L o1 p (.dir name entries) level guides pfx hl entries rfl,
        filtered_congr L o1 o2 hs]
      simp only [stdout]
      have := (forRange_congr stdout stdout rfl rfl stdout_append stdout_append
        (visit L o1 p level guides pfx (filtered L o2 entries).length)
        (visit L o2 p level guides pfx (filtered L o2 entries).length) id
        (filtered L o2 entries) 0 ?_).2
      · rwa [List.map_id] at this
      · intro i c hi
        have hmem := mem_filtered.mp (mem_of_getElem? hi)
        have hcr := readable_entries hr c hmem.1
        simp only [id]
        by_cases hcdir : c.IsDir = true
        · rw [visit_dir _ _ _ _ _ _ _ _ _ hcdir, visit_dir _ _ _ _ _ _ _ _ _ hcdir]
          simp only [stdout]
          refine ⟨?_, ?_⟩
          · rw [(walk_printed L o1 c hcr hcdir _ _ _ _).1,
              (walk_printed L o2 c hcr hcdir _ _ _ _).1]
          · rw [lineOf_congr o1 o2 hs, ih c hmem.1 hcr hcdir]
            intro hpos
            have h3 := hh hpos
            have h4 := height_lt_of_mem hmem.1
            simp only [Node.height] at h3
            push_cast
            omega
        · rw [visit_file _ _ _ _ _ _ _ _ _ hcdir, visit_file _ _ _ _ _ _ _ _ _ hcdir]
          exact ⟨rfl, by simp only [stdout]; rw [lineOf_congr o1 o2 hs]⟩

/-! ## The unlimited walk -/

theorem visibleList_eq (o : opts) (es : List Node) :
    visibleList o es = (es.filter (keep o)).flatMap
      (fun c => ([c.Name], c) :: (c.visible o).map (fun x => (c.Name :: x.1, x.2))) := by
  induction es with
  | nil => rfl
  | cons e es ih =>
    unfold visibleList
    by_cases hk : keep o e = true
    · simp [hk, ih]
    · simp [hk, ih]

theorem visible_of_not_dir (o : opts) (c : Node) (h : ¬ c.IsDir = true) : c.visible o = [] := by
  cases c with
  | file name size => rfl
  | dir name es => simp [Node.IsDir] at h
  | unreadable name err es => simp [Node.IsDir] at h

/-- The loop over entries whose nested calls return no error and print the
visible entries below them prints the entries and what is visible below. -/
theorem forRange_visible (L : Lib) (o : opts) (p : List String) (level : Nat)
    (guides : List Bool) (pfx : String) (n : Nat) (l : List Node)
    (h : ∀ c ∈ l, c.IsDir = true → ∀ gs' pfx',
      (walk L o (p ++ [c.Name]) c (level + 1) gs' pfx').2 = none ∧
      (printed (walk L o (p ++ [c.Name]) c (level + 1) gs' pfx').1).Perm
        ((c.visible o).map (fun x => ((p ++ [c.Name]) ++ x.1, x.2)))) (idx : Nat) :
    (forRange (visit L o p level guides pfx n) idx l).2 = none ∧
    (printed (forRange (visit L o p level guides pfx n) idx l).1).Perm
      (l.flatMap (fun c => (p ++ [c.Name], c) ::
        (c.visible o).map (fun x => ((p ++ [c.Name]) ++ x.1, x.2)))) := by
  induction l generalizing idx with
  | nil => simp [forRange, printed]
  | cons c l ih =>
    have ihl := ih (fun c' hc' => h c' (List.mem_cons_of_mem _ hc')) (idx + 1)
    unfold forRange
    by_cases hdir : c.IsDir = true
    · obtain ⟨h1, h2⟩ := h c (List.mem_cons_self _ _) hdir (guides ++ [!(idx == n - 1)])
        (nextPrefix pfx (idx == n - 1))
      rw [visit_dir _ _ _ _ _ _ _ _ _ hdir, h1]
      simp only [List.cons_append, printed, List.append_eq, printed_append,
        List.flatMap_cons]
      exact ⟨ihl.1, List.Perm.cons _ (List.Perm.append h2 ihl.2)⟩
    · rw [visit_file _ _ _ _ _ _ _ _ _ hdir]
      simp only [List.cons_append, List.nil_append, printed, List.flatMap_cons,
        visible_of_not_dir o c hdir, List.map_nil]
      exact ⟨ihl.1, List.Perm.cons _ ihl.2⟩

/-- On a readable directory the unlimited walk returns no error and prints
exactly the entries whose own name and whose ancestors pass the filters. -/
theorem walk_visible (L : Lib) (o : opts) (h0 : o.depth ≤ 0) :
    ∀ (d : Node), d.Readable = true → d.IsDir = true →
      ∀ (p : List String) (level : Nat) (guides : List Bool) (pfx : String),
      (walk L o p d level guides pfx).2 = none ∧
      (printed (walk L o p d level guides pfx).1).Perm
        ((d.visible o).map (fun x => (p ++ x.1, x.2))) := by
  intro d
  induction d using Node.induct with
  | hfile name size => intro _ hdir; simp [Node.IsDir] at hdir
  | hunr name err es => intro hr; simp [Node.Readable] at hr
  | hdir name entries ih =>
    intro hr _ p level guides pfx
    have hl : ¬ (o.depth > 0 ∧ (level : Int) ≥ o.depth) := by omega
    rw [walk_ok L o p (.dir name entries) level guides pfx hl entries rfl]
    have hloop := forRange_visible L o p level guides pfx (filtered L o entries).length
      (filtered L o entries)
      (fun c hc hcdir gs' pfx' =>
        ih c (mem_filtered.mp hc).1 (readable_entries hr c (mem_filtered.mp hc).1) hcdir
          _ _ _ _) 0
    refine ⟨hloop.1, ?_⟩
    simp only [printed]
    refine hloop.2.trans ?_
    refine ((filtered_perm L o entries).flatMap_right _).trans ?_
    simp only [Node.visible, visibleList_eq, List.map_flatMap, List.map_cons, List.map_map]
    apply List.Perm.of_eq
    congr 1
    funext c
    simp [Function.comp_def]

/-- C17. On a fully readable tree, with maxDepth = 0 the traversal is
unlimited: it returns no error and the entries it prints, each with its path,
are exactly the entries at every depth whose own name and whose ancestors pass
the filters, each once; and the output is the output of the walk with any
maxDepth D greater than or equal to the height of the tree. -/
theorem unlimited (L : Lib) (o : opts) (d : Node) (hr : d.Readable = true)
    (hdir : d.IsDir = true) (h0 : o.depth = 0) :
    (render L o d).2 = none ∧
    (printed (render L o d).1).Perm (d.visible o) ∧
    ∀ (D : Int), (d.height : Int) ≤ D →
      stdout (render L { o with depth := D } d).1 = stdout (render L o d).1 := by
  unfold render
  obtain ⟨h1, h2⟩ := walk_visible L o (le_of_eq h0) d hr hdir [] 0 [] ""
  refine ⟨h1, ?_, ?_⟩
  · simpa using h2
  · intro D hD
    apply walk_depth_enough L { o with depth := D } o ⟨rfl, rfl, rfl⟩ (le_of_eq h0) d hr hdir
    intro _
    simpa using hD

theorem unlimited_witness :
    treeNested.Readable = true ∧ treeNested.IsDir = true ∧ defaultOpts.depth = 0 ∧
    ((render goLib defaultOpts treeNested).2 = none ∧
      (printed (render goLib defaultOpts treeNested).1).Perm (treeNested.visible defaultOpts) ∧
      ∀ (D : Int), (treeNested.height : Int) ≤ D →
        stdout (render goLib { defaultOpts with depth := D } treeNested).1 =
          stdout (render goLib defaultOpts treeNested).1) ∧
    treeNested.height = 2 ∧
    stdout (render goLib defaultOpts treeNested).1 = ["├── A", "│   └── x", "└── b"] :=
  ⟨by decide, rfl, rfl, unlimited goLib defaultOpts treeNested (by decide) rfl rfl, by decide,
    by rw [render_treeNested]; rfl⟩

/-! ## Limiting the depth -/

theorem linesWithin_append (D : Int) (a b : List Event) :
    linesWithin D (a ++ b) = linesWithin D a ++ linesWithin D b := by
  induction a with
  | nil => rfl
  | cons ev a ih =>
    cases ev with
    | readDir p d lvl => simpa [linesWithin] using ih
    | println line p e lvl guides isLast =>
      by_cases h : (lvl : Int) + 1 ≤ D <;> simp [linesWithin, h, ih]

theorem linesWithin_eq_nil (D : Int) (evs : List Event)
    (h : ∀ ev ∈ evs, D ≤ (ev.level : Int)) : linesWithin D evs = [] := by
  induction evs with
  | nil => rfl
  | cons ev evs ih =>
    have h0 := h ev (List.mem_cons_self _ _)
    have ht := ih (fun ev' hev' => h ev' (List.mem_cons_of_mem _ hev'))
    cases ev with
    | readDir p d lvl => simpa [linesWithin] using ht
    | println line p e lvl guides isLast =>
      have : ¬ ((lvl : Int) + 1 ≤ D) := by simp [Event.level] at h0; omega
      simp [linesWithin, this, ht]

/-- The walk limited to depth D prints the lines of the unlimited walk that are
for entries at depth at most D. -/
theorem walk_depth_cut (L : Lib) (o1 o2 : opts) (hs : SameFilters o1 o2)
    (h1 : 0 < o1.depth) (h2 : o2.depth ≤ 0) :
    ∀ (d : Node), d.Readable = true → d.IsDir = true →
      ∀ (p : List String) (level : Nat) (guides : List Bool) (pfx : String),
      stdout (walk L o1 p d level guides pfx).1 =
        linesWithin o1.depth (walk L o2 p d level guides pfx).1 := by
  intro d
  induction d using Node.induct with
  | hfile name size => intro _ hdir; simp [Node.IsDir] at hdir
  | hunr name err es => intro hr; simp [Node.Readable] at hr
  | hdir name entries ih =>
    intro hr _ p level guides pfx
    have hl2 : ¬ (o2.depth > 0 ∧ (level : Int) ≥ o2.depth) := by omega
    by_cases hl : o1.depth > 0 ∧ (level : Int) ≥ o1.depth
    · rw [walk_limit _ _ _ _ _ _ _ hl, linesWithin_eq_nil]
      · rfl
      · intro ev hev
        have := walk_level_ge L o2 p (.dir name entries) level guides pfx ev hev
        have h3 := hl.2
        omega
    · rw [walk_ok L o2 p (.dir name entries) level guides pfx hl2 entries rfl,
        walk_ok L o1 p (.dir name entries) level guides pfx hl entries rfl,
        filtered_congr L o1 o2 hs]
      simp only [stdout, linesWithin]
      have hlev : (level : Int) + 1 ≤ o1.depth := by omega
      have := (forRange_congr stdout (linesWithin o1.depth) rfl rfl stdout_append
        (linesWithin_append o1.depth)
        (visit L o1 p level guides pfx (filtered L o2 entries).length)
        (visit L o2 p level guides pfx (filtered L o2 entries).length) id
        (filtered L o2 entries) 0 ?_).2
      · rwa [List.map_id] at this
      · intro i c hi
        have hmem := mem_filtered.mp (mem_of_getElem? hi)
        have hcr := readable_entries hr c hmem.1
        simp only [id]
        by_cases hcdir : c.IsDir = true
        · rw [visit_dir _ _ _ _ _ _ _ _ _ hcdir, visit_dir _ _ _ _ _ _ _ _ _ hcdir]
          refine ⟨?_, ?_⟩
          · rw [(walk_printed L o1 c hcr hcdir _ _ _ _).1,
              (walk_printed L o2 c hcr hcdir _ _ _ _).1]
          · simp only [stdout, linesWithin, if_pos hlev]
            rw [lineOf_congr o1 o2 hs, ih c hmem.1 hcr hcdir]
        · rw [visit_file _ _ _ _ _ _ _ _ _ hcdir, visit_file _ _ _ _ _ _ _ _ _ hcdir]
          refine ⟨rfl, ?_⟩
          simp only [stdout, linesWithin, if_pos hlev]
          rw [lineOf_congr o1 o2 hs]

/-- C19. On a fully readable tree, for every filter setting and every D > 0,
the sequence of lines printed with maxDepth = D is the sequence printed with
maxDepth = 0 restricted, order preserved, to the lines of the entries at depth
at most D: the lines that remain are the same strings, glyph and guide prefix
included. -/
theorem depth_restricts (L : Lib) (o : opts) (d : Node) (hr : d.Readable = true)
    (hdir : d.IsDir = true) (D : Int) (hD : 0 < D) :
    stdout (render L { o with depth := D } d).1 =
      linesWithin D (render L { o with depth := 0 } d).1 :=
  walk_depth_cut L { o with depth := D } { o with depth := 0 } ⟨rfl, rfl, rfl⟩ hD
    (le_refl _) d hr hdir [] 0 [] ""

theorem depth_restricts_witness :
    treeNested.Readable = true ∧ treeNested.IsDir = true ∧ (0 : Int) < 1 ∧
    stdout (render goLib { defaultOpts with depth := 1 } treeNested).1 =
      linesWithin 1 (render goLib { defaultOpts with depth := 0 } treeNested).1 ∧
    linesWithin 1 (render goLib defaultOpts treeNested).1 = ["├── A", "└── b"] :=
  ⟨by decide, rfl, by decide,
    depth_restricts goLib defaultOpts treeNested (by decide) rfl 1 (by decide),
    by rw [render_treeNested]; decide⟩

/-! ## Hidden entries are removed before sorting -/

theorem prune_Name (e : Node) : e.prune.Name = e.Name := by
  cases e <;> rfl

theorem prune_IsDir (e : Node) : e.prune.IsDir = e.IsDir := by
  cases e <;> rfl

theorem prune_Info (e : Node) : e.prune.Info = e.Info := by
  cases e <;> rfl

theorem less_prune (L : Lib) (a b : Node) : less L a.prune b.prune = less L a b := by
  simp [less, prune_Name, prune_IsDir]

theorem lineOf_prune (o1 o2 : opts) (hs : o1.showSize = o2.showSize) (pfx : String)
    (il : Bool) (e : Node) : lineOf o1 pfx il e = lineOf o2 pfx il e.prune := by
  simp [lineOf, hs, prune_Name, prune_IsDir, prune_Info]

theorem pruneList_filter (o1 o2 : opts) (h1 : o1.all = false) (h2 : o2.all = true)
    (h3 : o1.dirsOnly = o2.dirsOnly) (es : List Node) :
    (pruneList es).filter (keep o2) = (es.filter (keep o1)).map Node.prune := by
  induction es with
  | nil => rfl
  | cons e es ih =>
    unfold pruneList
    by_cases hh : HasPrefix e.Name "." = true
    · have hk : keep o1 e = false := by simp [keep, h1, hh]
      rw [if_pos hh, ih, List.filter_cons_of_neg (by simp [hk])]
    · have hh' : HasPrefix e.Name "." = false := by simpa using hh
      rw [if_neg hh]
      have hk : keep o2 e.prune = keep o1 e := by
        simp [keep, h1, h2, h3, hh', prune_IsDir]
      by_cases hk1 : keep o1 e = true
      · rw [List.filter_cons_of_pos (by rw [hk, hk1]), List.filter_cons_of_pos hk1,
          List.map_cons, ih]
      · rw [List.filter_cons_of_neg (by rw [hk]; exact hk1), List.filter_cons_of_neg hk1, ih]

theorem filtered_prune (L : Lib) (hL : SortsByLess L) (o1 o2 : opts) (h1 : o1.all = false)
    (h2 : o2.all = true) (h3 : o1.dirsOnly = o2.dirsOnly) (es : List Node) :
    filtered L o2 (pruneList es) = (filtered L o1 es).map Node.prune := by
  unfold filtered
  rw [pruneList_filter o1 o2 h1 h2 h3, hL Node.prune (less L) _ (less_prune L)]

/-- The walk that skips hidden entries prints what the walk that keeps them
prints on the pruned tree, and returns the same error. -/
theorem walk_prune (L : Lib) (hL : SortsByLess L) (o1 o2 : opts) (h1 : o1.all = false)
    (h2 : o2.all = true) (h3 : o1.dirsOnly = o2.dirsOnly) (h4 : o1.showSize = o2.showSize)
    (h5 : o1.depth = o2.depth) :
    ∀ (d : Node) (p : List String) (level : Nat) (guides : List Bool) (pfx : String),
      (walk L o1 p d level guides pfx).2 = (walk L o2 p d.prune level guides pfx).2 ∧
      stdout (walk L o1 p d level guides pfx).1 =
        stdout (walk L o2 p d.prune level guides pfx).1 := by
  intro d
  induction d using Node.induct with
  | hfile name size =>
    intro p level guides pfx
    by_cases hl : o1.depth > 0 ∧ (level : Int) ≥ o1.depth
    · rw [walk_limit _ _ _ _ _ _ _ hl, walk_limit _ _ _ _ _ _ _ (h5 ▸ hl)]
      exact ⟨rfl, rfl⟩
    · rw [walk_error L o1 p (.file name size) level guides pfx hl _ rfl,
        walk_error L o2 p (Node.file name size).prune level guides pfx (h5 ▸ hl) _ rfl]
      exact ⟨rfl, rfl⟩
  | hunr name err es =>
    intro p level guides pfx
    by_cases hl : o1.depth > 0 ∧ (level : Int) ≥ o1.depth
    · rw [walk_limit _ _ _ _ _ _ _ hl, walk_limit _ _ _ _ _ _ _ (h5 ▸ hl)]
      exact ⟨rfl, rfl⟩
    · rw [walk_error L o1 p (.unreadable name err es) level guides pfx hl err rfl,
        walk_error L o2 p (Node.unreadable name err es).prune level guides pfx (h5 ▸ hl) err rfl]
      exact ⟨rfl, rfl⟩
  | hdir name entries ih =>
    intro p level guides pfx
    by_cases hl : o1.depth > 0 ∧ (level : Int) ≥ o1.depth
    · rw [walk_limit _ _ _ _ _ _ _ hl, walk_limit _ _ _ _ _ _ _ (h5 ▸ hl)]
      exact ⟨rfl, rfl⟩
    · rw [walk_ok L o1 p (.dir name entries) level guides pfx hl entries rfl,
        walk_ok L o2 p (Node.dir name entries).prune level guides pfx (h5 ▸ hl)
          (pruneList entries) rfl,
        filtered_prune L hL o1 o2 h1 h2 h3, List.length_map]
      simp only [stdout]
      apply forRange_congr stdout stdout rfl rfl stdout_append stdout_append
      intro i c hi
      have hmem := mem_filtered.mp (mem_of_getElem? hi)
      by_cases hcdir : c.IsDir = true
      · have hpdir : c.prune.IsDir = true := by rw [prune_IsDir]; exact hcdir
        rw [visit_dir _ _ _ _ _ _ _ _ _ hcdir, visit_dir _ _ _ _ _ _ _ _ _ hpdir]
        simp only [stdout, prune_Name]
        obtain ⟨e1, e2⟩ := ih c hmem.1 (p ++ [c.Name]) (level + 1)
          (guides ++ [!(0 + i == (filtered L o1 entries).length - 1)])
          (nextPrefix pfx (0 + i == (filtered L o1 entries).length - 1))
        exact ⟨e1, by rw [lineOf_prune o1 o2 h4, e2]⟩
      · have hpdir : ¬ c.prune.IsDir = true := by rw [prune_IsDir]; exact hcdir
        rw [visit_file _ _ _ _ _ _ _ _ _ hcdir, visit_file _ _ _ _ _ _ _ _ _ hpdir]
        refine ⟨rfl, ?_⟩
        simp only [stdout]
        rw [lineOf_prune o1 o2 h4]

theorem goLib_sortsByLess : SortsByLess goLib := by
  intro f lt xs hf
  have hins : ∀ (a : Node) (l : List Node),
      insertSorted lt (f a) (l.map f) = (insertSorted lt a l).map f := by
    intro a l
    induction l with
    | nil => rfl
    | cons b l ih =>
      simp only [List.map_cons, insertSorted, hf]
      split
      · rw [ih]; rfl
      · rfl
  show insertionSort lt (xs.map f) = (insertionSort lt xs).map f
  induction xs with
  | nil => rfl
  | cons a l ih =>
    simp only [List.map_cons, insertionSort]
    rw [ih, hins]

/-- C20. Rendering with includeHidden false prints exactly the lines that
rendering with includeHidden true prints on the tree without the entries whose
name begins with "." and without what is below them, and returns the same
result; on a fully readable tree both return no error.  The hidden entries are
dropped before the slice is sorted and before `isLast` is computed.  This
holds for every tree and for every `sort.Slice` whose order depends on the
elements through `less` only. -/
theorem hidden_pruned (L : Lib) (hL : SortsByLess L) (o : opts) (d : Node) :
    stdout (render L { o with all := false } d).1 =
      stdout (render L { o with all := true } d.prune).1 ∧
    (render L { o with all := false } d).2 = (render L { o with all := true } d.prune).2 ∧
    (d.Readable = true → d.IsDir = true → (render L { o with all := false } d).2 = none) := by
  obtain ⟨h1, h2⟩ := walk_prune L hL { o with all := false } { o with all := true }
    rfl rfl rfl rfl rfl d [] 0 [] ""
  exact ⟨h2, h1, fun hr hdir => (walk_printed L _ d hr hdir [] 0 [] "").1⟩

theorem hidden_pruned_witness :
    SortsByLess goLib ∧
    (stdout (render goLib { defaultOpts with all := false } treeHiddenLast).1 =
        stdout (render goLib { defaultOpts with all := true } treeHiddenLast.prune).1 ∧
      (render goLib { defaultOpts with all := false } treeHiddenLast).2 =
        (render goLib { defaultOpts with all := true } treeHiddenLast.prune).2 ∧
      (treeHiddenLast.Readable = true → treeHiddenLast.IsDir = true →
        (render goLib { defaultOpts with all := false } treeHiddenLast).2 = none)) ∧
    treeHiddenLast.prune = .dir "r" [.dir "A" [.file "x" none]] ∧
    stdout (render goLib defaultOpts treeHiddenLast).1 = ["└── A", "    └── x"] ∧
    stdout (render goLib allOpts treeHiddenLast).1 =
      ["├── A", "│   └── x", "└── .z"] :=
  ⟨goLib_sortsByLess, hidden_pruned goLib goLib_sortsByLess defaultOpts treeHiddenLast,
    by simp +decide [treeHiddenLast, Node.prune, pruneList, HasPrefix, Node.Name],
    by simp +decide [render, treeHiddenLast, walk_eq, visit, forRange, filtered, goLib,
      insertionSort, insertSorted, less, keep, HasPrefix, defaultOpts, ReadDir, Node.IsDir,
      Node.Name, lineOf, branch, nextPrefix, asciiLower, stdout],
    by simp +decide [render, treeHiddenLast, walk_eq, visit, forRange, filtered, goLib,
      insertionSort, insertSorted, less, keep, HasPrefix, allOpts, ReadDir, Node.IsDir,
      Node.Name, lineOf, branch, nextPrefix, asciiLower, stdout]⟩

/-! ## When the walk returns an error -/

/-- Induction over a tree, the entries of an unreadable directory included. -/
theorem Node.induct_all {P : Node → Prop}
    (hfile : ∀ name size, P (.file name size))
    (hdir : ∀ name entries, (∀ e ∈ entries, P e) → P (.dir name entries))
    (hunr : ∀ name err entries, (∀ e ∈ entries, P e) → P (.unreadable name err entries)) :
    ∀ d, P d := by
  intro d
  refine Node.rec (motive_1 := P) (motive_2 := fun l => ∀ e ∈ l, P e)
    hfile (fun name entries ih => hdir name entries ih)
    (fun name err entries ih => hunr name err entries ih) ?_ ?_ d
  · intro e he; cases he
  · intro hd tl ih1 ih2 e he
    rcases List.mem_cons.mp he with h | h
    · exact h ▸ ih1
    · exact ih2 e h

theorem mem_visibleList {o : opts} {es : List Node} {x : List String × Node} :
    x ∈ visibleList o es ↔ ∃ c ∈ es, keep o c = true ∧
      (x = ([c.Name], c) ∨ ∃ y ∈ c.visible o, x = (c.Name :: y.1, y.2)) := by
  rw [visibleList_eq]
  simp only [List.mem_flatMap, List.mem_filter, List.mem_cons, List.mem_map]
  constructor
  · rintro ⟨c, ⟨hc, hk⟩, h⟩
    refine ⟨c, hc, hk, ?_⟩
    rcases h with h | ⟨y, hy, rfl⟩
    · exact Or.inl h
    · exact Or.inr ⟨y, hy, rfl⟩
  · rintro ⟨c, hc, hk, h⟩
    refine ⟨c, ⟨hc, hk⟩, ?_⟩
    rcases h with h | ⟨y, hy, rfl⟩
    · exact Or.inl h
    · exact Or.inr ⟨y, hy, rfl⟩

/-- With includeHidden false no name on the path of a visible entry begins
with ".". -/
theorem visible_not_hidden (o : opts) (h : o.all = false) :
    ∀ (d : Node), ∀ x ∈ d.visible o, ∀ name ∈ x.1, HasPrefix name "." = false := by
  have hlist : ∀ es : List Node,
      (∀ e ∈ es, ∀ x ∈ e.visible o, ∀ name ∈ x.1, HasPrefix name "." = false) →
      ∀ x ∈ visibleList o es, ∀ name ∈ x.1, HasPrefix name "." = false := by
    intro es ih x hx name hname
    obtain ⟨c, hc, hk, hx'⟩ := mem_visibleList.mp hx
    have hcn : HasPrefix c.Name "." = false := by
      simp [keep, h] at hk
      exact hk.1
    rcases hx' with rfl | ⟨y, hy, rfl⟩
    · simp at hname; subst hname; exact hcn
    · simp only [List.mem_cons] at hname
      rcases hname with rfl | hname
      · exact hcn
      · exact ih c hc y hy name hname
  intro d
  induction d using Node.induct_all with
  | hfile name size => intro x hx; simp [Node.visible] at hx
  | hdir name entries ih => exact hlist entries ih
  | hunr name err entries ih => exact hlist entries ih

/-- A directory the run lists is the one the call is made on or a visible
directory below it, at the level of its depth. -/
theorem walk_listed_visible (L : Lib) (o : opts) :
    ∀ (d : Node) (p : List String) (level : Nat) (guides : List Bool) (pfx : String)
      (q : List String) (d' : Node) (lvl : Nat),
      Event.readDir q d' lvl ∈ (walk L o p d level guides pfx).1 →
      (q = p ∧ d' = d ∧ lvl = level) ∨
      ∃ x ∈ d.visible o, q = p ++ x.1 ∧ d' = x.2 ∧ x.2.IsDir = true ∧
        lvl = level + x.1.length := by
  intro d
  induction d using Node.induct with
  | hfile name size =>
    intro p level guides pfx q d' lvl hev
    by_cases hl : o.depth > 0 ∧ (level : Int) ≥ o.depth
    · rw [walk_limit _ _ _ _ _ _ _ hl] at hev; simp at hev
    · rw [walk_error L o p (.file name size) level guides pfx hl _ rfl] at hev
      simp at hev
      exact Or.inl hev
  | hunr name err es =>
    intro p level guides pfx q d' lvl hev
    by_cases hl : o.depth > 0 ∧ (level : Int) ≥ o.depth
    · rw [walk_limit _ _ _ _ _ _ _ hl] at hev; simp at hev
    · rw [walk_error L o p (.unreadable name err es) level guides pfx hl err rfl] at hev
      simp at hev
      exact Or.inl hev
  | hdir name entries ih =>
    intro p level guides pfx q d' lvl hev
    by_cases hl : o.depth > 0 ∧ (level : Int) ≥ o.depth
    · rw [walk_limit _ _ _ _ _ _ _ hl] at hev; simp at hev
    · rw [walk_ok L o p (.dir name entries) level guides pfx hl entries rfl] at hev
      simp only [List.mem_cons] at hev
      rcases hev with hev | hev
      · cases hev
        exact Or.inl ⟨rfl, rfl, rfl⟩
      · right
        obtain ⟨i, c, hi, hc, -⟩ := mem_forRange _ _ _ _ hev
        have hmem := mem_filtered.mp (mem_of_getElem? hi)
        by_cases hcdir : c.IsDir = true
        · rw [visit_dir _ _ _ _ _ _ _ _ _ hcdir] at hc
          simp only [List.mem_cons] at hc
          rcases hc with hc | hc
          · cases hc
          · rcases ih c hmem.1 _ _ _ _ q d' lvl hc with ⟨h1, h2, h3⟩ | ⟨y, hy, h1, h2, h3, h4⟩
            · refine ⟨([c.Name], c), ?_, h1, h2, hcdir, by simp [h3]⟩
              exact mem_visibleList.mpr ⟨c, hmem.1, hmem.2, Or.inl rfl⟩
            · refine ⟨(c.Name :: y.1, y.2), ?_, by simp [h1], h2, h3, by simp [h4]; omega⟩
              exact mem_visibleList.mpr ⟨c, hmem.1, hmem.2, Or.inr ⟨y, hy, rfl⟩⟩
        · rw [visit_file _ _ _ _ _ _ _ _ _ hcdir] at hc
          simp only [List.mem_singleton] at hc
          cases hc

/-- A call that is made on a directory that cannot be listed, or above a
visible one within the depth limit, returns an error. -/
theorem walk_fails (L : Lib) (o : opts) :
    ∀ (d : Node) (p : List String) (level : Nat) (guides : List Bool) (pfx : String),
      ¬ (o.depth > 0 ∧ (level : Int) ≥ o.depth) →
      ((∃ err, ReadDir d = .error err) ∨
        ∃ x ∈ d.visible o, x.2.IsDir = true ∧ (∃ err, ReadDir x.2 = .error err) ∧
          (o.depth > 0 → (level : Int) + x.1.length < o.depth)) →
      (walk L o p d level guides pfx).2 ≠ none := by
  intro d
  induction d using Node.induct with
  | hfile name size =>
    intro p level guides pfx hl _
    rw [walk_error L o p (.file name size) level guides pfx hl _ rfl]
    simp
  | hunr name err es =>
    intro p level guides pfx hl _
    rw [walk_error L o p (.unreadable name err es) level guides pfx hl err rfl]
    simp
  | hdir name entries ih =>
    intro p level guides pfx hl h hnone
    rcases h with ⟨err, h⟩ | ⟨x, hx, hxdir, hxerr, hxd⟩
    · simp [ReadDir] at h
    · rw [walk_ok L o p (.dir name entries) level guides pfx hl entries rfl] at hnone
      simp only at hnone
      obtain ⟨c, hc, hk, hx'⟩ := mem_visibleList.mp hx
      have hcdir : c.IsDir = true := by
        rcases hx' with rfl | ⟨y, hy, rfl⟩
        · exact hxdir
        · by_contra hcon
          rw [visible_of_not_dir o c hcon] at hy
          cases hy
      obtain ⟨i, hi⟩ := exists_getElem?_of_mem (mem_filtered.mpr ⟨hc, hk⟩)
      have hv := (forRange_none _ _ _ hnone i c hi).1
      rw [visit_dir _ _ _ _ _ _ _ _ _ hcdir] at hv
      simp only at hv
      have hlen : 1 ≤ x.1.length := by
        rcases hx' with rfl | ⟨y, hy, rfl⟩ <;> simp
      refine ih c hc _ _ _ _ ?_ ?_ hv
      · intro hlim
        have := hxd hlim.1
        have h2 := hlim.2
        push_cast at h2
        omega
      · rcases hx' with rfl | ⟨y, hy, rfl⟩
        · exact Or.inl hxerr
        · refine Or.inr ⟨y, hy, hxdir, hxerr, ?_⟩
          intro hpos
          have := hxd hpos
          simp only [List.length_cons] at this
          push_cast at this ⊢
          omega

theorem listedOk_dropLast_append {A B : List Event} (hA : ListedOk A)
    (hB : ListedOk B.dropLast) : ListedOk (A ++ B).dropLast := by
  by_cases h : B = []
  · subst h
    intro q d lvl hev
    rw [List.append_nil] at hev
    exact hA q d lvl (List.dropLast_subset A hev)
  · rw [List.dropLast_append_of_ne_nil _ h]
    intro q d lvl hev
    rcases List.mem_append.mp hev with h1 | h1
    · exact hA q d lvl h1
    · exact hB q d lvl h1

theorem forRange_dropLast_ok (body : Nat → Node → List Event × Option IOError)
    (l : List Node) (idx : Nat)
    (hbody : ∀ i c, l[i]? = some c → ListedOk (body (idx + i) c).1.dropLast ∧
      ((body (idx + i) c).2 = none → ListedOk (body (idx + i) c).1)) :
    ListedOk (forRange body idx l).1.dropLast ∧
      ((forRange body idx l).2 = none → ListedOk (forRange body idx l).1) := by
  induction l generalizing idx with
  | nil =>
    refine ⟨?_, fun _ => ?_⟩ <;> intro q d lvl hev <;> simp [forRange] at hev
  | cons a l ih =>
    have h0 := hbody 0 a (by simp)
    have hrest := ih (idx + 1) (fun i c hi => by
      have := hbody (i + 1) c (by simpa using hi)
      have e1 : idx + (i + 1) = idx + 1 + i := by omega
      rw [e1] at this
      exact this)
    unfold forRange
    split
    · rename_i out err hb
      rw [Nat.add_zero, hb] at h0
      exact ⟨h0.1, fun h => by simp at h⟩
    · rename_i out hb
      rw [Nat.add_zero, hb] at h0
      refine ⟨listedOk_dropLast_append (h0.2 rfl) hrest.1, fun h => ?_⟩
      intro q d lvl hev
      rcases List.mem_append.mp hev with h1 | h1
      · exact h0.2 rfl q d lvl h1
      · exact hrest.2 h q d lvl h1

/-- In a call that returns no error every directory listed was readable. -/
theorem walk_listed_ok (L : Lib) (o : opts) (d : Node) (p : List String) (level : Nat)
    (guides : List Bool) (pfx : String) (hp : p.length = level)
    (h : (walk L o p d level guides pfx).2 = none) :
    ListedOk (walk L o p d level guides pfx).1 := by
  intro q d' lvl hev
  cases hr : ReadDir d' with
  | ok es => exact ⟨es, rfl⟩
  | error err =>
    have := (walk_fail L o d p level guides pfx hp q d' lvl err hev hr).1
    rw [h] at this
    cases this

/-- Every directory listed before the last event of a call was readable. -/
theorem walk_dropLast_ok (L : Lib) (o : opts) :
    ∀ (d : Node) (p : List String) (level : Nat) (guides : List Bool) (pfx : String),
      p.length = level → ListedOk (walk L o p d level guides pfx).1.dropLast := by
  intro d
  induction d using Node.induct with
  | hfile name size =>
    intro p level guides pfx hp q d' lvl hev
    by_cases hl : o.depth > 0 ∧ (level : Int) ≥ o.depth
    · rw [walk_limit _ _ _ _ _ _ _ hl] at hev; simp at hev
    · rw [walk_error L o p (.file name size) level guides pfx hl _ rfl] at hev
      simp at hev
  | hunr name err es =>
    intro p level guides pfx hp q d' lvl hev
    by_cases hl : o.depth > 0 ∧ (level : Int) ≥ o.depth
    · rw [walk_limit _ _ _ _ _ _ _ hl] at hev; simp at hev
    · rw [walk_error L o p (.unreadable name err es) level guides pfx hl err rfl] at hev
      simp at hev
  | hdir name entries ih =>
    intro p level guides pfx hp
    by_cases hl : o.depth > 0 ∧ (level : Int) ≥ o.depth
    · rw [walk_limit _ _ _ _ _ _ _ hl]
      intro q d' lvl hev; simp at hev
    · rw [walk_ok L o p (.dir name entries) level guides pfx hl entries rfl]
      have hhead : ListedOk [Event.readDir p (.dir name entries) level] := by
        intro q d' lvl hev
        simp at hev
        obtain ⟨-, rfl, -⟩ := hev
        exact ⟨entries, rfl⟩
      refine listedOk_dropLast_append (A := [Event.readDir p (.dir name entries) level])
        hhead ?_
      refine (forRange_dropLast_ok _ _ 0 ?_).1
      intro i c hi
      have hmem := mem_filtered.mp (mem_of_getElem? hi)
      by_cases hcdir : c.IsDir = true
      · rw [visit_dir _ _ _ _ _ _ _ _ _ hcdir]
        have hline : ∀ ev : Event, (∀ q d' lvl, ev ≠ Event.readDir q d' lvl) →
            ListedOk [ev] := by
          intro ev hne q d' lvl hev
          simp at hev
          exact absurd hev.symm (hne q d' lvl)
        constructor
        · exact listedOk_dropLast_append (A := [_]) (hline _ (by intro q d' lvl h; cases h))
            (ih c hmem.1 _ _ _ _ (by simp [hp]))
        · intro hnone
          simp only at hnone
          intro q d' lvl hev
          simp only [List.mem_cons] at hev
          rcases hev with hev | hev
          · cases hev
          · exact walk_listed_ok L o c _ _ _ _ (by simp [hp]) hnone q d' lvl hev
      · rw [visit_file _ _ _ _ _ _ _ _ _ hcdir]
        constructor
        · intro q d' lvl hev; simp at hev
        · intro _ q d' lvl hev
          simp at hev

/-- The visible directories are the directories whose path holds no hidden
name when includeHidden is false: directoriesOnly never removes one. -/
theorem visible_dir_iff (o : opts) :
    ∀ (d : Node) (x : List String × Node),
      (x ∈ d.visible o ∧ x.2.IsDir = true) ↔
      (x ∈ d.subdirs ∧ (o.all = false → ∀ name ∈ x.1, HasPrefix name "." = false)) := by
  have hk : ∀ c : Node, c.IsDir = true →
      (keep o c = true ↔ (o.all = false → HasPrefix c.Name "." = false)) := by
    intro c hc
    cases ha : o.all <;> cases hh : HasPrefix c.Name "." <;> simp [keep, ha, hh, hc]
  have hk2 : ∀ c : Node,
      keep { depth := 0, all := true, dirsOnly := true, showSize := false } c = c.IsDir := by
    intro c; simp [keep]
  have hlist : ∀ es : List Node,
      (∀ e ∈ es, ∀ x : List String × Node, (x ∈ e.visible o ∧ x.2.IsDir = true) ↔
        (x ∈ e.subdirs ∧ (o.all = false → ∀ name ∈ x.1, HasPrefix name "." = false))) →
      ∀ x : List String × Node, (x ∈ visibleList o es ∧ x.2.IsDir = true) ↔
        (x ∈ visibleList { depth := 0, all := true, dirsOnly := true, showSize := false } es ∧
          (o.all = false → ∀ name ∈ x.1, HasPrefix name "." = false)) := by
    intro es ih x
    constructor
    · rintro ⟨hx, hdir⟩
      obtain ⟨c, hc, hkc, hx'⟩ := mem_visibleList.mp hx
      rcases hx' with rfl | ⟨y, hy, rfl⟩
      · refine ⟨mem_visibleList.mpr ⟨c, hc, by rw [hk2]; exact hdir, Or.inl rfl⟩, ?_⟩
        intro ha name hname
        simp at hname; subst hname
        exact (hk c hdir).mp hkc ha
      · have hcdir : c.IsDir = true := by
          by_contra hcon
          rw [visible_of_not_dir o c hcon] at hy
          cases hy
        obtain ⟨h1, h2⟩ := (ih c hc y).mp ⟨hy, hdir⟩
        refine ⟨mem_visibleList.mpr ⟨c, hc, by rw [hk2]; exact hcdir, Or.inr ⟨y, h1, rfl⟩⟩, ?_⟩
        intro ha name hname
        simp only [List.mem_cons] at hname
        rcases hname with rfl | hname
        · exact (hk c hcdir).mp hkc ha
        · exact h2 ha name hname
    · rintro ⟨hx, hnames⟩
      obtain ⟨c, hc, hkc, hx'⟩ := mem_visibleList.mp hx
      rw [hk2] at hkc
      rcases hx' with rfl | ⟨y, hy, rfl⟩
      · refine ⟨mem_visibleList.mpr ⟨c, hc, ?_, Or.inl rfl⟩, hkc⟩
        exact (hk c hkc).mpr (fun ha => hnames ha c.Name (by simp))
      · obtain ⟨h1, h2⟩ := (ih c hc y).mpr ⟨hy, fun ha name hname =>
          hnames ha name (by simp [hname])⟩
        refine ⟨mem_visibleList.mpr ⟨c, hc, ?_, Or.inr ⟨y, h1, rfl⟩⟩, h2⟩
        exact (hk c hkc).mpr (fun ha => hnames ha c.Name (by simp))
  intro d
  induction d using Node.induct_all with
  | hfile name size => intro x; simp [Node.visible, Node.subdirs]
  | hdir name entries ih => exact hlist entries ih
  | hunr name err entries ih => exact hlist entries ih

/-- C18. The run (the walk started at the root with level 0) returns an
error exactly when some directory it would list cannot be listed: the root,
or a visible directory whose depth is below maxDepth when a limit is set
(a visible entry being one that passes the filters together with all its
ancestors below the root; the visible directories are the directories on
whose path, with includeHidden false, no name begins with "."). The error returned is that of the directory listed
last, which ends the trace, every directory listed before it having been
readable; and the directories the run lists are only the root and visible
directories within the limit, so an unreadable directory that is hidden,
lies below a hidden directory, or lies at or beyond the limit is never
listed and causes no error. -/
theorem error_iff (L : Lib) (o : opts) (d : Node) :
    ((render L o d).2 ≠ none ↔
      (∃ err, ReadDir d = .error err) ∨
      ∃ x ∈ d.visible o, x.2.IsDir = true ∧ (∃ err, ReadDir x.2 = .error err) ∧
        (o.depth > 0 → (x.1.length : Int) < o.depth)) ∧
    (∀ err, (render L o d).2 = some err →
      ∃ evs q d' lvl, (render L o d).1 = evs ++ [Event.readDir q d' lvl] ∧
        ReadDir d' = .error err ∧ ListedOk evs) ∧
    (∀ q d' lvl, Event.readDir q d' lvl ∈ (render L o d).1 →
      ((q = [] ∧ d' = d) ∨ ((q, d') ∈ d.visible o ∧ d'.IsDir = true)) ∧
      q.length = lvl ∧ (o.depth > 0 → (q.length : Int) < o.depth)) ∧
    (∀ x : List String × Node, (x ∈ d.visible o ∧ x.2.IsDir = true) ↔
      (x ∈ d.subdirs ∧ (o.all = false → ∀ name ∈ x.1, HasPrefix name "." = false))) := by
  have hlast : ∀ err, (render L o d).2 = some err →
      ∃ evs q d' lvl, (render L o d).1 = evs ++ [Event.readDir q d' lvl] ∧
        ReadDir d' = .error err ∧ ListedOk evs := by
    intro err h
    unfold render at h ⊢
    obtain ⟨q, d', lvl, hev, herr⟩ := walk_error_source L o d [] 0 [] "" err h
    obtain ⟨-, -, -, h4, -⟩ := walk_fail L o d [] 0 [] "" rfl q d' lvl err hev herr
    have hdl := walk_dropLast_ok L o d [] 0 [] "" rfl
    rcases h4 with ⟨-, h7⟩ | ⟨-, evs, line, gs, il, h7⟩
    · refine ⟨[], q, d', lvl, by rw [h7]; rfl, herr, ?_⟩
      intro q2 d2 l2 h2; cases h2
    · refine ⟨evs ++ [Event.println line q d' (lvl - 1) gs il], q, d', lvl,
        by rw [h7]; simp, herr, ?_⟩
      have e : (walk L o [] d 0 [] "").1 =
          (evs ++ [Event.println line q d' (lvl - 1) gs il]) ++ [Event.readDir q d' lvl] := by
        rw [h7]; simp
      rw [e, List.dropLast_concat] at hdl
      exact hdl
  have hlisted : ∀ q d' lvl, Event.readDir q d' lvl ∈ (render L o d).1 →
      ((q = [] ∧ d' = d) ∨ ((q, d') ∈ d.visible o ∧ d'.IsDir = true)) ∧
      q.length = lvl ∧ (o.depth > 0 → (q.length : Int) < o.depth) := by
    intro q d' lvl hev
    unfold render at hev
    have hd := walk_depths L o d _ hev
    have hlen : q.length = lvl := hd.2.1 q d' lvl rfl
    refine ⟨?_, hlen, ?_⟩
    · rcases walk_listed_visible L o d [] 0 [] "" q d' lvl hev with
        ⟨h1, h2, -⟩ | ⟨x, hx, h1, h2, h3, -⟩
      · exact Or.inl ⟨h1, h2⟩
      · right
        have : (q, d') = x := by
          rw [h1, h2]; simp
        rw [this]
        exact ⟨hx, by rw [h2]; exact h3⟩
    · intro hpos
      have := hd.1
      simp only [Event.level] at this
      rw [hlen]
      by_contra hcon
      exact this ⟨hpos, by omega⟩
  refine ⟨⟨?_, ?_⟩, hlast, hlisted, visible_dir_iff o d⟩
  · intro hne
    cases hres : (render L o d).2 with
    | none => exact absurd hres hne
    | some err =>
      obtain ⟨evs, q, d', lvl, htr, herr, -⟩ := hlast err hres
      have hev : Event.readDir q d' lvl ∈ (render L o d).1 := by rw [htr]; simp
      obtain ⟨h1, h2, h3⟩ := hlisted q d' lvl hev
      rcases h1 with ⟨-, rfl⟩ | ⟨hx, hdir⟩
      · exact Or.inl ⟨err, herr⟩
      · exact Or.inr ⟨(q, d'), hx, hdir, ⟨err, herr⟩, h3⟩
  · intro h
    unfold render
    refine walk_fails L o d [] 0 [] "" (by simp) ?_
    rcases h with h | ⟨x, hx, h1, h2, h3⟩
    · exact Or.inl h
    · exact Or.inr ⟨x, hx, h1, h2, fun hpos => by simpa using h3 hpos⟩

theorem error_iff_witness :
    (render goLib depthOneOpts treeShielded).2 = none ∧
    (render goLib allOpts treeShielded).2 ≠ none :=
  ⟨by
    by_contra h
    rcases (error_iff goLib depthOneOpts treeShielded).1.mp h with
      ⟨err, h1⟩ | ⟨x, hx, h1, ⟨err, h2⟩, h3⟩
    · simp [treeShielded, ReadDir] at h1
    · simp +decide [treeShielded, Node.visible, visibleList, keep, HasPrefix, depthOneOpts,
        Node.Name, Node.IsDir] at hx
      rcases hx with rfl | rfl
      · simp [ReadDir] at h2
      · simp +decide [depthOneOpts] at h3,
   (error_iff goLib allOpts treeShielded).1.mpr
    (Or.inr ⟨([".h"], .unreadable ".h" "denied" []),
      by simp +decide [treeShielded, Node.visible, visibleList, keep, HasPrefix, allOpts,
        Node.Name, Node.IsDir],
      rfl, ⟨"denied", rfl⟩, by simp [allOpts]⟩)⟩

/-! ## The branch glyph of a sibling group -/

theorem childEvents_getElem? (o : opts) (p : List String) (level : Nat) (guides : List Bool)
    (pfx : String) (n : Nat) (l : List Node) (idx i : Nat) :
    (childEvents o p level guides pfx n idx l)[i]? =
      (l[i]?).map (fun e => Event.println (lineOf o pfx (idx + i == n - 1) e)
        (p ++ [e.Name]) e level guides (idx + i == n - 1)) := by
  induction l generalizing idx i with
  | nil => simp [childEvents]
  | cons a l ih =>
    cases i with
    | zero => simp [childEvents]
    | succ i =>
      have e1 : idx + (i + 1) = idx + 1 + i := by omega
      simp [childEvents, ih, e1]

theorem childEvents_length (o : opts) (p : List String) (level : Nat) (guides : List Bool)
    (pfx : String) (n : Nat) (l : List Node) (idx : Nat) :
    (childEvents o p level guides pfx n idx l).length = l.length := by
  have := congrArg List.length (childEvents_node o p level guides pfx n l idx)
  simpa using this

/-- The line of the child of index `k` is printed exactly when the body of the
loop returned no error for every child before it. -/
theorem forRange_childLines_lt (L : Lib) (o : opts) (p : List String) (level : Nat)
    (guides : List Bool) (pfx : String) (n : Nat) (l : List Node) (idx : Nat) :
    ∀ k, k < l.length →
      (k < (childLines level (forRange (visit L o p level guides pfx n) idx l).1).length ↔
        ∀ i c, i < k → l[i]? = some c →
          (visit L o p level guides pfx n (idx + i) c).2 = none) := by
  induction l generalizing idx with
  | nil => intro k hk; simp at hk
  | cons e l ih =>
    intro k hk
    have hv := childLines_visit L o p level guides pfx n idx e
    unfold forRange
    split
    · rename_i out err hb
      rw [hb] at hv
      simp only at hv
      simp only [hv, List.length_singleton]
      cases k with
      | zero => simp
      | succ k =>
        constructor
        · intro h; omega
        · intro h
          have := h 0 e (by omega) (by simp)
          rw [Nat.add_zero, hb] at this
          cases this
    · rename_i out hb
      rw [hb] at hv
      simp only at hv
      simp only [childLines_append, hv, List.singleton_append, List.length_cons]
      cases k with
      | zero => simp
      | succ k =>
        have hk' : k < l.length := by simpa using hk
        rw [Nat.succ_lt_succ_iff, ih (idx + 1) k hk']
        constructor
        · intro h i c hi hc
          cases i with
          | zero => rw [Nat.add_zero]; simp at hc; subst hc; rw [hb]
          | succ i =>
            have e1 : idx + (i + 1) = idx + 1 + i := by omega
            rw [e1]
            exact h i c (by omega) (by simpa using hc)
        · intro h i c hi hc
          have := h (i + 1) c (by omega) (by simpa using hc)
          have e1 : idx + (i + 1) = idx + 1 + i := by omega
          rwa [e1] at this

/-- The body of the loop, for a child that is not the last, returns the error
of the nested call when the child is a directory, and no error otherwise. -/
theorem visit_result (L : Lib) (o : opts) (p : List String) (level : Nat)
    (guides : List Bool) (pfx : String) (n i : Nat) (c : Node) (hi : i + 1 < n) :
    (visit L o p level guides pfx n i c).2 = none ↔
      (c.IsDir = true → (walk L o (p ++ [c.Name]) c (level + 1) (guides ++ [true])
        (nextPrefix pfx false)).2 = none) := by
  have h : (i == n - 1) = false := by simp; omega
  by_cases hc : c.IsDir = true
  · rw [visit_dir _ _ _ _ _ _ _ _ _ hc, h]
    simp [hc]
  · rw [visit_file _ _ _ _ _ _ _ _ _ hc]
    simp [hc]

theorem glyph_ne_last (pfx x y : String) : pfx ++ "└── " ++ x ≠ pfx ++ "├── " ++ y :=
  fun h => glyph_ne pfx y x h.symm

/-- C2 (as amended). For every directory that `walk` lists and whose filtered
child list is not empty, whether or not the call returns an error:
the child lines of the group are the lines of the first children in sorted
order, one each, and there is at least one; the line of a child that is not
the last in sorted order is `prefix + "├── " + name` (+ size annotation),
which is not `prefix + "└── "` followed by anything, and the line of the last
child in sorted order is `prefix + "└── " + name` (+ size annotation), which
is not `prefix + "├── "` followed by anything; the line of a child is printed
exactly when the nested call on every sibling directory before it returned no
error.  So when the nested calls on the sibling directories before the last
child return no error, which is so whenever the call itself returns none,
the group has one line per child, the last one with `"└── "` and every other
with `"├── "`; otherwise every child line printed carries `"├── "`. -/
theorem last_sibling_glyph (L : Lib) (o : opts) (p : List String) (d : Node) (level : Nat)
    (guides : List Bool) (pfx : String) (entries : List Node)
    (hl : ¬ (o.depth > 0 ∧ (level : Int) ≥ o.depth)) (hd : ReadDir d = .ok entries)
    (hne : filtered L o entries ≠ []) :
    (childLines level (walk L o p d level guides pfx).1 ≠ [] ∧
      (childLines level (walk L o p d level guides pfx).1).map Event.node <+:
        filtered L o entries) ∧
    (∀ i ev, (childLines level (walk L o p d level guides pfx).1)[i]? = some ev →
      (filtered L o entries)[i]? = some ev.node ∧
      (i + 1 < (filtered L o entries).length →
        ev.line = pfx ++ "├── " ++ ev.node.Name ++ sizeNote o ev.node ∧
        ∀ s, ev.line ≠ pfx ++ "└── " ++ s) ∧
      (i + 1 = (filtered L o entries).length →
        ev.line = pfx ++ "└── " ++ ev.node.Name ++ sizeNote o ev.node ∧
        ∀ s, ev.line ≠ pfx ++ "├── " ++ s)) ∧
    (∀ k, k < (filtered L o entries).length →
      (k < (childLines level (walk L o p d level guides pfx).1).length ↔
        ∀ i c, i < k → (filtered L o entries)[i]? = some c → c.IsDir = true →
          (walk L o (p ++ [c.Name]) c (level + 1) (guides ++ [true])
            (nextPrefix pfx false)).2 = none)) ∧
    ((∀ i c, i + 1 < (filtered L o entries).length →
        (filtered L o entries)[i]? = some c → c.IsDir = true →
        (walk L o (p ++ [c.Name]) c (level + 1) (guides ++ [true])
          (nextPrefix pfx false)).2 = none) →
      ∃ front lastEv,
        childLines level (walk L o p d level guides pfx).1 = front ++ [lastEv] ∧
        (front ++ [lastEv]).map Event.node = filtered L o entries ∧
        lastEv.line = pfx ++ "└── " ++ lastEv.node.Name ++ sizeNote o lastEv.node ∧
        ∀ ev ∈ front, ev.line = pfx ++ "├── " ++ ev.node.Name ++ sizeNote o ev.node ∧
          ∀ s, ev.line ≠ pfx ++ "└── " ++ s) ∧
    (¬ (∀ i c, i + 1 < (filtered L o entries).length →
        (filtered L o entries)[i]? = some c → c.IsDir = true →
        (walk L o (p ++ [c.Name]) c (level + 1) (guides ++ [true])
          (nextPrefix pfx false)).2 = none) →
      ∀ ev ∈ childLines level (walk L o p d level guides pfx).1,
        ev.line = pfx ++ "├── " ++ ev.node.Name ++ sizeNote o ev.node ∧
          ∀ s, ev.line ≠ pfx ++ "└── " ++ s) ∧
    ((walk L o p d level guides pfx).2 = none →
      ∀ i c, i + 1 < (filtered L o entries).length →
        (filtered L o entries)[i]? = some c → c.IsDir = true →
        (walk L o (p ++ [c.Name]) c (level + 1) (guides ++ [true])
          (nextPrefix pfx false)).2 = none) := by
  have hpre := (childLines_walk L o p d level guides pfx entries hl hd).1
  have hn : 0 < (filtered L o entries).length := List.length_pos.mpr hne
  -- which child lines are printed
  have hlt : ∀ k, k < (filtered L o entries).length →
      (k < (childLines level (walk L o p d level guides pfx).1).length ↔
        ∀ i c, i < k → (filtered L o entries)[i]? = some c → c.IsDir = true →
          (walk L o (p ++ [c.Name]) c (level + 1) (guides ++ [true])
            (nextPrefix pfx false)).2 = none) := by
    intro k hk
    rw [walk_ok L o p d level guides pfx hl entries hd]
    simp only [childLines]
    rw [forRange_childLines_lt L o p level guides pfx _ _ 0 k hk]
    constructor
    · intro h i c hi hc
      have := h i c hi hc
      rw [Nat.zero_add] at this
      exact (visit_result L o p level guides pfx _ i c (by omega)).mp this
    · intro h i c hi hc
      rw [Nat.zero_add]
      exact (visit_result L o p level guides pfx _ i c (by omega)).mpr (h i c hi hc)
  have hlen : (childLines level (walk L o p d level guides pfx).1).length ≤
      (filtered L o entries).length := by
    have := hpre.length_le
    rwa [childEvents_length] at this
  -- the line at each index
  have hidx : ∀ i ev, (childLines level (walk L o p d level guides pfx).1)[i]? = some ev →
      (filtered L o entries)[i]? = some ev.node ∧
      ev.line = pfx ++ branch (i == (filtered L o entries).length - 1) ++ ev.node.Name ++
        sizeNote o ev.node := by
    intro i ev hi
    obtain ⟨t, ht⟩ := hpre
    have hi' : i < (childLines level (walk L o p d level guides pfx).1).length := by
      by_contra hcon
      rw [List.getElem?_eq_none (by omega)] at hi
      cases hi
    have h2 : (childEvents o p level guides pfx (filtered L o entries).length 0
        (filtered L o entries))[i]? = some ev := by
      rw [← ht, List.getElem?_append_left hi', hi]
    rw [childEvents_getElem?] at h2
    cases hf : (filtered L o entries)[i]? with
    | none => rw [hf] at h2; cases h2
    | some c =>
      rw [hf] at h2
      simp only [Option.map_some', Option.some.injEq, Nat.zero_add] at h2
      subst h2
      exact ⟨rfl, by simp only [Event.line, Event.node]; rw [lineOf_eq]⟩
  have hglyph : ∀ i ev, (childLines level (walk L o p d level guides pfx).1)[i]? = some ev →
      i + 1 < (filtered L o entries).length →
      ev.line = pfx ++ "├── " ++ ev.node.Name ++ sizeNote o ev.node ∧
        ∀ s, ev.line ≠ pfx ++ "└── " ++ s := by
    intro i ev hi hlt'
    have h := (hidx i ev hi).2
    have hb : (i == (filtered L o entries).length - 1) = false := by simp; omega
    have hbr : branch false = "├── " := rfl
    rw [hb, hbr] at h
    refine ⟨h, fun s => ?_⟩
    rw [h, String.append_assoc (pfx ++ "├── ")]
    exact glyph_ne pfx _ s
  have hres : (walk L o p d level guides pfx).2 = none →
      ∀ i c, i + 1 < (filtered L o entries).length →
        (filtered L o entries)[i]? = some c → c.IsDir = true →
        (walk L o (p ++ [c.Name]) c (level + 1) (guides ++ [true])
          (nextPrefix pfx false)).2 = none := by
    intro h i c hi hc hdir
    rw [walk_ok L o p d level guides pfx hl entries hd] at h
    simp only at h
    have := (forRange_none _ _ _ h i c hc).1
    rw [Nat.zero_add] at this
    exact (visit_result L o p level guides pfx _ i c hi).mp this hdir
  refine ⟨⟨?_, ?_⟩, ?_, hlt, ?_, ?_, hres⟩
  · intro h
    have := (hlt 0 hn).mpr (fun i c hi => absurd hi (Nat.not_lt_zero _))
    rw [h] at this
    simp at this
  · have := hpre.map Event.node
    rwa [childEvents_node] at this
  · intro i ev hi
    refine ⟨(hidx i ev hi).1, hglyph i ev hi, ?_⟩
    intro heq
    have h := (hidx i ev hi).2
    have hb : (i == (filtered L o entries).length - 1) = true := by simp; omega
    have hbr : branch true = "└── " := rfl
    rw [hb, hbr] at h
    refine ⟨h, fun s => ?_⟩
    rw [h, String.append_assoc (pfx ++ "└── ")]
    exact glyph_ne_last pfx _ s
  · intro hH
    have hfull := (hlt ((filtered L o entries).length - 1) (by omega)).mpr
      (fun i c hi hc hdir => hH i c (by omega) hc hdir)
    have heq : childLines level (walk L o p d level guides pfx).1 =
        childEvents o p level guides pfx (filtered L o entries).length 0
          (filtered L o entries) := by
      refine hpre.eq_of_length ?_
      rw [childEvents_length]
      omega
    obtain ⟨front, lastEv, h2, h3, h4⟩ :=
      childEvents_last o p level guides pfx (filtered L o entries).length
        (filtered L o entries) 0 (by simp) hne
    refine ⟨front, lastEv, by rw [heq, h2], ?_, h3, ?_⟩
    · rw [← h2, childEvents_node]
    · intro ev hev
      refine ⟨h4 ev hev, fun s => ?_⟩
      rw [h4 ev hev, String.append_assoc (pfx ++ "├── ")]
      exact glyph_ne pfx _ s
  · intro hH ev hev
    obtain ⟨i, hi⟩ := exists_getElem?_of_mem hev
    refine hglyph i ev hi ?_
    have hi' : i < (childLines level (walk L o p d level guides pfx).1).length := by
      by_contra hcon
      rw [List.getElem?_eq_none (by omega)] at hi
      cases hi
    by_contra hcon
    have hlast : (filtered L o entries).length - 1 <
        (childLines level (walk L o p d level guides pfx).1).length := by omega
    exact hH (fun i c hi hc hdir =>
      (hlt ((filtered L o entries).length - 1) (by omega)).mp hlast i c (by omega) hc hdir)

theorem filtered_treeLateAbort :
    filtered goLib defaultOpts
      [.dir "a" [], .dir "b" [.unreadable "u" "permission denied" []]] =
      [.dir "a" [], .dir "b" [.unreadable "u" "permission denied" []]] := by
  simp +decide [filtered, goLib, insertionSort, insertSorted, less, keep, HasPrefix,
    defaultOpts, Node.IsDir, Node.Name, asciiLower]

theorem walk_treeLateAbort_a :
    walk goLib defaultOpts ["a"] (.dir "a" []) 1 [true] "│   " =
      ([.readDir ["a"] (.dir "a" []) 1], none) := by
  simp +decide [walk_eq, forRange, filtered, goLib, insertionSort, defaultOpts, ReadDir]

theorem last_sibling_glyph_witness :
    ¬ (defaultOpts.depth > 0 ∧ ((0 : Nat) : Int) ≥ defaultOpts.depth) ∧
    ReadDir treeLateAbort =
      .ok [.dir "a" [], .dir "b" [.unreadable "u" "permission denied" []]] ∧
    filtered goLib defaultOpts
      [.dir "a" [], .dir "b" [.unreadable "u" "permission denied" []]] ≠ [] ∧
    (walk goLib defaultOpts [] treeLateAbort 0 [] "").2 ≠ none ∧
    ∃ front lastEv,
      childLines 0 (walk goLib defaultOpts [] treeLateAbort 0 [] "").1 = front ++ [lastEv] ∧
      (front ++ [lastEv]).map Event.node =
        filtered goLib defaultOpts
          [.dir "a" [], .dir "b" [.unreadable "u" "permission denied" []]] ∧
      lastEv.line = "" ++ "└── " ++ lastEv.node.Name ++ sizeNote defaultOpts lastEv.node ∧
      ∀ ev ∈ front, ev.line = "" ++ "├── " ++ ev.node.Name ++ sizeNote defaultOpts ev.node ∧
        ∀ s, ev.line ≠ "" ++ "└── " ++ s :=
  ⟨by decide, rfl, by rw [filtered_treeLateAbort]; simp,
    walk_fails goLib defaultOpts treeLateAbort [] 0 [] "" (by decide)
      (Or.inr ⟨(["b", "u"], .unreadable "u" "permission denied" []),
        by simp +decide [treeLateAbort, Node.visible, visibleList, keep, HasPrefix, defaultOpts,
          Node.Name, Node.IsDir],
        rfl, ⟨"permission denied", rfl⟩, by simp [defaultOpts]⟩),
    (last_sibling_glyph goLib defaultOpts [] treeLateAbort 0 [] ""
      [.dir "a" [], .dir "b" [.unreadable "u" "permission denied" []]] (by decide) rfl
      (by rw [filtered_treeLateAbort]; simp)).2.2.2.1
      (by
        rw [filtered_treeLateAbort]
        intro i c hi hc hdir
        have hi0 : i = 0 := by simp at hi; omega
        subst hi0
        simp at hc
        subst hc
        simp +decide [Node.Name, nextPrefix, walk_treeLateAbort_a])⟩

/-- C2, the claim as stated fails when a listing error cuts the loop short: the
root lists the unreadable directory `a` and the file `b`; the group is not
empty, the only child line printed is `"├── a"`, and no child line of the
group is `"└── "` followed by a name. -/
theorem last_sibling_glyph_counterexample :
    ReadDir (.dir "r" [.unreadable "a" "permission denied" [], .file "b" none]) =
      .ok [.unreadable "a" "permission denied" [], .file "b" none] ∧
    filtered goLib defaultOpts [.unreadable "a" "permission denied" [], .file "b" none] ≠ [] ∧
    stdout (walk goLib defaultOpts []
      (.dir "r" [.unreadable "a" "permission denied" [], .file "b" none]) 0 [] "").1 = ["├── a"] ∧
    ¬ ∃ front lastEv,
      childLines 0 (walk goLib defaultOpts []
        (.dir "r" [.unreadable "a" "permission denied" [], .file "b" none]) 0 [] "").1 =
          front ++ [lastEv] ∧
      lastEv.line = "" ++ "└── " ++ lastEv.node.Name ++ sizeNote defaultOpts lastEv.node := by
  have hw : walk goLib defaultOpts []
      (.dir "r" [.unreadable "a" "permission denied" [], .file "b" none]) 0 [] "" =
      ([.readDir [] (.dir "r" [.unreadable "a" "permission denied" [], .file "b" none]) 0,
        .println "├── a" ["a"] (.unreadable "a" "permission denied" []) 0 [] false,
        .readDir ["a"] (.unreadable "a" "permission denied" []) 1], some "permission denied") := by
    simp [walk_eq, visit, forRange, filtered, goLib, insertionSort, insertSorted, less, keep,
      HasPrefix, defaultOpts, ReadDir, Node.IsDir, Node.Name, lineOf, branch, nextPrefix,
      asciiLower]
  refine ⟨rfl, ?_, ?_, ?_⟩
  · simp [filtered, goLib, insertionSort, insertSorted, less, keep, HasPrefix,
      defaultOpts, Node.IsDir, Node.Name, asciiLower]
  · rw [hw]; rfl
  · rw [hw]
    rintro ⟨front, lastEv, h1, h2⟩
    simp only [childLines, if_true] at h1
    have hlen := congrArg List.length h1
    cases front with
    | nil =>
      simp at h1
      subst h1
      simp [Event.line, Event.node, Node.Name, sizeNote, defaultOpts] at h2
    | cons x xs => simp at hlen

/-! ## The flag of a line and the sibling group of its entry -/

/-- Every line of a call is the line of an entry of the sorted slice of the
directory that lists it, with `isLast` true exactly at the last index: the
directory is the one the call is made on, for a child line of that call, and
otherwise the parent directory, whose line the call has printed one level up
and whose negated `isLast` is the last of the guides. -/
theorem walk_sibling (L : Lib) (o : opts) :
    ∀ (d : Node) (p : List String) (level : Nat) (guides : List Bool) (pfx : String)
      (line : String) (q : List String) (e : Node) (lvl : Nat) (gs : List Bool) (il : Bool),
      Event.println line q e lvl gs il ∈ (walk L o p d level guides pfx).1 →
      (lvl = level ∧ gs = guides ∧ q = p ++ [e.Name] ∧
        ∃ entries i, ReadDir d = .ok entries ∧ (filtered L o entries)[i]? = some e ∧
          il = (i == (filtered L o entries).length - 1)) ∨
      (level < lvl ∧ ∃ line' q' e' gs' il' entries i,
        Event.println line' q' e' (lvl - 1) gs' il' ∈ (walk L o p d level guides pfx).1 ∧
        q = q' ++ [e.Name] ∧ e'.IsDir = true ∧ gs = gs' ++ [!il'] ∧
        ReadDir e' = .ok entries ∧ (filtered L o entries)[i]? = some e ∧
          il = (i == (filtered L o entries).length - 1)) := by
  intro d
  induction d using Node.induct with
  | hfile name size =>
    intro p level guides pfx line q e lvl gs il hev
    by_cases hl : o.depth > 0 ∧ (level : Int) ≥ o.depth
    · rw [walk_limit _ _ _ _ _ _ _ hl] at hev; simp at hev
    · rw [walk_error L o p (.file name size) level guides pfx hl _ rfl] at hev
      simp at hev
  | hunr name err es =>
    intro p level guides pfx line q e lvl gs il hev
    by_cases hl : o.depth > 0 ∧ (level : Int) ≥ o.depth
    · rw [walk_limit _ _ _ _ _ _ _ hl] at hev; simp at hev
    · rw [walk_error L o p (.unreadable name err es) level guides pfx hl err rfl] at hev
      simp at hev
  | hdir name entries ih =>
    intro p level guides pfx line q e lvl gs il hev
    by_cases hl : o.depth > 0 ∧ (level : Int) ≥ o.depth
    · rw [walk_limit _ _ _ _ _ _ _ hl] at hev; simp at hev
    · rw [walk_ok L o p (.dir name entries) level guides pfx hl entries rfl] at hev ⊢
      simp only [List.mem_cons] at hev
      rcases hev with hev | hev
      · cases hev
      · obtain ⟨i, c, hi, hev, hsub⟩ := mem_forRange _ _ _ _ hev
        have hmem := mem_filtered.mp (mem_of_getElem? hi)
        have hsub' : ∀ ev' ∈ (visit L o p level guides pfx (filtered L o entries).length
            (0 + i) c).1, ev' ∈ Event.readDir p (.dir name entries) level ::
              (forRange (visit L o p level guides pfx (filtered L o entries).length) 0
                (filtered L o entries)).1 :=
          fun ev' h' => List.mem_cons_of_mem _ (hsub ev' h')
        rw [Nat.zero_add] at hev hsub'
        by_cases hdir : c.IsDir = true
        · rw [visit_dir _ _ _ _ _ _ _ _ _ hdir] at hev hsub'
          simp only [List.mem_cons] at hev
          rcases hev with hev | hev
          · cases hev
            exact Or.inl ⟨rfl, rfl, rfl, entries, i, rfl, hi, rfl⟩
          · right
            rcases ih c hmem.1 _ _ _ _ _ _ _ _ _ _ hev with
              ⟨h1, h2, h3, es, j, h4, h5, h6⟩ | ⟨h1, h2⟩
            · subst h1
              exact ⟨Nat.lt_succ_self _, _, _, c, guides, _, es, j,
                hsub' _ (List.mem_cons_self _ _), h3, hdir, h2, h4, h5, h6⟩
            · obtain ⟨line', q', e', gs', il', es, j, h3, h4⟩ := h2
              exact ⟨by omega, line', q', e', gs', il', es, j,
                hsub' _ (List.mem_cons_of_mem _ h3), h4⟩
        · rw [visit_file _ _ _ _ _ _ _ _ _ hdir] at hev
          simp only [List.mem_singleton] at hev
          cases hev
          exact Or.inl ⟨rfl, rfl, rfl, entries, i, rfl, hi, rfl⟩

theorem isLast_iff {l : List Node} {i : Nat} {e : Node} {il : Bool}
    (hi : l[i]? = some e) (h : il = (i == l.length - 1)) :
    (il = true ↔ i + 1 = l.length) ∧
    (l.Nodup → (il = true ↔ l.getLast? = some e)) := by
  have hlt : i < l.length := by
    by_contra hcon
    rw [List.getElem?_eq_none (by omega)] at hi
    cases hi
  have h1 : il = true ↔ i + 1 = l.length := by
    rw [h]; simp; omega
  refine ⟨h1, fun hnd => ?_⟩
  rw [h1, List.getLast?_eq_getElem?]
  constructor
  · intro heq
    have : l.length - 1 = i := by omega
    rw [this, hi]
  · intro hlast
    by_contra hcon
    have hne : i ≠ l.length - 1 := by omega
    have h2 : l[i]? = l[l.length - 1]? := by rw [hi, hlast]
    rw [List.getElem?_eq_getElem hlt, List.getElem?_eq_getElem (by omega)] at h2
    simp only [Option.some.injEq] at h2
    exact hne ((List.Nodup.getElem_inj_iff hnd).mp h2)

theorem guidePrefix_join (gs : List Bool) : guidePrefix gs = String.join (gs.map guide) := by
  have h : ∀ (l : List String) (acc : String),
      List.foldl (fun r s => r ++ s) acc l = acc ++ List.foldl (fun r s => r ++ s) "" l := by
    intro l
    induction l with
    | nil => intro acc; simp
    | cons a l ih =>
      intro acc
      simp only [List.foldl_cons]
      rw [ih (acc ++ a), ih ("" ++ a)]
      simp [String.append_assoc]
  induction gs with
  | nil => rfl
  | cons g gs ih =>
    simp only [guidePrefix, List.map_cons, String.join, List.foldl_cons]
    rw [h, ih]
    simp [String.join]

/-- The entry of a line and each directory above it below the root have their
line in the run, each with the flag of its own sibling group. -/
theorem render_ancestors (L : Lib) (o : opts) (d : Node) :
    ∀ (lvl : Nat) (line : String) (q : List String) (e : Node) (gs : List Bool) (il : Bool),
      Event.println line q e lvl gs il ∈ (render L o d).1 →
      ∀ j, j ≤ lvl → ∃ line_j e_j il_j parent entries i,
        Event.println line_j (q.take (j + 1)) e_j j (gs.take j) il_j ∈ (render L o d).1 ∧
        (j = lvl → line_j = line ∧ e_j = e ∧ il_j = il) ∧
        (j < lvl → e_j.IsDir = true ∧ gs[j]? = some (!il_j)) ∧
        ReadDir parent = .ok entries ∧ (filtered L o entries)[i]? = some e_j ∧
        il_j = (i == (filtered L o entries).length - 1) ∧
        (j = 0 → parent = d) ∧
        (0 < j → ∃ line' gs' il',
          Event.println line' (q.take j) parent (j - 1) gs' il' ∈ (render L o d).1) := by
  intro lvl
  induction lvl with
  | zero =>
    intro line q e gs il hev j hj
    have hj0 : j = 0 := by omega
    subst hj0
    have hev' := hev
    unfold render at hev'
    obtain ⟨-, h2, h3⟩ :=
      walk_line_shape L o d [] 0 [] "" ⟨rfl, rfl, rfl⟩ _ hev' _ _ _ _ _ _ rfl
    rcases walk_sibling L o d [] 0 [] "" line q e 0 gs il hev' with
      ⟨-, -, -, es, i, h4, h5, h6⟩ | ⟨hlt, -⟩
    · refine ⟨line, e, il, d, es, i, ?_, fun _ => ⟨rfl, rfl, rfl⟩,
        fun h => absurd h (by omega), h4, h5, h6, fun _ => rfl, fun h => absurd h (by omega)⟩
      rw [List.take_of_length_le (by omega), List.take_of_length_le (by omega)]
      exact hev
    · omega
  | succ lvl ih =>
    intro line q e gs il hev j hj
    have hev' := hev
    unfold render at hev'
    obtain ⟨-, h2, h3⟩ :=
      walk_line_shape L o d [] 0 [] "" ⟨rfl, rfl, rfl⟩ _ hev' _ _ _ _ _ _ rfl
    rcases walk_sibling L o d [] 0 [] "" line q e (lvl + 1) gs il hev' with
      ⟨h1, -⟩ | ⟨-, line', q', e', gs', il', es, i, hp, hq, hdir, hgs, h4, h5, h6⟩
    · omega
    · simp only [Nat.add_sub_cancel] at hp
      obtain ⟨-, h2', h3'⟩ :=
        walk_line_shape L o d [] 0 [] "" ⟨rfl, rfl, rfl⟩ _ hp _ _ _ _ _ _ rfl
      have hp' : Event.println line' q' e' lvl gs' il' ∈ (render L o d).1 := hp
      have hqt : ∀ m, m ≤ lvl + 1 → q.take m = q'.take m := by
        intro m hm
        rw [hq, List.take_append_of_le_length (by omega)]
      have hgt : ∀ m, m ≤ lvl → gs.take m = gs'.take m := by
        intro m hm
        rw [hgs, List.take_append_of_le_length (by omega)]
      by_cases hjl : j = lvl + 1
      · subst hjl
        refine ⟨line, e, il, e', es, i, ?_, fun _ => ⟨rfl, rfl, rfl⟩,
          fun h => absurd h (lt_irrefl _), h4, h5, h6, fun h => absurd h (by omega),
          fun _ => ⟨line', gs', il', ?_⟩⟩
        · rw [List.take_of_length_le (by omega), List.take_of_length_le (by omega)]
          exact hev
        · rw [hqt _ (le_refl _), List.take_of_length_le (by omega)]
          exact hp'
      · have hj' : j ≤ lvl := by omega
        obtain ⟨line_j, e_j, il_j, parent, es_j, i_j, a1, a2, a3, a4, a5, a6, a7, a8⟩ :=
          ih line' q' e' gs' il' hp' j hj'
        refine ⟨line_j, e_j, il_j, parent, es_j, i_j, ?_, fun h => absurd h hjl, ?_,
          a4, a5, a6, a7, ?_⟩
        · rw [hqt _ (by omega), hgt _ hj']
          exact a1
        · intro _
          by_cases hjeq : j = lvl
          · obtain ⟨-, b2, b3⟩ := a2 hjeq
            subst hjeq
            refine ⟨by rw [b2]; exact hdir, ?_⟩
            rw [hgs, b3, List.getElem?_append_right (by omega)]
            simp [h2']
          · obtain ⟨b1, b2⟩ := a3 (by omega)
            refine ⟨b1, ?_⟩
            rw [hgs, List.getElem?_append_left (by omega)]
            exact b2
        · intro hpos
          obtain ⟨line'', gs'', il'', c1⟩ := a8 hpos
          exact ⟨line'', gs'', il'', by rw [hqt _ (by omega)]; exact c1⟩

/-- C3 (as amended). Every line the traversal prints, for an entry at depth
`k = lvl + 1`, is `prefix + branchGlyph + name` followed by the size annotation
(empty unless showSize is set and the entry is a non-directory whose size can
be read).  The prefix is one 4-character guide per ancestor below the root,
outermost first: it has `4 * (k - 1)` characters, it is empty for the children
of the root, and for a deeper entry it is the prefix of the line of its parent
directory, which the run has printed one level up, followed by four spaces if
that parent was the last of its siblings and by `"│   "` otherwise.
The flags are those of the sibling groups: for every `j ≤ lvl` the run has
printed the line of the part of the path of length `j + 1` (the entry itself
for `j = lvl`, its ancestor at depth `j + 1` for `j < lvl`), at level `j` and
with the first `j` guides; that entry sits at some index `i` of the filtered
sorted slice of the listing of its parent (the root for `j = 0`, else the
directory printed for the part of the path of length `j`), and its flag
`isLast` is true exactly when `i` is the last index, which, when no entry
occurs twice in the slice, is to say that the entry is the last of its
filtered sorted siblings; for `j < lvl` the guide number `j` of the prefix is
four spaces when that flag is true and `"│   "` otherwise, and for `j = lvl`
the flag chooses the branch glyph of the line. -/
theorem line_guides (L : Lib) (o : opts) (d : Node)
    (line : String) (q : List String) (e : Node) (lvl : Nat) (gs : List Bool) (il : Bool)
    (hev : Event.println line q e lvl gs il ∈ (render L o d).1) :
    line = guidePrefix gs ++ (if il = true then "└── " else "├── ") ++ e.Name ++ sizeNote o e ∧
    q.length = lvl + 1 ∧
    (guidePrefix gs).length = 4 * lvl ∧
    (lvl = 0 → guidePrefix gs = "") ∧
    (0 < lvl → ∃ line' q' e' gs' il',
      Event.println line' q' e' (lvl - 1) gs' il' ∈ (render L o d).1 ∧
      q = q' ++ [e.Name] ∧ e'.IsDir = true ∧
      guidePrefix gs = guidePrefix gs' ++ (if il' = true then "    " else "│   ")) ∧
    gs.length = lvl ∧
    guidePrefix gs = String.join (gs.map guide) ∧
    (∀ j, j ≤ lvl → ∃ line_j e_j il_j parent entries i,
      Event.println line_j (q.take (j + 1)) e_j j (gs.take j) il_j ∈ (render L o d).1 ∧
      (j = lvl → line_j = line ∧ e_j = e ∧ il_j = il) ∧
      (j < lvl → e_j.IsDir = true ∧
        (gs.map guide)[j]? = some (if il_j = true then "    " else "│   ")) ∧
      ReadDir parent = .ok entries ∧ (filtered L o entries)[i]? = some e_j ∧
      (il_j = true ↔ i + 1 = (filtered L o entries).length) ∧
      ((filtered L o entries).Nodup →
        (il_j = true ↔ (filtered L o entries).getLast? = some e_j)) ∧
      (j = 0 → parent = d) ∧
      (0 < j → ∃ line' gs' il',
        Event.println line' (q.take j) parent (j - 1) gs' il' ∈ (render L o d).1)) := by
  have hanc := render_ancestors L o d lvl line q e gs il hev
  unfold render at *
  obtain ⟨h1, h2, h3⟩ := walk_line_shape L o d [] 0 [] "" ⟨rfl, rfl, rfl⟩ _ hev _ _ _ _ _ _ rfl
  refine ⟨h1, h3, by rw [guidePrefix_length, h2], ?_, ?_, h2, guidePrefix_join gs, ?_⟩
  · intro h0
    have : gs = [] := List.length_eq_zero.mp (h2.trans h0)
    rw [this]; rfl
  · intro hpos
    rcases walk_parent L o d _ _ _ _ _ _ _ _ _ _ hev with ⟨h4, _⟩ | ⟨_, line', q', e', gs', il', h5, h6, h7, h8⟩
    · omega
    · refine ⟨line', q', e', gs', il', h5, h6, h7, ?_⟩
      rw [h8, guidePrefix_append]
      cases il' <;> rfl
  · intro j hj
    obtain ⟨line_j, e_j, il_j, parent, es, i, a1, a2, a3, a4, a5, a6, a7, a8⟩ := hanc j hj
    refine ⟨line_j, e_j, il_j, parent, es, i, a1, a2, ?_, a4, a5,
      (isLast_iff a5 a6).1, (isLast_iff a5 a6).2, a7, a8⟩
    intro hlt
    obtain ⟨b1, b2⟩ := a3 hlt
    refine ⟨b1, ?_⟩
    rw [List.getElem?_map, b2]
    cases il_j <;> rfl

theorem line_guides_witness :
    Event.println "│   └── x" ["A", "x"] (.file "x" none) 1 [true] true ∈
      (render goLib defaultOpts treeNested).1 ∧
    ("│   └── x" = guidePrefix [true] ++ (if true = true then "└── " else "├── ") ++
        (Node.file "x" none).Name ++ sizeNote defaultOpts (.file "x" none) ∧
      ["A", "x"].length = 1 + 1 ∧
      (guidePrefix [true]).length = 4 * 1 ∧
      (1 = 0 → guidePrefix [true] = "") ∧
      (0 < 1 → ∃ line' q' e' gs' il',
        Event.println line' q' e' (1 - 1) gs' il' ∈ (render goLib defaultOpts treeNested).1 ∧
        ["A", "x"] = q' ++ [(Node.file "x" none).Name] ∧ e'.IsDir = true ∧
        guidePrefix [true] = guidePrefix gs' ++ (if il' = true then "    " else "│   ")) ∧
      [true].length = 1 ∧
      guidePrefix [true] = String.join ([true].map guide) ∧
      (∀ j, j ≤ 1 → ∃ line_j e_j il_j parent entries i,
        Event.println line_j (["A", "x"].take (j + 1)) e_j j ([true].take j) il_j ∈
          (render goLib defaultOpts treeNested).1 ∧
        (j = 1 → line_j = "│   └── x" ∧ e_j = .file "x" none ∧ il_j = true) ∧
        (j < 1 → e_j.IsDir = true ∧
          ([true].map guide)[j]? = some (if il_j = true then "    " else "│   ")) ∧
        ReadDir parent = .ok entries ∧ (filtered goLib defaultOpts entries)[i]? = some e_j ∧
        (il_j = true ↔ i + 1 = (filtered goLib defaultOpts entries).length) ∧
        ((filtered goLib defaultOpts entries).Nodup →
          (il_j = true ↔ (filtered goLib defaultOpts entries).getLast? = some e_j)) ∧
        (j = 0 → parent = treeNested) ∧
        (0 < j → ∃ line' gs' il',
          Event.println line' (["A", "x"].take j) parent (j - 1) gs' il' ∈
            (render goLib defaultOpts treeNested).1))) :=
  ⟨by rw [render_treeNested]; simp,
    line_guides goLib defaultOpts treeNested "│   └── x" ["A", "x"] (.file "x" none) 1 [true]
      true (by rw [render_treeNested]; simp)⟩

/-- C3, the claim as stated fails with showSize set: the line printed for the
file `f` of size 0, a child of the root, is `"└── f (0B)"`, which is not
`prefix + branchGlyph + name` (`"└── f"`). -/
theorem line_guides_counterexample :
    Event.println "└── f (0B)" ["f"] (.file "f" (some 0)) 0 [] true ∈
      (render goLib sizeOpts treeSized).1 ∧
    stdout (render goLib sizeOpts treeSized).1 = ["└── f (0B)"] ∧
    "└── f (0B)" ≠ guidePrefix [] ++ "└── " ++ (Node.file "f" (some 0)).Name ∧
    "└── f (0B)" ≠ guidePrefix [] ++ "├── " ++ (Node.file "f" (some 0)).Name := by
  rw [render_treeSized]
  refine ⟨by simp, rfl, by decide, by decide⟩

end Gotree
